import Mathlib

/-!
# presign: the SigV4 presigning pipeline of `src/presign.c`

A shallow embedding of the C program.  C strings are modelled by the list of
their bytes up to (not including) the terminating NUL; a fixed `char buf[N]`
holds a string of at most `N - 1` bytes.  Functions that `exit(1)` return
`none` / `Except.error`.
-/

set_option maxRecDepth 100000
set_option maxHeartbeats 1000000

namespace Presign

/-! ## Bytes and strings -/

/-- An `unsigned char`. -/
abbrev Byte := Fin 256

/-- The byte of an ASCII character constant of the source. -/
def ch (c : Char) : Byte := Fin.ofNat c.toNat

/-- The bytes of a string constant of the source. -/
def bytes (s : String) : List Byte := s.toList.map ch

def MAX_URL_LEN : Nat := 4096
def MAX_PATH_LEN : Nat := 2048
def MAX_HEADER_LEN : Nat := 1024
def MAX_HEADERS : Nat := 32
def MAX_ENV_VAR_LEN : Nat := 512

/-- The string a `snprintf(buf, size, ...)` leaves in `buf` when the formatted
text is `s`: at most `size - 1` bytes are stored. -/
def snprintf (size : Nat) (s : List Byte) : List Byte := s.take (size - 1)

/-! ## `url_encode_component` (lines 41-87) -/

/-- The table `hex` of line 42. -/
def hex : List Byte := bytes "0123456789ABCDEF"

/-- The condition of lines 54-58 under which a byte is copied (`needed = 1`). -/
def is_unreserved (c : Byte) (keep_slash : Bool) : Bool :=
  (ch 'A' ≤ c && c ≤ ch 'Z') ||
  (ch 'a' ≤ c && c ≤ ch 'z') ||
  (ch '0' ≤ c && c ≤ ch '9') ||
  c == ch '-' || c == ch '_' || c == ch '.' || c == ch '~' ||
  (keep_slash && c == ch '/')

/-- The `while (*src)` loop of lines 50-79 followed by the final test of lines
81-86.  `src` is the memory from the read pointer on (the loop stops at a NUL
byte, or at the end of the list, which stands for the terminator), `remaining`
the free capacity and `d` the bytes written so far. -/
def url_encode_loop (keep_slash : Bool) : List Byte → Nat → List Byte → Option (List Byte)
  | [], remaining, d => if remaining = 0 then none else some d
  | c :: src, remaining, d =>
    if c = 0 then
      if remaining = 0 then none else some d
    else
      let needed := if is_unreserved c keep_slash then 1 else 3
      if needed ≥ remaining then none
      else if needed = 1 then
        url_encode_loop keep_slash src (remaining - 1) (d ++ [c])
      else
        url_encode_loop keep_slash src (remaining - 3)
          (d ++ [ch '%', hex.getD ((c.val / 16) % 16) 0, hex.getD (c.val % 16) 0])

/-- Model of `url_encode_component(src, dest, dest_size, keep_slash)`: `none` for
the return value `-1`, `some out` for `0` with the string `out` left in `dest`. -/
def url_encode_component (src : List Byte) (dest_size : Nat) (keep_slash : Bool) :
    Option (List Byte) :=
  if dest_size = 0 then none else url_encode_loop keep_slash src dest_size []

/-! ### The encoder as the specification words it -/

/-- The bytes the specification lists as passing through unchanged:
`A-Z a-z 0-9 - _ . ~`, and `/` when the slash is preserved. -/
def spec_pass_through (c : Byte) (preserveSlash : Bool) : Bool :=
  c ∈ bytes "ABCDEFGHIJKLMNOPQRSTUVWXYZ" || c ∈ bytes "abcdefghijklmnopqrstuvwxyz" ||
  c ∈ bytes "0123456789" || c ∈ bytes "-_.~" || (preserveSlash && c = ch '/')

/-- The upper-case hexadecimal digit of a value below 16. -/
def spec_hex_digit (n : Nat) : Byte :=
  if n < 10 then Fin.ofNat (ch '0').val + Fin.ofNat n else Fin.ofNat (ch 'A').val + Fin.ofNat (n - 10)

/-- What the specification emits for one byte: the byte itself, or `%` and its
two upper-case hexadecimal digits, high nibble first. -/
def spec_encode_byte (preserveSlash : Bool) (c : Byte) : List Byte :=
  if spec_pass_through c preserveSlash then [c]
  else [ch '%', spec_hex_digit (c.val / 16), spec_hex_digit (c.val % 16)]

/-- The specification's `encode(input, preserveSlash)`. -/
def spec_encode (preserveSlash : Bool) (s : List Byte) : List Byte :=
  s.flatMap (spec_encode_byte preserveSlash)

/-- The value of a hexadecimal digit. -/
def hex_value (c : Byte) : Option Nat :=
  if ch '0' ≤ c ∧ c ≤ ch '9' then some (c.val - 48)
  else if ch 'A' ≤ c ∧ c ≤ ch 'F' then some (c.val - 55)
  else if ch 'a' ≤ c ∧ c ≤ ch 'f' then some (c.val - 87)
  else none

/-- Percent-decoding as the round-trip property words it (the program has no
decoder): each `%HH` is replaced by the byte with hex value `HH`, every other
byte is kept. -/
def percent_decode : List Byte → List Byte
  | [] => []
  | c :: h :: l :: rest =>
    if c = ch '%' then
      match hex_value h, hex_value l with
      | some a, some b => Fin.ofNat (a * 16 + b) :: percent_decode rest
      | _, _ => c :: percent_decode (h :: l :: rest)
    else c :: percent_decode (h :: l :: rest)
  | c :: rest => c :: percent_decode rest


/-- Equality of outcomes is decidable. -/
instance {ε α : Type} [DecidableEq ε] [DecidableEq α] : DecidableEq (Except ε α)
  | .ok a, .ok b => if h : a = b then isTrue (by rw [h]) else isFalse (fun hh => h (by cases hh; rfl))
  | .error a, .error b =>
    if h : a = b then isTrue (by rw [h]) else isFalse (fun hh => h (by cases hh; rfl))
  | .ok _, .error _ => isFalse (fun hh => by cases hh)
  | .error _, .ok _ => isFalse (fun hh => by cases hh)

/-! ## Data model (lines 24-39) -/

/-- The struct `header_t`: two NUL-terminated strings. -/
structure header_t where
  key : List Byte
  value : List Byte
deriving DecidableEq, Repr

/-- The struct `presign_args_t`; `headers` is `headers[0 .. header_count - 1]`. -/
structure presign_args_t where
  service : List Byte
  method : List Byte
  region : List Byte
  bucket_url : List Byte
  path : List Byte
  expire_min : Int
  headers : List header_t
  now_override : List Byte
deriving DecidableEq, Repr

/-- The environment variables `generate_presigned_url` reads with `getenv`
(`none` when unset). -/
structure env_t where
  AWS_ACCESS_KEY_ID : Option (List Byte)
  AWS_SECRET_ACCESS_KEY : Option (List Byte)
  AWS_SESSION_TOKEN : Option (List Byte)
deriving DecidableEq, Repr

/-- The hash and MAC of the linked library (`sha256_hash`, `hmac_sha256`, lines
98-138), taken as functions of their byte arguments. -/
structure crypto_t where
  sha256_hash : List Byte → List Byte
  hmac_sha256 : List Byte → List Byte → List Byte

/-! ## libc helpers -/

/-- `SIZE_MAX` of a 64-bit `size_t`. -/
def SIZE_MAX : Nat := 2 ^ 64 - 1

/-- `tolower` in the "C" locale (the program never calls `setlocale`). -/
def tolower (c : Byte) : Byte :=
  if ch 'A' ≤ c ∧ c ≤ ch 'Z' then c + 32 else c

/-- `isspace` in the "C" locale: space, `\t`, `\n`, `\v`, `\f`, `\r`. -/
def isspace (c : Byte) : Bool :=
  c == ch ' ' || (9 ≤ c.val && c.val ≤ 13)

/-- `strcmp` on string contents: bytes are compared as `unsigned char`, a string
that ends first compares smaller.  C fixes only the sign of the result; the
model returns `-1`, `0` or `1`. -/
def strcmp : List Byte → List Byte → Int
  | [], [] => 0
  | [], _ :: _ => -1
  | _ :: _, [] => 1
  | a :: s, b :: t => if a.val < b.val then -1 else if b.val < a.val then 1 else strcmp s t

/-- `strstr(s, pat)`: the tail of `s` that starts at the first occurrence of
`pat`, `none` for `NULL`. -/
def strstr : List Byte → List Byte → Option (List Byte)
  | [], pat => if pat = [] then some [] else none
  | c :: s, pat => if (c :: s).take pat.length = pat then some (c :: s) else strstr s pat

/-- `strchr(s, c)` as the offset of the first `c` in `s`, `none` for `NULL`. -/
def strchr : List Byte → Byte → Option Nat
  | [], _ => none
  | x :: s, c => if x = c then some 0 else (strchr s c).map (· + 1)

/-- The digits of a positive number, most significant first, in front of `acc`. -/
def dec_digits : Nat → Nat → List Byte → List Byte
  | 0, _, acc => acc
  | fuel + 1, n, acc =>
    if n = 0 then acc else dec_digits fuel (n / 10) (Fin.ofNat (48 + n % 10) :: acc)

/-- The text `printf` produces for `%d`. -/
def fmt_d (i : Int) : List Byte :=
  if i = 0 then [ch '0']
  else if i < 0 then ch '-' :: dec_digits i.natAbs i.natAbs []
  else dec_digits i.natAbs i.natAbs []

/-! ## `to_hex`, `derive_signing_key`, `compare_headers` (lines 89-160) -/

/-- The table `hex_chars` of line 90. -/
def hex_chars : List Byte := bytes "0123456789abcdef"

/-- Model of `to_hex(data, len, hex)`: two digits for each of `data[0 .. len-1]`. -/
def to_hex (data : List Byte) (len : Nat) : List Byte :=
  (List.range len).flatMap fun i =>
    [hex_chars.getD (((data.getD i 0).val / 16) % 16) 0, hex_chars.getD ((data.getD i 0).val % 16) 0]

/-- Model of `derive_signing_key`: `aws_secret` is a 512-byte buffer filled by
`snprintf`, every later key is the 32 bytes of the previous MAC. -/
def derive_signing_key (crypto : crypto_t) (secret date region service : List Byte) : List Byte :=
  let aws_secret := snprintf MAX_ENV_VAR_LEN (bytes "AWS4" ++ secret)
  let date_key := crypto.hmac_sha256 aws_secret date
  let date_region_key := crypto.hmac_sha256 (date_key.take 32) region
  let date_region_service_key := crypto.hmac_sha256 (date_region_key.take 32) service
  crypto.hmac_sha256 (date_region_service_key.take 32) (bytes "aws4_request")

/-- Model of `compare_headers`: `strcmp` of the two keys as stored. -/
def compare_headers (ha hb : header_t) : Int := strcmp ha.key hb.key

/-- "`a` does not have to come after `b`": `compare_headers(a, b) <= 0`. -/
def header_le (a b : header_t) : Prop := compare_headers a b ≤ 0

instance : DecidableRel header_le := fun a b => by
  unfold header_le; infer_instance

/-- The contract of `qsort` with `compare_headers`: the output is a
rearrangement of the input in which no entry is followed, anywhere later, by
one that compares smaller. -/
def qsort_contract (input output : List header_t) : Prop :=
  output.Perm input ∧ output.Pairwise header_le

/-- An executable `qsort(all_headers, total_headers, sizeof(header_t),
compare_headers)`.  C leaves the relative order of entries that compare equal
open; this model keeps them in input order. -/
def qsort (all_headers : List header_t) : List header_t :=
  all_headers.insertionSort header_le

/-! ## `generate_presigned_url` (lines 162-456) -/

/-- The credential checks of lines 167-191: the access key and the secret key
when all of them pass. -/
def check_credentials (env : env_t) : Except String (List Byte × List Byte) :=
  match env.AWS_ACCESS_KEY_ID, env.AWS_SECRET_ACCESS_KEY with
  | some access_key, some secret_key =>
    if access_key.length ≥ MAX_ENV_VAR_LEN then
      .error "Error: AWS_ACCESS_KEY_ID too long (max 511 chars)"
    else if ch '%' ∈ access_key then
      .error "Error: AWS_ACCESS_KEY_ID contains invalid characters"
    else if secret_key.length ≥ MAX_ENV_VAR_LEN then
      .error "Error: AWS_SECRET_ACCESS_KEY too long (max 511 chars)"
    else if secret_key.length = 0 ∨ secret_key.length > 512 then
      .error "Error: AWS_SECRET_ACCESS_KEY invalid length (1-512 chars)"
    else .ok (access_key, secret_key)
  | _, _ => .error "Error: AWS_ACCESS_KEY_ID and AWS_SECRET_ACCESS_KEY must be set"

/-- The host of lines 225-249: the text after `://` up to the first `/`, which
must fit `char host[256]`. -/
def extract_host (bucket_url : List Byte) : Except String (List Byte) :=
  match strstr bucket_url (bytes "://") with
  | none => .error "Error: Invalid bucket URL format"
  | some found =>
    let url_start := found.drop 3
    match strchr url_start (ch '/') with
    | some host_len =>
      if host_len ≥ 256 then .error "Error: Bucket host too long (max 255 chars)"
      else .ok (url_start.take host_len)
    | none =>
      if url_start.length ≥ 256 then .error "Error: Bucket host too long (max 255 chars)"
      else .ok (url_start.take (256 - 1))

/-- The canonical URI of lines 251-263. -/
def canonical_uri (path : List Byte) : Except String (List Byte) :=
  if path.getD 0 0 ≠ ch '/' then
    match url_encode_component path (MAX_PATH_LEN - 1) true with
    | none => .error "Error: Encoded PATH exceeds maximum length"
    | some encoded => .ok (ch '/' :: encoded)
  else
    match url_encode_component path MAX_PATH_LEN true with
    | none => .error "Error: Encoded PATH exceeds maximum length"
    | some encoded => .ok encoded

/-- The credential scope of lines 265-267, in `char credential_scope[256]`. -/
def credential_scope (date_stamp region service : List Byte) : List Byte :=
  snprintf 256 (date_stamp ++ bytes "/" ++ region ++ bytes "/" ++ service ++ bytes "/aws4_request")

/-- The credential of lines 269-270, in `char credential[512]`. -/
def credential (access_key scope : List Byte) : List Byte :=
  snprintf 512 (access_key ++ bytes "/" ++ scope)

/-- The array `all_headers` after lines 275-284: the `host` header first, then
the caller's headers in order. -/
def merge_headers (host : List Byte) (headers : List header_t) : List header_t :=
  { key := bytes "host", value := host } :: headers

/-- The loop `while (end > start && isspace(*end)) end--` of lines 306-309, on
the offset of `end` from `start`; the result is the final offset. -/
def trim_end (start : List Byte) : Nat → Nat
  | 0 => 0
  | e + 1 => if isspace (start.getD (e + 1) 0) then trim_end start e else e + 1

/-- The string `start` points to after lines 296-311: the value copied into
`trimmed_value[1024]`, leading white space skipped, then cut after the last
byte that is not white space. -/
def trim_value (value : List Byte) : List Byte :=
  let trimmed_value := value.take (MAX_HEADER_LEN - 1)
  let start := trimmed_value.dropWhile isspace
  let start_len := start.length
  if start_len > 0 then start.take (trim_end start (start_len - 1) + 1) else start

/-- The text the four `strcat` calls of lines 331-334 append for one header. -/
def header_entry (h : header_t) : List Byte :=
  h.key.map tolower ++ bytes ":" ++ trim_value h.value ++ bytes "\n"

/-- The loop of lines 288-335 over the sorted `all_headers`, with the block
built so far. -/
def canonical_headers_loop : List header_t → List Byte → Except String (List Byte)
  | [], canonical_headers => .ok canonical_headers
  | h :: rest, canonical_headers =>
    let lower_key := h.key.map tolower
    let start := trim_value h.value
    let canonical_len := canonical_headers.length
    let key_len := lower_key.length
    let value_len := start.length
    if key_len > SIZE_MAX - 1 ∨ value_len > SIZE_MAX - 1 ∨
        key_len + 1 > SIZE_MAX - (value_len + 1) then
      .error "Error: Header too long - integer overflow"
    else
      let needed_len := key_len + 1 + value_len + 1
      if canonical_len > SIZE_MAX - needed_len ∨
          canonical_len + needed_len > MAX_HEADER_LEN * MAX_HEADERS then
        .error "Error: Too many/large headers - canonical headers buffer overflow"
      else
        canonical_headers_loop rest
          (canonical_headers ++ lower_key ++ bytes ":" ++ start ++ bytes "\n")

/-- The loop of lines 340-362 over the sorted `all_headers`; `i` is the loop
index and `signed_headers_final` the list built so far. -/
def signed_headers_loop : List header_t → Nat → List Byte → Except String (List Byte)
  | [], _, signed_headers_final => .ok signed_headers_final
  | h :: rest, i, signed_headers_final =>
    if i > 0 ∧ signed_headers_final.length + 1 ≥ MAX_HEADER_LEN then
      .error "Error: Too many headers - signed headers final buffer overflow"
    else
      let joined := if i > 0 then signed_headers_final ++ bytes ";" else signed_headers_final
      if joined.length + h.key.length ≥ MAX_HEADER_LEN then
        .error "Error: Header names too long - signed headers final buffer overflow"
      else signed_headers_loop rest (i + 1) (joined ++ h.key.map tolower)

/-- The text of the `snprintf` of lines 383-389. -/
def query_format (credential_encoded datetime_encoded : List Byte) (expires : Int)
    (signed_headers_encoded : List Byte) : List Byte :=
  bytes "X-Amz-Algorithm=AWS4-HMAC-SHA256&" ++
  bytes "X-Amz-Credential=" ++ credential_encoded ++ bytes "&" ++
  bytes "X-Amz-Date=" ++ datetime_encoded ++ bytes "&" ++
  bytes "X-Amz-Expires=" ++ fmt_d expires ++ bytes "&" ++
  bytes "X-Amz-SignedHeaders=" ++ signed_headers_encoded

/-- The query string of lines 364-417: `query_params` when control reaches line
419.  `expire_min * 60` is an `int` product; it does not overflow for the
expiries `main` lets through. -/
def build_query (credential datetime signed_headers_final : List Byte) (expire_min : Int)
    (session_token : Option (List Byte)) : Except String (List Byte) :=
  match url_encode_component credential (512 * 3) false with
  | none => .error "Error: Encoded credential exceeds maximum length"
  | some credential_encoded =>
  match url_encode_component datetime (32 * 3) false with
  | none => .error "Error: Encoded datetime exceeds maximum length"
  | some datetime_encoded =>
  match url_encode_component signed_headers_final (MAX_HEADER_LEN * 3) false with
  | none => .error "Error: Encoded signed headers exceeds maximum length"
  | some signed_headers_encoded =>
    let text := query_format credential_encoded datetime_encoded (expire_min * 60)
      signed_headers_encoded
    if text.length ≥ MAX_URL_LEN then .error "Error: Query parameters too long"
    else
      let query_params := snprintf MAX_URL_LEN text
      match session_token with
      | none => .ok query_params
      | some token =>
        if token.length ≥ MAX_ENV_VAR_LEN then
          .error "Error: AWS_SESSION_TOKEN too long (max 511 chars)"
        else
          match url_encode_component token (MAX_ENV_VAR_LEN * 3) false with
          | none => .error "Error: Encoded session token exceeds maximum length"
          | some encoded_token =>
            if query_params.length + (bytes "&X-Amz-Security-Token=").length +
                encoded_token.length ≥ MAX_URL_LEN then
              .error "Error: Query parameters too long - buffer overflow"
            else .ok (query_params ++ bytes "&X-Amz-Security-Token=" ++ encoded_token)

/-- The text of the `snprintf` of lines 420-422, before it is stored. -/
def canonical_request_format (method uri query headers signed : List Byte) : List Byte :=
  method ++ bytes "\n" ++ uri ++ bytes "\n" ++ query ++ bytes "\n" ++ headers ++ bytes "\n" ++
    signed ++ bytes "\nUNSIGNED-PAYLOAD"

/-- The canonical request of lines 419-425, in
`char canonical_request[MAX_URL_LEN * 2]`. -/
def canonical_request (method uri query headers signed : List Byte) : List Byte :=
  snprintf (MAX_URL_LEN * 2) (canonical_request_format method uri query headers signed)

/-- The values `generate_presigned_url` has built when it reaches line 426. -/
structure canonical_t where
  access_key : List Byte
  secret_key : List Byte
  host : List Byte
  canonical_uri : List Byte
  credential_scope : List Byte
  credential : List Byte
  all_headers : List header_t
  canonical_headers : List Byte
  signed_headers_final : List Byte
  query_params : List Byte
  canonical_request : List Byte
deriving DecidableEq, Repr

/-- Lines 163-425 of `generate_presigned_url`, given the strings `date_stamp`
and `datetime` that `strftime` left at lines 220-223. -/
def canonicalize (env : env_t) (args : presign_args_t) (date_stamp datetime : List Byte) :
    Except String canonical_t := do
  let (access_key, secret_key) ← check_credentials env
  let host ← extract_host args.bucket_url
  let uri ← canonical_uri args.path
  let scope := credential_scope date_stamp args.region args.service
  let cred := credential access_key scope
  let all_headers := qsort (merge_headers host args.headers)
  let headers ← canonical_headers_loop all_headers []
  let signed ← signed_headers_loop all_headers 0 []
  let query ← build_query cred datetime signed args.expire_min env.AWS_SESSION_TOKEN
  return {
    access_key := access_key, secret_key := secret_key, host := host, canonical_uri := uri,
    credential_scope := scope, credential := cred, all_headers := all_headers,
    canonical_headers := headers, signed_headers_final := signed, query_params := query,
    canonical_request := canonical_request args.method uri query headers signed }

/-- What a successful run has computed; `url` is the line it prints. -/
structure result_t where
  canonical : canonical_t
  canonical_hash_hex : List Byte
  string_to_sign : List Byte
  signature_hex : List Byte
  url : List Byte

/-- Model of `generate_presigned_url`: `Except.error` with the message when the
run ends in `exit(1)`, otherwise what it computed and printed. -/
def generate_presigned_url (crypto : crypto_t) (env : env_t) (args : presign_args_t)
    (date_stamp datetime : List Byte) : Except String result_t := do
  let c ← canonicalize env args date_stamp datetime
  let canonical_hash := crypto.sha256_hash c.canonical_request
  let canonical_hash_hex := to_hex canonical_hash 32
  let string_to_sign := snprintf 1024
    (bytes "AWS4-HMAC-SHA256\n" ++ datetime ++ bytes "\n" ++ c.credential_scope ++ bytes "\n" ++
      canonical_hash_hex)
  let signing_key := derive_signing_key crypto c.secret_key date_stamp args.region args.service
  let signature := crypto.hmac_sha256 (signing_key.take 32) string_to_sign
  let signature_hex := to_hex signature 32
  return {
    canonical := c, canonical_hash_hex := canonical_hash_hex, string_to_sign := string_to_sign,
    signature_hex := signature_hex,
    url := args.bucket_url ++ c.canonical_uri ++ bytes "?" ++ c.query_params ++
      bytes "&X-Amz-Signature=" ++ signature_hex }

/-- A string as a `char buf[cap]` holds it: no NUL byte inside, and room left
for the terminator. -/
def c_string (cap : Nat) (s : List Byte) : Prop := s.length < cap ∧ (0 : Byte) ∉ s

instance (cap : Nat) (s : List Byte) : Decidable (c_string cap s) := by
  unfold c_string; infer_instance

/-- What `main` (lines 527-667) guarantees of the request it passes on, together
with the sizes of the fields of `presign_args_t`. -/
def validated (args : presign_args_t) : Prop :=
  args.service = bytes "s3" ∧
  (args.method = bytes "GET" ∨ args.method = bytes "PUT" ∨ args.method = bytes "DELETE") ∧
  c_string 64 args.region ∧
  c_string MAX_URL_LEN args.bucket_url ∧ args.bucket_url.getLast? ≠ some (ch '/') ∧
  c_string MAX_PATH_LEN args.path ∧
  (0 < args.expire_min ∧ args.expire_min ≤ 10080) ∧
  args.headers.length ≤ MAX_HEADERS ∧
  (∀ h ∈ args.headers, c_string MAX_HEADER_LEN h.key ∧ ch ':' ∉ h.key ∧
    c_string MAX_HEADER_LEN h.value ∧ ∀ c ∈ h.value, ¬ (c.val < 32 ∧ c ≠ ch '\t')) ∧
  c_string 32 args.now_override

instance (args : presign_args_t) : Decidable (validated args) := by
  unfold validated; infer_instance

/-! ## The canonical forms as the specification words them -/

/-- The specification's lower-casing of one byte: `A-Z` go to `a-z`, every
other byte is left unchanged. -/
def spec_lower_byte (c : Byte) : Byte :=
  match (bytes "ABCDEFGHIJKLMNOPQRSTUVWXYZ").indexOf? c with
  | some i => (bytes "abcdefghijklmnopqrstuvwxyz").getD i c
  | none => c

/-- The specification's lower-cased key. -/
def spec_lower (key : List Byte) : List Byte := key.map spec_lower_byte

/-- White space: space, tab, line feed, vertical tab, form feed, carriage
return. -/
def spec_white (c : Byte) : Bool := c ∈ [ch ' ', ch '\t', ch '\n', 11, 12, ch '\r']

/-- The specification's trimming: leading and trailing white space is removed,
everything between the first and the last other byte is kept as supplied. -/
def spec_trim (value : List Byte) : List Byte :=
  ((value.dropWhile spec_white).reverse.dropWhile spec_white).reverse

/-- The specification's canonical header entry `key:value\n`. -/
def spec_entry (h : header_t) : List Byte :=
  spec_lower h.key ++ [ch ':'] ++ spec_trim h.value ++ [ch '\n']

/-- The parameter names of a query string: the text before the first `=` of
each of its `&`-separated pairs. -/
def query_names (query : List Byte) : List (List Byte) :=
  (query.splitOn (ch '&')).map fun pair => pair.takeWhile (· ≠ ch '=')

/-- The names of the five presign parameters of lines 384-388, in the order of
the format string. -/
def five_names : List (List Byte) :=
  [bytes "X-Amz-Algorithm", bytes "X-Amz-Credential", bytes "X-Amz-Date", bytes "X-Amz-Expires",
   bytes "X-Amz-SignedHeaders"]

/-- The query string made of the pairs `name=value`, joined by `&`. -/
def join_pairs (pairs : List (List Byte × List Byte)) : List Byte :=
  [ch '&'].intercalate (pairs.map fun p => p.1 ++ [ch '='] ++ p.2)

/-- "Strictly ascending under byte-wise comparison" for a list of strings. -/
def strictly_ascending (keys : List (List Byte)) : Prop :=
  keys.Pairwise fun a b => strcmp a b < 0

/-- "Ascending under byte-wise comparison", equal neighbours allowed. -/
def ascending (keys : List (List Byte)) : Prop :=
  keys.Pairwise fun a b => strcmp a b ≤ 0

instance (keys : List (List Byte)) : Decidable (strictly_ascending keys) := by
  unfold strictly_ascending; infer_instance

instance (keys : List (List Byte)) : Decidable (ascending keys) := by
  unfold ascending; infer_instance


/-! ## Sample runs -/

/-- The credentials of the end-to-end scenario, without a session token. -/
def sample_env : env_t :=
  { AWS_ACCESS_KEY_ID := some (bytes "AKIDEXAMPLE"),
    AWS_SECRET_ACCESS_KEY := some (bytes "secret"),
    AWS_SESSION_TOKEN := none }

/-- The request of the end-to-end scenario with the given extra headers. -/
def sample_args (headers : List header_t) : presign_args_t :=
  { service := bytes "s3", method := bytes "GET", region := bytes "fr-par",
    bucket_url := bytes "https://s3.fr-par.scw.cloud", path := bytes "mybucket/key.txt",
    expire_min := 15, headers := headers, now_override := bytes "2025-01-01T00:00:00Z" }

/-- The date of the end-to-end scenario as `strftime` renders it. -/
def sample_date_stamp : List Byte := bytes "20250101"

/-- The time of the end-to-end scenario as `strftime` renders it. -/
def sample_datetime : List Byte := bytes "20250101T000000Z"

/-- A header value of 1023 bytes `a`, the longest `main` accepts. -/
def long_value : List Byte := List.replicate 1023 (ch 'a')

/-- Eight caller headers `x0` .. `x7`, each with a value of 1023 bytes. -/
def long_headers : List header_t :=
  [bytes "x0", bytes "x1", bytes "x2", bytes "x3", bytes "x4", bytes "x5", bytes "x6",
    bytes "x7"].map fun key => { key := key, value := long_value }

/-- What `canonicalize` built, for a run that is known to have succeeded. -/
def built (r : Except String canonical_t) : canonical_t :=
  match r with
  | .ok c => c
  | .error _ =>
    { access_key := [], secret_key := [], host := [], canonical_uri := [],
      credential_scope := [], credential := [], all_headers := [], canonical_headers := [],
      signed_headers_final := [], query_params := [], canonical_request := [] }

/-! ## libc time functions (lines 193-223)

`strptime`, `timegm`, `gmtime` and `strftime` belong to the C library, not to
the program.  They are modelled here for the one format each is called with,
after glibc: a numeric field takes at most its maximal number of digits,
leading zeros are not required, and parsing stops at the end of the format. -/

/-- The fields of `struct tm` the program uses (`tm_year` counts from 1900,
`tm_mon` from 0). -/
structure tm_t where
  tm_year : Int
  tm_mon : Int
  tm_mday : Int
  tm_hour : Int
  tm_min : Int
  tm_sec : Int
deriving DecidableEq, Repr

/-- `isdigit`. -/
def isdigit (c : Byte) : Bool := ch '0' ≤ c && c ≤ ch '9'

/-- The digit loop of glibc's `get_number`: up to `n` further digits are read
while ten times the value read so far does not exceed `hi`. -/
def read_digits (hi : Nat) : Nat → Nat → List Byte → Nat × List Byte
  | 0, val, rp => (val, rp)
  | _ + 1, val, [] => (val, [])
  | n + 1, val, c :: rp =>
    if val * 10 ≤ hi ∧ isdigit c = true then read_digits hi n (val * 10 + (c.val - 48)) rp
    else (val, c :: rp)

/-- A numeric field of `strptime` (glibc's `get_number(lo, hi, n)`): white space
is skipped, a digit is required, and the value must lie in `[lo, hi]`.  The
result is the value and the unread text. -/
def get_number (lo hi n : Nat) (rp : List Byte) : Option (Nat × List Byte) :=
  match rp.dropWhile isspace with
  | [] => none
  | c :: rest =>
    if isdigit c = true then
      let r := read_digits hi (n - 1) (c.val - 48) rest
      if r.1 < lo ∨ r.1 > hi then none else some r
    else none

/-- An ordinary character of the format: it must be the next character read. -/
def match_char (c : Char) (rp : List Byte) : Option (List Byte) :=
  match rp with
  | x :: rest => if x = ch c then some rest else none
  | [] => none

/-- The format `%Y-%m-%dT%H:%M:%SZ` as `strptime` reads it: six numeric fields,
each with its least value, greatest value and greatest number of digits, and
each followed by an ordinary character. -/
def now_format : List (Nat × Nat × Nat × Char) :=
  [(0, 9999, 4, '-'), (1, 12, 2, '-'), (1, 31, 2, 'T'), (0, 23, 2, ':'), (0, 59, 2, ':'),
   (0, 61, 2, 'Z')]

/-- The loop of `strptime` over the format: the values of the fields read, and
the text left when the format is used up. -/
def parse_fields : List (Nat × Nat × Nat × Char) → List Byte → Option (List Nat × List Byte)
  | [], s => some ([], s)
  | (lo, hi, n, sep) :: format, s =>
    match get_number lo hi n s with
    | none => none
    | some (value, s1) =>
      match match_char sep s1 with
      | none => none
      | some s2 =>
        match parse_fields format s2 with
        | none => none
        | some (values, s3) => some (value :: values, s3)

/-- Model of `strptime(s, "%Y-%m-%dT%H:%M:%SZ", &tm)`: `none` for `NULL`,
otherwise the fields read and the text that was not parsed (the program
ignores that text). -/
def strptime (s : List Byte) : Option (tm_t × List Byte) :=
  match parse_fields now_format s with
  | some ([year, mon, mday, hour, min, sec], rest) =>
    some ({ tm_year := (year : Int) - 1900, tm_mon := (mon : Int) - 1, tm_mday := mday,
            tm_hour := hour, tm_min := min, tm_sec := sec }, rest)
  | _ => none

/-- Days from 1970-01-01 to the given day of the proleptic Gregorian calendar
(month counted from 1); a day number past the end of the month runs on into
the following months. -/
def days_from_civil (year month day : Int) : Int :=
  let y := if month ≤ 2 then year - 1 else year
  let era := y / 400
  let yoe := y - era * 400
  let mp := if month > 2 then month - 3 else month + 9
  let doy := (153 * mp + 2) / 5 + day - 1
  let doe := yoe * 365 + yoe / 4 - yoe / 100 + doy
  era * 146097 + doe - 719468

/-- Model of `timegm(&tm)` for a `tm` whose month is in range: seconds since the
epoch. -/
def timegm (tm : tm_t) : Int :=
  days_from_civil (tm.tm_year + 1900) (tm.tm_mon + 1) tm.tm_mday * 86400 +
    tm.tm_hour * 3600 + tm.tm_min * 60 + tm.tm_sec

/-- Model of `gmtime(&now)`: the calendar date and time of day of a number of
seconds since the epoch. -/
def gmtime (now : Int) : tm_t :=
  let days := now / 86400
  let secs := now % 86400
  let z := days + 719468
  let era := z / 146097
  let doe := z - era * 146097
  let yoe := (doe - doe / 1460 + doe / 36524 - doe / 146096) / 365
  let doy := doe - (365 * yoe + yoe / 4 - yoe / 100)
  let mp := (5 * doy + 2) / 153
  let day := doy - (153 * mp + 2) / 5 + 1
  let month := if mp < 10 then mp + 3 else mp - 9
  let year := if month ≤ 2 then yoe + era * 400 + 1 else yoe + era * 400
  { tm_year := year - 1900, tm_mon := month - 1, tm_mday := day,
    tm_hour := secs / 3600, tm_min := secs % 3600 / 60, tm_sec := secs % 60 }

/-- A field `strftime` writes with two digits (`%m`, `%d`, `%H`, `%M`, `%S`). -/
def two_digits (n : Int) : List Byte :=
  [Fin.ofNat (48 + n.toNat / 10 % 10), Fin.ofNat (48 + n.toNat % 10)]

/-- Model of `strftime(date_stamp, 16, "%Y%m%d", tm)`; `%Y` is the year in
decimal, which has four digits for the years 1000 to 9999. -/
def strftime_date_stamp (tm : tm_t) : List Byte :=
  fmt_d (tm.tm_year + 1900) ++ two_digits (tm.tm_mon + 1) ++ two_digits tm.tm_mday

/-- Model of `strftime(datetime, 32, "%Y%m%dT%H%M%SZ", tm)`. -/
def strftime_datetime (tm : tm_t) : List Byte :=
  fmt_d (tm.tm_year + 1900) ++ two_digits (tm.tm_mon + 1) ++ two_digits tm.tm_mday ++
    bytes "T" ++ two_digits tm.tm_hour ++ two_digits tm.tm_min ++ two_digits tm.tm_sec ++
    bytes "Z"

/-- Lines 193-223 of `generate_presigned_url`: the strings `date_stamp` and
`datetime`, from the `--now` override when there is one and from the clock
(`time(NULL)`) otherwise. -/
def resolve_time (now_override : List Byte) (clock : Int) :
    Except String (List Byte × List Byte) :=
  if now_override.length > 0 then
    match strptime now_override with
    | none => .error "Error: Invalid --now format. Use YYYY-MM-DDTHH:MM:SSZ"
    | some (tm_override, _) =>
      let now := timegm tm_override
      if now = -1 then .error "Error: Invalid time conversion"
      else .ok (strftime_date_stamp (gmtime now), strftime_datetime (gmtime now))
  else .ok (strftime_date_stamp (gmtime clock), strftime_datetime (gmtime clock))

/-- Model of the whole of `generate_presigned_url`: the credential checks, then
the time of lines 193-223, then the rest of the function. -/
def presign (crypto : crypto_t) (env : env_t) (args : presign_args_t) (clock : Int) :
    Except String result_t := do
  let _ ← check_credentials env
  let (date_stamp, datetime) ← resolve_time args.now_override clock
  generate_presigned_url crypto env args date_stamp datetime

/-! ## `main` (lines 483-677) -/

/-- `toupper` in the "C" locale. -/
def toupper (c : Byte) : Byte :=
  if ch 'a' ≤ c ∧ c ≤ ch 'z' then c - 32 else c

/-- `LONG_MAX` of a 64-bit `long`. -/
def LONG_MAX : Int := 2 ^ 63 - 1

/-- `LONG_MIN` of a 64-bit `long`. -/
def LONG_MIN : Int := -(2 ^ 63)

/-- `INT_MAX` of a 32-bit `int`. -/
def INT_MAX : Int := 2 ^ 31 - 1

/-- The number a string of decimal digits denotes. -/
def digits_value (digits : List Byte) : Nat :=
  digits.foldl (fun acc d => acc * 10 + (d.val - 48)) 0

/-- Model of `strtol(nptr, &endptr, 10)`: white space is skipped, then an
optional sign and the longest run of digits are read; the value is clamped to
the range of `long`.  The result is the value and the string `endptr` points
to, which is `nptr` itself when there is no digit to convert. -/
def strtol (nptr : List Byte) : Int × List Byte :=
  let s := nptr.dropWhile isspace
  let negative := s.head? = some (ch '-')
  let t := if s.head? = some (ch '-') ∨ s.head? = some (ch '+') then s.drop 1 else s
  let digits := t.takeWhile isdigit
  if digits = [] then (0, nptr)
  else if negative then (max LONG_MIN (-(digits_value digits : Int)), t.dropWhile isdigit)
  else (min LONG_MAX (digits_value digits : Int), t.dropWhile isdigit)

/-- The conversion `(int)expire_long` of line 588: the value is reduced modulo
`2 ^ 32` into the range of `int`. -/
def int_of_long (v : Int) : Int := (v + 2 ^ 31) % 2 ^ 32 - 2 ^ 31

/-- Lines 578-588: the value stored in `args.expire_min`. -/
def parse_expire (expire_arg : List Byte) : Except String Int :=
  let (expire_long, endptr) := strtol expire_arg
  if expire_arg = [] ∨ endptr ≠ [] then .error "Error: EXPIRE_MIN must be an integer"
  else if expire_long > INT_MAX then .error "Error: EXPIRE_MIN too large"
  else .ok (int_of_long expire_long)

/-- Lines 611-614: the range check on `args.expire_min`. -/
def check_expire (expire_min : Int) : Except String Int :=
  if expire_min ≤ 0 ∨ expire_min > 10080 then
    .error "Error: EXPIRE_MIN must be between 1 and 10080 (7 days)"
  else .ok expire_min

/-- Lines 623-656: the header stored for the argument of one `--header`
option. -/
def parse_header (arg : List Byte) : Except String header_t :=
  match strchr arg (ch ':') with
  | none => .error "Error: Invalid header format. Use 'Key: Value'"
  | some key_len =>
    if key_len ≥ MAX_HEADER_LEN then .error "Error: Header key too long (max 1023 chars)"
    else if (arg.drop (key_len + 1)).length ≥ MAX_HEADER_LEN then
      .error "Error: Header value too long (max 1023 chars)"
    else
      let key := arg.take key_len
      let copied := (arg.drop (key_len + 1)).take (MAX_HEADER_LEN - 1)
      let value := if copied.getD 0 0 = ch ' ' then copied.drop 1 else copied
      if value.any fun c => c.val < 32 && c != ch '\t' then
        .error "Error: Header value contains control characters"
      else .ok { key := key, value := value }

/-- The option loop of lines 616-673 over `argv[i ..]`. -/
def parse_options : List (List Byte) → presign_args_t → Except String presign_args_t
  | [], args => .ok args
  | [_], _ => .error "Error: Unknown option"
  | option :: value :: rest, args =>
    if option = bytes "--header" then
      if args.headers.length ≥ MAX_HEADERS then .error "Error: Too many headers (max 32)"
      else
        match parse_header value with
        | .error msg => .error msg
        | .ok header => parse_options rest { args with headers := args.headers ++ [header] }
    else if option = bytes "--now" then
      if value.length ≥ 32 then .error "Error: Timestamp too long (max 31 chars)"
      else parse_options rest { args with now_override := value.take (32 - 1) }
    else .error "Error: Unknown option"

/-- Lines 492-673 of `main`: the request passed to `generate_presigned_url`.
`argv` starts with the program name; `S3_REGION` and `S3_ENDPOINT` are the
environment variables of those names. -/
def parse_args (argv : List (List Byte)) (S3_REGION S3_ENDPOINT : Option (List Byte)) :
    Except String presign_args_t :=
  let argc := argv.length
  if argc < 5 then .error "Usage" else
  let first_option := (argv.drop 3).findIdx (fun a => a.take 2 = bytes "--") + 3
  let positional_count := first_option - 3
  if positional_count < 2 ∨ positional_count > 4 then
    .error "Error: Invalid positional arguments"
  else
  let region_cli := if positional_count ≥ 3 then some (argv.getD 3 []) else none
  let endpoint_cli := if positional_count = 4 then some (argv.getD 4 []) else none
  let path_arg := argv.getD (first_option - 2) []
  let expire_arg := argv.getD (first_option - 1) []
  if (argv.getD 1 []).length ≥ 16 then .error "Error: Service name too long (max 15 chars)"
  else if (argv.getD 2 []).length ≥ 16 then .error "Error: Method name too long (max 15 chars)"
  else if path_arg.length ≥ MAX_PATH_LEN then .error "Error: Path too long (max 2047 chars)"
  else
  match region_cli.orElse (fun _ => S3_REGION) with
  | none => .error "Error: REGION is required (provide CLI argument or set S3_REGION)"
  | some region_value =>
  if region_value.length ≥ 64 then .error "Error: Region name too long (max 63 chars)" else
  match endpoint_cli.orElse (fun _ => S3_ENDPOINT) with
  | none => .error "Error: ENDPOINT is required (provide CLI argument or set S3_ENDPOINT)"
  | some endpoint_value =>
  if endpoint_value.length ≥ MAX_URL_LEN then .error "Error: Endpoint too long (max 4095 chars)"
  else
  let bucket_url := endpoint_value.rdropWhile (· = ch '/')
  match parse_expire expire_arg with
  | .error msg => .error msg
  | .ok expire_min =>
  let service := (argv.getD 1 []).map tolower
  let method := (argv.getD 2 []).map toupper
  if service ≠ bytes "s3" then .error "Error: SERVICE must be 's3'"
  else if method ≠ bytes "GET" ∧ method ≠ bytes "PUT" ∧ method ≠ bytes "DELETE" then
    .error "Error: METHOD must be GET, PUT, or DELETE"
  else
  match check_expire expire_min with
  | .error msg => .error msg
  | .ok _ =>
    parse_options (argv.drop first_option)
      { service := service, method := method, region := region_value, bucket_url := bucket_url,
        path := path_arg, expire_min := expire_min, headers := [], now_override := [] }

/-- How a run of the program ends. -/
inductive exit_t where
  | version
  | failure (msg : String)
  | printed (r : result_t)

/-- Model of `main`: the version is printed when any argument is `--version`
or `-v`; otherwise the arguments are checked and the URL is generated. -/
def main (crypto : crypto_t) (argv : List (List Byte)) (S3_REGION S3_ENDPOINT : Option (List Byte))
    (env : env_t) (clock : Int) : exit_t :=
  if (argv.drop 1).any (fun a => a = bytes "--version" ∨ a = bytes "-v") then .version
  else
    match parse_args argv S3_REGION S3_ENDPOINT with
    | .error msg => .failure msg
    | .ok args =>
      match presign crypto env args clock with
      | .error msg => .failure msg
      | .ok r => .printed r

/-! ## The signer as the specification words it -/

/-- The specification's signing key: `kSecret = "AWS4" + secretKey`, then the
chain of four MACs. -/
def spec_signing_key (crypto : crypto_t) (secretKey dateStamp region service : List Byte) :
    List Byte :=
  let kSecret := bytes "AWS4" ++ secretKey
  let kDate := crypto.hmac_sha256 kSecret dateStamp
  let kRegion := crypto.hmac_sha256 kDate region
  let kService := crypto.hmac_sha256 kRegion service
  crypto.hmac_sha256 kService (bytes "aws4_request")

/-- The digests and MACs of the library are 32 bytes long, as SHA-256 has them. -/
def digest_sized (crypto : crypto_t) : Prop :=
  (∀ m, (crypto.sha256_hash m).length = 32) ∧ ∀ k m, (crypto.hmac_sha256 k m).length = 32

/-- The lower-case hexadecimal digit of a value below 16. -/
def spec_hex_lower_digit (n : Nat) : Byte :=
  if n < 10 then Fin.ofNat (ch '0').val + Fin.ofNat n else Fin.ofNat (ch 'a').val + Fin.ofNat (n - 10)

/-- The specification's `hex`: two lower-case digits per byte, high nibble
first. -/
def spec_hex_lower (data : List Byte) : List Byte :=
  data.flatMap fun b => [spec_hex_lower_digit (b.val / 16), spec_hex_lower_digit (b.val % 16)]

/-- The decimal rendering of a positive number: its digits, most significant
first. -/
def spec_decimal (n : Nat) : List Byte :=
  (Nat.digits 10 n).reverse.map fun d => Fin.ofNat (48 + d)

/-- The (key, value) entries of the canonical header block built from the
sorted array `all_headers`: each lower-cased key with its trimmed value, in the
order of the block. -/
def block_entries (all_headers : List header_t) : List header_t :=
  all_headers.map fun h => { key := h.key.map tolower, value := trim_value h.value }

/-- The canonicalization of a header list by lines 286-335: sort, then
lower-case, trim and emit. -/
def canonicalize_headers (headers : List header_t) : Except String (List Byte) :=
  canonical_headers_loop (qsort headers) []

/-! ## More sample input -/

/-- A stand-in for the library with digests and MACs of 32 bytes, to run the
model on sample input: each byte is the last byte of the message, respectively
of the key. -/
def sample_crypto : crypto_t :=
  { sha256_hash := fun m => List.replicate 32 (m.getLast?.getD 0),
    hmac_sha256 := fun k _ => List.replicate 32 (k.getLast?.getD 0) }

/-- A secret key of 508 bytes: 507 bytes `a` and a last byte. -/
def long_secret (last : Byte) : List Byte := List.replicate 507 (ch 'a') ++ [last]

/-- The command line of the end-to-end scenario, with the given `EXPIRE_MIN`
argument and the given options after it. -/
def sample_argv (expire_arg : List Byte) (options : List (List Byte)) : List (List Byte) :=
  [bytes "presign", bytes "s3", bytes "GET", bytes "fr-par", bytes "https://s3.fr-par.scw.cloud",
    bytes "mybucket/key.txt", expire_arg] ++ options

/-! ## The return statements of `url_encode_component` (lines 41-87) -/

/-- How a call of `url_encode_component` returns: through one of the three
`return -1`, or through `return 0` with the string left in `dest`. -/
inductive encode_return where
  | dest_size_zero
  | needed_ge_remaining
  | remaining_zero
  | done (out : List Byte)
deriving DecidableEq, Repr

/-- The loop of lines 50-79 and the final test of lines 81-86, with the
`return` that ends the call. -/
def url_encode_loop_return (keep_slash : Bool) : List Byte → Nat → List Byte → encode_return
  | [], remaining, d => if remaining = 0 then .remaining_zero else .done d
  | c :: src, remaining, d =>
    if c = 0 then
      if remaining = 0 then .remaining_zero else .done d
    else
      let needed := if is_unreserved c keep_slash then 1 else 3
      if needed ≥ remaining then .needed_ge_remaining
      else if needed = 1 then
        url_encode_loop_return keep_slash src (remaining - 1) (d ++ [c])
      else
        url_encode_loop_return keep_slash src (remaining - 3)
          (d ++ [ch '%', hex.getD ((c.val / 16) % 16) 0, hex.getD (c.val % 16) 0])

/-- The `return` that ends `url_encode_component(src, dest, dest_size,
keep_slash)`. -/
def url_encode_return (src : List Byte) (dest_size : Nat) (keep_slash : Bool) : encode_return :=
  if dest_size = 0 then .dest_size_zero else url_encode_loop_return keep_slash src dest_size []

/-- The result of a call that returned: the string in `dest` for `return 0`,
`none` for `return -1`. -/
def encode_return.result : encode_return → Option (List Byte)
  | .done out => some out
  | _ => none

/-- The specification's `L`: the number of pass-through bytes of `s` plus three
times the number of its other bytes. -/
def encoded_length (preserveSlash : Bool) (s : List Byte) : Nat :=
  s.countP (fun c => spec_pass_through c preserveSlash) +
    3 * s.countP (fun c => !spec_pass_through c preserveSlash)

/-! ## Sample input at the limits of the buffers -/

/-- Thirty-one caller headers `x` with a value of 1023 bytes and one header `x`
with a value of 934 bytes. -/
def full_headers : List header_t :=
  List.replicate 31 { key := bytes "x", value := long_value } ++
    [{ key := bytes "x", value := List.replicate 934 (ch 'a') }]

/-- An access key id of 480 bytes `A`. -/
def long_access_key : List Byte := List.replicate 480 (ch 'A')

/-! ## Percent-encoder: the code against the specification -/

theorem is_unreserved_eq_spec : ∀ (c : Byte) (k : Bool), is_unreserved c k = spec_pass_through c k := by
  decide

theorem hex_eq_spec : ∀ c : Byte,
    hex.getD ((c.val / 16) % 16) 0 = spec_hex_digit (c.val / 16) ∧
    hex.getD (c.val % 16) 0 = spec_hex_digit (c.val % 16) := by
  decide

theorem spec_encode_nil (k : Bool) : spec_encode k [] = [] := rfl

theorem spec_encode_cons (k : Bool) (c : Byte) (s : List Byte) :
    spec_encode k (c :: s) = spec_encode_byte k c ++ spec_encode k s := by
  simp [spec_encode]

theorem spec_encode_byte_length (k : Bool) (c : Byte) :
    (spec_encode_byte k c).length = if is_unreserved c k then 1 else 3 := by
  unfold spec_encode_byte
  rw [is_unreserved_eq_spec]
  split <;> simp

/-- The loop of `url_encode_component` on a NUL-free source: it succeeds exactly
when the specified encoding is shorter than the free capacity, and then has
appended that encoding. -/
theorem url_encode_loop_eq (k : Bool) : ∀ (src : List Byte) (remaining : Nat) (d : List Byte),
    (0 : Byte) ∉ src →
    url_encode_loop k src remaining d =
      if (spec_encode k src).length < remaining then some (d ++ spec_encode k src) else none := by
  intro src
  induction src with
  | nil =>
    intro remaining d _
    by_cases h : remaining = 0 <;> simp [url_encode_loop, spec_encode_nil, h]
    omega
  | cons c src ih =>
    intro remaining d h0
    have hc : c ≠ 0 := fun h => h0 (by simp [h])
    have hs : (0 : Byte) ∉ src := fun h => h0 (by simp [h])
    have hlen := spec_encode_byte_length k c
    rw [url_encode_loop, if_neg hc, spec_encode_cons, List.length_append]
    by_cases hu : is_unreserved c k = true
    · simp only [hu, if_true] at hlen ⊢
      have hb : spec_encode_byte k c = [c] := by
        unfold spec_encode_byte; rw [← is_unreserved_eq_spec, hu]; simp
      by_cases hr : 1 ≥ remaining
      · rw [if_pos hr, if_neg (by omega)]
      · rw [if_neg hr, ih _ _ hs, hb]
        by_cases hl : (spec_encode k src).length < remaining - 1
        · rw [if_pos hl, if_pos (by simp; omega)]; simp
        · rw [if_neg hl, if_neg (by simp; omega)]
    · simp only [hu] at hlen ⊢
      have hb : spec_encode_byte k c =
          [ch '%', hex.getD ((c.val / 16) % 16) 0, hex.getD (c.val % 16) 0] := by
        unfold spec_encode_byte
        rw [← is_unreserved_eq_spec, (hex_eq_spec c).1, (hex_eq_spec c).2]
        simp [hu]
      simp only [Bool.false_eq_true, if_false] at hlen ⊢
      by_cases hr : 3 ≥ remaining
      · rw [if_pos hr, if_neg (by omega)]
      · rw [if_neg hr, if_neg (by decide), ih _ _ hs, ← hb]
        by_cases hl : (spec_encode k src).length < remaining - 3
        · rw [if_pos hl, if_pos (by omega)]; simp
        · rw [if_neg hl, if_neg (by omega)]

/-- Closed form of `url_encode_component` on a NUL-free source. -/
theorem url_encode_component_eq (k : Bool) (src : List Byte) (dest_size : Nat)
    (h0 : (0 : Byte) ∉ src) :
    url_encode_component src dest_size k =
      if (spec_encode k src).length < dest_size then some (spec_encode k src) else none := by
  unfold url_encode_component
  by_cases h : dest_size = 0
  · simp [h]
  · rw [if_neg h, url_encode_loop_eq k src dest_size [] h0]; simp


theorem spec_encode_length_le (k : Bool) (s : List Byte) :
    (spec_encode k s).length ≤ 3 * s.length := by
  induction s with
  | nil => simp [spec_encode_nil]
  | cons c s ih =>
    rw [spec_encode_cons, List.length_append, spec_encode_byte_length, List.length_cons]
    split <;> omega

/-- C5: whenever `url_encode_component` succeeds on a NUL-free string, its
output is the concatenation, byte by byte, of the byte itself when it is one of
`A-Z a-z 0-9 - _ . ~` (or `/` with `keep_slash`) and otherwise `%` followed by
the byte's two upper-case hexadecimal digits, high nibble first. -/
theorem url_encode_component_output (s : List Byte) (keep_slash : Bool) (dest_size : Nat)
    (out : List Byte) (h0 : (0 : Byte) ∉ s)
    (h : url_encode_component s dest_size keep_slash = some out) :
    out = s.flatMap (spec_encode_byte keep_slash) := by
  rw [url_encode_component_eq keep_slash s dest_size h0] at h
  split at h
  · simpa [spec_encode] using h.symm
  · exact absurd h (by simp)

theorem url_encode_component_output_witness :
    (0 : Byte) ∉ bytes "a b/c~" ∧
    url_encode_component (bytes "a b/c~") 16 false = some (bytes "a%20b%2Fc~") ∧
    bytes "a%20b%2Fc~" = (bytes "a b/c~").flatMap (spec_encode_byte false) :=
  ⟨by decide, by decide,
    url_encode_component_output (bytes "a b/c~") false 16 (bytes "a%20b%2Fc~") (by decide)
      (by decide)⟩

theorem percent_decode_cons_ne (c : Byte) (rest : List Byte) (hc : c ≠ ch '%') :
    percent_decode (c :: rest) = c :: percent_decode rest := by
  match rest with
  | [] => simp [percent_decode]
  | [_] => simp [percent_decode]
  | _ :: _ :: _ => simp [percent_decode, hc]

theorem percent_decode_hex (h l : Byte) (a b : Nat) (rest : List Byte)
    (ha : hex_value h = some a) (hb : hex_value l = some b) :
    percent_decode (ch '%' :: h :: l :: rest) = Fin.ofNat (a * 16 + b) :: percent_decode rest := by
  simp [percent_decode, ha, hb]

theorem unreserved_ne_percent : ∀ (c : Byte) (k : Bool),
    is_unreserved c k = true → c ≠ ch '%' := by
  decide

theorem pass_through_ne_percent (c : Byte) (k : Bool) (h : spec_pass_through c k = true) :
    c ≠ ch '%' :=
  unreserved_ne_percent c k (by rw [is_unreserved_eq_spec]; exact h)

theorem hex_value_spec_hex_digit : ∀ c : Byte,
    hex_value (spec_hex_digit (c.val / 16)) = some (c.val / 16) ∧
    hex_value (spec_hex_digit (c.val % 16)) = some (c.val % 16) ∧
    (Fin.ofNat (c.val / 16 * 16 + c.val % 16) : Byte) = c := by
  decide

theorem percent_decode_spec_encode (k : Bool) (s : List Byte) :
    percent_decode (spec_encode k s) = s := by
  induction s with
  | nil => simp [spec_encode_nil, percent_decode]
  | cons c s ih =>
    rw [spec_encode_cons]
    unfold spec_encode_byte
    by_cases hp : spec_pass_through c k = true
    · rw [if_pos hp]
      simp only [List.singleton_append]
      rw [percent_decode_cons_ne c _ (pass_through_ne_percent c k hp), ih]
    · rw [if_neg hp]
      obtain ⟨h1, h2, h3⟩ := hex_value_spec_hex_digit c
      simp only [List.cons_append, List.nil_append]
      rw [percent_decode_hex _ _ _ _ _ h1 h2, ih, h3]

/-- C6 (encoding round-trip): for a byte string without NUL and either slash
mode, `url_encode_component` succeeds when given room for three bytes per input
byte, and percent-decoding any output it produces gives the input back. -/
theorem url_encode_round_trip (s : List Byte) (keep_slash : Bool) (h0 : (0 : Byte) ∉ s) :
    (∃ out, url_encode_component s (3 * s.length + 1) keep_slash = some out) ∧
    ∀ dest_size out, url_encode_component s dest_size keep_slash = some out →
      percent_decode out = s := by
  constructor
  · refine ⟨spec_encode keep_slash s, ?_⟩
    rw [url_encode_component_eq keep_slash s _ h0, if_pos]
    have := spec_encode_length_le keep_slash s
    omega
  · intro dest_size out h
    rw [url_encode_component_eq keep_slash s dest_size h0] at h
    split at h
    · cases h; exact percent_decode_spec_encode keep_slash s
    · exact absurd h (by simp)

theorem url_encode_round_trip_witness :
    (0 : Byte) ∉ bytes "a b/c%" ∧
    url_encode_component (bytes "a b/c%") 32 true = some (bytes "a%20b/c%25") ∧
    percent_decode (bytes "a%20b/c%25") = bytes "a b/c%" :=
  ⟨by decide, by decide,
    (url_encode_round_trip (bytes "a b/c%") true (by decide)).2 32 (bytes "a%20b/c%25")
      (by decide)⟩


/-! ## Capacity of the encoder and the canonical URI -/

theorem url_encode_loop_isSome (k : Bool) : ∀ (src : List Byte) (remaining : Nat) (d : List Byte),
    3 * src.length < remaining → (url_encode_loop k src remaining d).isSome = true := by
  intro src
  induction src with
  | nil =>
    intro remaining d h
    have : remaining ≠ 0 := by simp at h; omega
    simp [url_encode_loop, this]
  | cons c src ih =>
    intro remaining d h
    simp only [List.length_cons] at h
    rw [url_encode_loop]
    by_cases hc : c = 0
    · have : remaining ≠ 0 := by omega
      simp [hc, this]
    · rw [if_neg hc]
      by_cases hu : is_unreserved c k = true
      · simp only [hu, if_true]
        rw [if_neg (by omega)]
        exact ih _ _ (by omega)
      · have hu2 : is_unreserved c k = false := by simpa using hu
        simp only [hu2, Bool.false_eq_true, if_false]
        rw [if_neg (by omega), if_neg (by decide)]
        exact ih _ _ (by omega)

theorem url_encode_component_isSome (k : Bool) (src : List Byte) (dest_size : Nat)
    (h : 3 * src.length < dest_size) : ∃ out, url_encode_component src dest_size k = some out := by
  unfold url_encode_component
  rw [if_neg (by omega)]
  exact Option.isSome_iff_exists.mp (url_encode_loop_isSome k src dest_size [] h)

theorem canonical_uri_eq (path : List Byte) (h0 : (0 : Byte) ∉ path) :
    canonical_uri path =
      if path.head? = some (ch '/') then
        if (spec_encode true path).length < MAX_PATH_LEN then .ok (spec_encode true path)
        else .error "Error: Encoded PATH exceeds maximum length"
      else
        if (spec_encode true path).length + 1 < MAX_PATH_LEN then
          .ok (ch '/' :: spec_encode true path)
        else .error "Error: Encoded PATH exceeds maximum length" := by
  unfold canonical_uri
  rw [url_encode_component_eq true path _ h0, url_encode_component_eq true path _ h0]
  have hhead : path.getD 0 0 ≠ ch '/' ↔ ¬ path.head? = some (ch '/') := by
    cases path with
    | nil => simp; decide
    | cons c s => simp
  by_cases hp : path.head? = some (ch '/')
  · rw [if_neg (by rw [hhead]; simpa using hp), if_pos hp]
    by_cases hl : (spec_encode true path).length < MAX_PATH_LEN
    · rw [if_pos hl, if_pos hl]
    · rw [if_neg hl, if_neg hl]
  · rw [if_pos (hhead.mpr hp), if_neg hp]
    by_cases hl : (spec_encode true path).length + 1 < MAX_PATH_LEN
    · rw [if_pos (by omega), if_pos hl]
    · rw [if_neg (by omega), if_neg hl]


theorem snprintf_of_lt (size : Nat) (s : List Byte) (h : s.length < size) : snprintf size s = s := by
  unfold snprintf
  exact List.take_of_length_le (by omega)

theorem snprintf_length_lt (size : Nat) (s : List Byte) (h : 0 < size) :
    (snprintf size s).length < size := by
  unfold snprintf
  rw [List.length_take]
  omega

/-- What a successful `build_query` has computed. -/
theorem build_query_ok (cred dt signed : List Byte) (e : Int) (token : Option (List Byte))
    (q : List Byte) (h : build_query cred dt signed e token = .ok q) :
    ∃ ce de se, url_encode_component cred (512 * 3) false = some ce ∧
      url_encode_component dt (32 * 3) false = some de ∧
      url_encode_component signed (MAX_HEADER_LEN * 3) false = some se ∧
      (query_format ce de (e * 60) se).length < MAX_URL_LEN ∧
      ((token = none ∧ q = query_format ce de (e * 60) se) ∨
       ∃ t et, token = some t ∧ t.length < MAX_ENV_VAR_LEN ∧
         url_encode_component t (MAX_ENV_VAR_LEN * 3) false = some et ∧
         q = query_format ce de (e * 60) se ++ bytes "&X-Amz-Security-Token=" ++ et) := by
  unfold build_query at h
  split at h
  · cases h
  · rename_i ce hce
    split at h
    · cases h
    · rename_i de hde
      split at h
      · cases h
      · rename_i se hse
        refine ⟨ce, de, se, hce, hde, hse, ?_⟩
        simp only at h
        split at h
        · cases h
        · rename_i hlen
          have hlen2 : (query_format ce de (e * 60) se).length < MAX_URL_LEN := by omega
          rw [snprintf_of_lt _ _ hlen2] at h
          refine ⟨hlen2, ?_⟩
          split at h
          · left
            cases h
            exact ⟨rfl, rfl⟩
          · rename_i t
            right
            split at h
            · cases h
            · rename_i ht
              split at h
              · cases h
              · rename_i et het
                split at h
                · cases h
                · cases h
                  exact ⟨t, et, rfl, by omega, het, rfl⟩


/-- C7 (as stated, refuted): a NUL-free path of 683 spaces is well within the
2047 bytes validation accepts, yet the run ends with "Encoded PATH exceeds
maximum length"; the same string is encoded without error when the caller
supplies a larger buffer, so the failure is one of capacity, not of malformed
input. -/
theorem url_encode_capacity_counterexample :
    c_string MAX_PATH_LEN (List.replicate 683 (ch ' ')) ∧
    canonical_uri (List.replicate 683 (ch ' ')) =
      .error "Error: Encoded PATH exceeds maximum length" ∧
    url_encode_component (List.replicate 683 (ch ' ')) (MAX_PATH_LEN - 1) true = none ∧
    (url_encode_component (List.replicate 683 (ch ' ')) MAX_URL_LEN true).isSome = true := by
  refine ⟨by decide, by decide, by decide, by decide⟩

/-- C7 (amended): `url_encode_component` has a caller-supplied capacity.  It
succeeds whenever the capacity exceeds three times the input length, which is
the case for the credential, the date, the signed-header list and every
accepted session token, so `build_query` never ends with an "Encoded ...
exceeds maximum length" error; a NUL-free path is encoded without error
exactly when its encoding, plus the prefixed `/` if any, is shorter than `MAX_PATH_LEN` bytes. -/
theorem url_encode_capacity :
    (∀ (s : List Byte) (n : Nat) (k : Bool), 3 * s.length < n →
        ∃ out, url_encode_component s n k = some out) ∧
    (∀ path : List Byte, (0 : Byte) ∉ path →
        ((∃ u, canonical_uri path = .ok u) ↔
          (spec_encode true path).length + (if path.head? = some (ch '/') then 0 else 1)
            < MAX_PATH_LEN)) ∧
    (∀ (access_key scope dt signed : List Byte) (e : Int) (token : Option (List Byte))
        (msg : String), dt.length < 32 → signed.length < MAX_HEADER_LEN →
        build_query (credential access_key scope) dt signed e token = .error msg →
          msg = "Error: Query parameters too long" ∨
          msg = "Error: AWS_SESSION_TOKEN too long (max 511 chars)" ∨
          msg = "Error: Query parameters too long - buffer overflow") := by
  refine ⟨fun s n k h => url_encode_component_isSome k s n h, ?_, ?_⟩
  · intro path h0
    rw [canonical_uri_eq path h0]
    by_cases hp : path.head? = some (ch '/')
    · simp only [hp, if_true, Nat.add_zero]
      by_cases hl : (spec_encode true path).length < MAX_PATH_LEN
      · simp [hl]
      · simp [hl]
    · simp only [hp, if_false]
      by_cases hl : (spec_encode true path).length + 1 < MAX_PATH_LEN
      · simp [hl]
      · simp [hl]
  · intro access_key scope dt signed e token msg hdt hsigned h
    have hcred : (credential access_key scope).length < 512 := snprintf_length_lt 512 _ (by decide)
    obtain ⟨ce, hce⟩ := url_encode_component_isSome false (credential access_key scope) (512 * 3)
      (by omega)
    obtain ⟨de, hde⟩ := url_encode_component_isSome false dt (32 * 3) (by omega)
    obtain ⟨se, hse⟩ := url_encode_component_isSome false signed (MAX_HEADER_LEN * 3)
      (by unfold MAX_HEADER_LEN at *; omega)
    unfold build_query at h
    rw [hce, hde, hse] at h
    simp only at h
    split at h
    · cases h; left; rfl
    · split at h
      · cases h
      · rename_i t
        split at h
        · cases h; right; left; rfl
        · rename_i ht
          obtain ⟨et, het⟩ := url_encode_component_isSome false t (MAX_ENV_VAR_LEN * 3)
            (by unfold MAX_ENV_VAR_LEN at *; omega)
          rw [het] at h
          simp only at h
          split at h
          · cases h; right; right; rfl
          · cases h


theorem url_encode_capacity_witness :
    (∃ out, url_encode_component (bytes "a b/c") 16 false = some out) ∧
    ((∃ u, canonical_uri (bytes "my bucket/key.txt") = .ok u) ↔
      (spec_encode true (bytes "my bucket/key.txt")).length + 1 < MAX_PATH_LEN) ∧
    build_query (credential (bytes "AKIDEXAMPLE") (bytes "20250101/fr-par/s3/aws4_request"))
      sample_datetime (bytes "host") 15 (some (List.replicate 512 (ch 't'))) =
      .error "Error: AWS_SESSION_TOKEN too long (max 511 chars)" ∧
    ("Error: AWS_SESSION_TOKEN too long (max 511 chars)" = "Error: Query parameters too long" ∨
      "Error: AWS_SESSION_TOKEN too long (max 511 chars)" =
        "Error: AWS_SESSION_TOKEN too long (max 511 chars)" ∨
      "Error: AWS_SESSION_TOKEN too long (max 511 chars)" =
        "Error: Query parameters too long - buffer overflow") :=
  ⟨url_encode_capacity.1 (bytes "a b/c") 16 false (by decide),
    url_encode_capacity.2.1 (bytes "my bucket/key.txt") (by decide),
    by decide,
    url_encode_capacity.2.2 (bytes "AKIDEXAMPLE") (bytes "20250101/fr-par/s3/aws4_request")
      sample_datetime (bytes "host") 15 (some (List.replicate 512 (ch 't')))
      "Error: AWS_SESSION_TOKEN too long (max 511 chars)" (by decide) (by decide) (by decide)⟩

theorem spec_encode_byte_eq_code (k : Bool) (c : Byte) :
    spec_encode_byte k c =
      if is_unreserved c k then [c]
      else [ch '%', hex.getD ((c.val / 16) % 16) 0, hex.getD (c.val % 16) 0] := by
  unfold spec_encode_byte
  rw [← is_unreserved_eq_spec, (hex_eq_spec c).1, (hex_eq_spec c).2]

theorem count_slash_code : ∀ c : Byte,
    (if is_unreserved c true then [c]
      else [ch '%', hex.getD ((c.val / 16) % 16) 0, hex.getD (c.val % 16) 0]).count (ch '/') =
      if c = ch '/' then 1 else 0 := by
  decide

theorem count_slash_spec_encode_byte (c : Byte) :
    (spec_encode_byte true c).count (ch '/') = if c = ch '/' then 1 else 0 := by
  rw [spec_encode_byte_eq_code]
  exact count_slash_code c

theorem count_slash_spec_encode (s : List Byte) :
    (spec_encode true s).count (ch '/') = s.count (ch '/') := by
  induction s with
  | nil => simp [spec_encode_nil]
  | cons c s ih =>
    rw [spec_encode_cons, List.count_append, ih, count_slash_spec_encode_byte, List.count_cons]
    by_cases hc : c = ch '/'
    · simp [hc]; omega
    · have : ¬ (c == ch '/') = true := by simpa using hc
      simp [hc, this]

/-- C10: for an accepted path the canonical URI is produced whenever the
encoding leaves room for the prefixed `/`, and whenever it is produced it is
the encoding of the path with the slash preserved when the path begins with
`/`, and `/` followed by that encoding otherwise; so it begins with `/`, and it
has exactly the `/` bytes of the path plus the one that was put in front. -/
theorem canonical_uri_shape (path : List Byte) (hv : c_string MAX_PATH_LEN path) :
    ((spec_encode true path).length + 1 < MAX_PATH_LEN → ∃ u, canonical_uri path = .ok u) ∧
    ∀ u, canonical_uri path = .ok u →
      u = (if path.head? = some (ch '/') then spec_encode true path
           else ch '/' :: spec_encode true path) ∧
      u.head? = some (ch '/') ∧
      u.count (ch '/') = path.count (ch '/') + (if path.head? = some (ch '/') then 0 else 1) := by
  rw [canonical_uri_eq path hv.2]
  by_cases hp : path.head? = some (ch '/')
  · simp only [hp, if_true, Nat.add_zero]
    constructor
    · intro hl
      rw [if_pos (by omega)]
      exact ⟨_, rfl⟩
    · intro u hu
      split at hu
      · cases hu
        refine ⟨rfl, ?_, count_slash_spec_encode path⟩
        cases path with
        | nil => simp at hp
        | cons c s =>
          simp only [List.head?_cons, Option.some.injEq] at hp
          subst hp
          rw [spec_encode_cons]
          rfl
      · cases hu
  · simp only [hp, if_false]
    constructor
    · intro hl
      rw [if_pos hl]
      exact ⟨_, rfl⟩
    · intro u hu
      split at hu
      · cases hu
        refine ⟨rfl, rfl, ?_⟩
        rw [List.count_cons, count_slash_spec_encode]
        simp
      · cases hu

theorem canonical_uri_shape_witness :
    c_string MAX_PATH_LEN (bytes "my bucket/key.txt") ∧
    canonical_uri (bytes "my bucket/key.txt") = .ok (bytes "/my%20bucket/key.txt") ∧
    (bytes "/my%20bucket/key.txt").count (ch '/') = (bytes "my bucket/key.txt").count (ch '/') + 1 :=
  ⟨by decide, by decide,
    ((canonical_uri_shape (bytes "my bucket/key.txt") (by decide)).2
      (bytes "/my%20bucket/key.txt") (by decide)).2.2⟩


/-! ## Header canonicalization -/

theorem tolower_eq_spec : ∀ c : Byte, tolower c = spec_lower_byte c := by
  decide

theorem isspace_eq_spec : ∀ c : Byte, isspace c = spec_white c := by
  decide

theorem map_tolower_eq_spec (key : List Byte) : key.map tolower = spec_lower key := by
  unfold spec_lower
  exact List.map_congr_left fun c _ => tolower_eq_spec c

theorem trim_end_eq (start : List Byte) (h0 : isspace (start.getD 0 0) = false) :
    ∀ e, e < start.length →
      start.take (trim_end start e + 1) = (start.take (e + 1)).rdropWhile isspace := by
  intro e
  induction e with
  | zero =>
    intro he
    cases start with
    | nil => simp at he
    | cons x s =>
      simp only [List.getD_cons_zero] at h0
      simp [trim_end, List.rdropWhile, h0]
  | succ e ih =>
    intro he
    have hk : start.take (e + 1 + 1) = start.take (e + 1) ++ [start.getD (e + 1) 0] := by
      rw [List.take_succ, List.getD_eq_getElem?_getD, List.getElem?_eq_getElem he]
      rfl
    rw [trim_end, hk]
    by_cases hs : isspace (start.getD (e + 1) 0) = true
    · rw [if_pos hs, List.rdropWhile_concat_pos _ _ _ hs]
      exact ih (by omega)
    · rw [if_neg hs, List.rdropWhile_concat_neg _ _ _ hs, hk]

/-- The trimming of lines 296-311 is the specification's trimming for every
value that fits the 1024-byte field. -/
theorem trim_value_eq_spec (value : List Byte) (hlen : value.length < MAX_HEADER_LEN) :
    trim_value value = spec_trim value := by
  have hw : spec_white = isspace := funext fun c => (isspace_eq_spec c).symm
  unfold trim_value spec_trim
  rw [hw, List.take_of_length_le (by omega)]
  simp only
  by_cases hnil : (value.dropWhile isspace).length > 0
  · rw [if_pos hnil]
    have h0 : isspace ((value.dropWhile isspace).getD 0 0) = false := by
      have hne : value.dropWhile isspace ≠ [] := by
        intro h; rw [h] at hnil; simp at hnil
      have := List.head_dropWhile_not isspace value hne
      cases hd : value.dropWhile isspace with
      | nil => exact absurd hd hne
      | cons x s =>
        simp only [hd, List.head_cons] at this
        simpa using this
    rw [trim_end_eq _ h0 _ (by omega)]
    rw [show (value.dropWhile isspace).length - 1 + 1 = (value.dropWhile isspace).length by omega,
      List.take_length]
    rfl
  · rw [if_neg hnil]
    have : value.dropWhile isspace = [] := by
      cases hd : value.dropWhile isspace with
      | nil => rfl
      | cons x s => rw [hd] at hnil; simp at hnil
    rw [this]
    rfl

theorem header_entry_eq_spec (h : header_t) (hlen : h.value.length < MAX_HEADER_LEN) :
    header_entry h = spec_entry h := by
  unfold header_entry spec_entry
  rw [map_tolower_eq_spec, trim_value_eq_spec _ hlen]
  rfl

theorem canonical_headers_loop_ok : ∀ (hs : List header_t) (acc block : List Byte),
    canonical_headers_loop hs acc = .ok block →
      block = acc ++ (hs.map header_entry).flatten := by
  intro hs
  induction hs with
  | nil =>
    intro acc block h
    simp only [canonical_headers_loop] at h
    cases h
    simp
  | cons x rest ih =>
    intro acc block h
    rw [canonical_headers_loop] at h
    simp only at h
    split at h
    · cases h
    · split at h
      · cases h
      · rw [ih _ _ h]
        simp [header_entry, List.append_assoc]


/-! ## `strcmp` and `qsort` -/

theorem strcmp_le_one_cases : ∀ a b : List Byte, strcmp a b = -1 ∨ strcmp a b = 0 ∨ strcmp a b = 1
  | [], [] => by simp [strcmp]
  | [], _ :: _ => by simp [strcmp]
  | _ :: _, [] => by simp [strcmp]
  | x :: s, y :: t => by
    rw [strcmp]
    split
    · simp
    · split
      · simp
      · exact strcmp_le_one_cases s t

theorem strcmp_swap : ∀ a b : List Byte, strcmp b a = - strcmp a b
  | [], [] => by simp [strcmp]
  | [], _ :: _ => by simp [strcmp]
  | _ :: _, [] => by simp [strcmp]
  | x :: s, y :: t => by
    simp only [strcmp]
    by_cases h1 : x.val < y.val
    · have h2 : ¬ y.val < x.val := by omega
      simp only [h1, h2, if_true, if_false]
      rfl
    · by_cases h2 : y.val < x.val
      · simp only [h1, h2, if_true, if_false]
      · simp only [h1, h2, if_false]
        exact strcmp_swap s t

theorem strcmp_eq_zero : ∀ a b : List Byte, strcmp a b = 0 ↔ a = b
  | [], [] => by simp [strcmp]
  | [], _ :: _ => by simp [strcmp]
  | _ :: _, [] => by simp [strcmp]
  | x :: s, y :: t => by
    rw [strcmp]
    by_cases h1 : x.val < y.val
    · rw [if_pos h1]
      have : x ≠ y := by intro h; subst h; omega
      simp [this]
    · rw [if_neg h1]
      by_cases h2 : y.val < x.val
      · rw [if_pos h2]
        have : x ≠ y := by intro h; subst h; omega
        simp [this]
      · rw [if_neg h2, strcmp_eq_zero s t]
        have : x = y := Fin.ext (by omega)
        simp [this]

theorem strcmp_self (a : List Byte) : strcmp a a = 0 := (strcmp_eq_zero a a).mpr rfl

theorem strcmp_trans : ∀ a b c : List Byte, strcmp a b ≤ 0 → strcmp b c ≤ 0 → strcmp a c ≤ 0
  | [], _, [] => by simp [strcmp]
  | [], _, _ :: _ => by simp [strcmp]
  | _ :: _, [], _ => by simp [strcmp]
  | _ :: _, _ :: _, [] => by simp [strcmp]
  | x :: s, y :: t, z :: u => by
    simp only [strcmp]
    intro h1 h2
    by_cases hxy : x.val < y.val
    · have hyz : ¬ z.val < y.val := by
        intro h
        by_cases hyz2 : y.val < z.val
        · omega
        · rw [if_neg hyz2, if_pos h] at h2; omega
      rw [if_pos (by omega)]; omega
    · rw [if_neg hxy] at h1
      by_cases hyx : y.val < x.val
      · rw [if_pos hyx] at h1; omega
      · rw [if_neg hyx] at h1
        have hxy2 : x = y := Fin.ext (by omega)
        subst hxy2
        by_cases hxz : x.val < z.val
        · rw [if_pos hxz]; omega
        · rw [if_neg hxz] at h2 ⊢
          by_cases hzx : z.val < x.val
          · rw [if_pos hzx] at h2; omega
          · rw [if_neg hzx] at h2 ⊢
            exact strcmp_trans s t u h1 h2

theorem strcmp_lt_of_le_of_ne (a b : List Byte) (h : strcmp a b ≤ 0) (hne : a ≠ b) :
    strcmp a b < 0 := by
  have := (strcmp_eq_zero a b).not.mpr hne
  omega

theorem header_le_total (a b : header_t) : header_le a b ∨ header_le b a := by
  unfold header_le compare_headers
  have h1 := strcmp_swap a.key b.key
  have h2 := strcmp_le_one_cases a.key b.key
  omega

theorem header_le_trans (a b c : header_t) (hab : header_le a b) (hbc : header_le b c) :
    header_le a c :=
  strcmp_trans a.key b.key c.key hab hbc

/-- The executable `qsort` meets the contract of `qsort`. -/
theorem qsort_meets_contract (l : List header_t) : qsort_contract l (qsort l) := by
  haveI : IsTotal header_t header_le := ⟨header_le_total⟩
  haveI : IsTrans header_t header_le := ⟨header_le_trans⟩
  exact ⟨List.perm_insertionSort header_le l, List.sorted_insertionSort header_le l⟩

/-! ## What a successful run has computed -/

/-- The steps behind a successful `canonicalize`. -/
theorem canonicalize_ok (env : env_t) (args : presign_args_t) (ds dt : List Byte) (c : canonical_t)
    (h : canonicalize env args ds dt = .ok c) :
    check_credentials env = .ok (c.access_key, c.secret_key) ∧
    extract_host args.bucket_url = .ok c.host ∧
    canonical_uri args.path = .ok c.canonical_uri ∧
    c.credential_scope = credential_scope ds args.region args.service ∧
    c.credential = credential c.access_key c.credential_scope ∧
    c.all_headers = qsort (merge_headers c.host args.headers) ∧
    canonical_headers_loop c.all_headers [] = .ok c.canonical_headers ∧
    signed_headers_loop c.all_headers 0 [] = .ok c.signed_headers_final ∧
    build_query c.credential dt c.signed_headers_final args.expire_min env.AWS_SESSION_TOKEN =
      .ok c.query_params ∧
    c.canonical_request = canonical_request args.method c.canonical_uri c.query_params
      c.canonical_headers c.signed_headers_final := by
  unfold canonicalize at h
  cases h1 : check_credentials env with
  | error m => rw [h1] at h; cases h
  | ok keys =>
    obtain ⟨access_key, secret_key⟩ := keys
    cases h2 : extract_host args.bucket_url with
    | error m => rw [h1, h2] at h; cases h
    | ok host =>
      cases h3 : canonical_uri args.path with
      | error m => rw [h1, h2, h3] at h; cases h
      | ok uri =>
        cases h4 : canonical_headers_loop (qsort (merge_headers host args.headers)) [] with
        | error m => rw [h1, h2, h3] at h; simp only [bind, Except.bind, h4] at h; cases h
        | ok headers =>
          cases h5 : signed_headers_loop (qsort (merge_headers host args.headers)) 0 [] with
          | error m => rw [h1, h2, h3] at h; simp only [bind, Except.bind, h4, h5] at h; cases h
          | ok signed =>
            cases h6 : build_query
                (credential access_key (credential_scope ds args.region args.service)) dt signed
                args.expire_min env.AWS_SESSION_TOKEN with
            | error m =>
              rw [h1, h2, h3] at h
              simp only [bind, Except.bind, h4, h5, h6] at h
              cases h
            | ok query =>
              rw [h1, h2, h3] at h
              simp only [bind, Except.bind, h4, h5, h6, pure, Except.pure] at h
              cases h
              exact ⟨rfl, rfl, rfl, rfl, rfl, rfl, h4, h5, h6, rfl⟩

theorem strchr_le_length : ∀ (s : List Byte) (c : Byte) (n : Nat), strchr s c = some n → n < s.length
  | [], _, _ => by simp [strchr]
  | x :: s, c, n => by
    rw [strchr]
    by_cases hx : x = c
    · rw [if_pos hx]; intro h; cases h; simp
    · rw [if_neg hx]
      cases hs : strchr s c with
      | none => simp
      | some m =>
        intro h
        simp only [Option.map_some'] at h
        cases h
        have := strchr_le_length s c m hs
        simp; omega

theorem extract_host_length (url host : List Byte) (h : extract_host url = .ok host) :
    host.length < 256 := by
  unfold extract_host at h
  split at h
  · cases h
  · simp only at h
    split at h
    · split at h
      · cases h
      · cases h
        rw [List.length_take]; omega
    · split at h
      · cases h
      · cases h
        rw [List.length_take]; omega


theorem mem_all_headers_value_length (args : presign_args_t) (host : List Byte)
    (hv : validated args) (hh : host.length < 256) :
    ∀ hd ∈ qsort (merge_headers host args.headers), hd.value.length < MAX_HEADER_LEN := by
  intro hd hmem
  have hmem2 : hd ∈ merge_headers host args.headers :=
    (List.perm_insertionSort header_le _).mem_iff.mp hmem
  unfold merge_headers at hmem2
  rcases List.mem_cons.mp hmem2 with h1 | h1
  · subst h1
    show host.length < MAX_HEADER_LEN
    unfold MAX_HEADER_LEN; omega
  · exact (hv.2.2.2.2.2.2.2.2.1 hd h1).2.2.1.1

/-- The block a successful run has built, in the specification's terms. -/
theorem canonical_block_eq (env : env_t) (args : presign_args_t) (ds dt : List Byte)
    (c : canonical_t) (hv : validated args) (h : canonicalize env args ds dt = .ok c) :
    c.canonical_headers = (c.all_headers.map spec_entry).flatten := by
  obtain ⟨_, hhost, _, _, _, hall, hloop, _, _, _⟩ := canonicalize_ok env args ds dt c h
  rw [canonical_headers_loop_ok _ _ _ hloop, List.nil_append]
  congr 1
  apply List.map_congr_left
  intro hd hmem
  rw [hall] at hmem
  exact header_entry_eq_spec hd
    (mem_all_headers_value_length args c.host hv (extract_host_length _ _ hhost) hd hmem)

/-- C8: for a validated request the canonical header block is the
concatenation, over the sorted merged header list, of the entries
`lower(key) ++ ":" ++ trim(value) ++ "\n"` with nothing between them, where
`lower` maps `A-Z` to `a-z` only and `trim` removes white space at the two ends
only; the sorted list is a rearrangement of the merged list, so the entry of
every merged header occurs in the block. -/
theorem canonical_headers_block (env : env_t) (args : presign_args_t) (ds dt : List Byte)
    (c : canonical_t) (hv : validated args) (h : canonicalize env args ds dt = .ok c) :
    c.all_headers.Perm (merge_headers c.host args.headers) ∧
    c.canonical_headers = (c.all_headers.map spec_entry).flatten ∧
    ∀ hd ∈ merge_headers c.host args.headers, spec_entry hd <:+: c.canonical_headers := by
  obtain ⟨_, hhost, _, _, _, hall, hloop, _, _, _⟩ := canonicalize_ok env args ds dt c h
  have hperm : c.all_headers.Perm (merge_headers c.host args.headers) := by
    rw [hall]; exact List.perm_insertionSort header_le _
  have hblock := canonical_block_eq env args ds dt c hv h
  refine ⟨hperm, hblock, ?_⟩
  intro hd hmem
  rw [hblock]
  exact List.infix_of_mem_flatten (List.mem_map.mpr ⟨hd, hperm.mem_iff.mpr hmem, rfl⟩)

theorem canonical_headers_block_witness :
    validated (sample_args [⟨bytes "x-Note", bytes "  two  words \t"⟩]) ∧
    (built (canonicalize sample_env (sample_args [⟨bytes "x-Note", bytes "  two  words \t"⟩])
      sample_date_stamp sample_datetime)).canonical_headers =
      bytes "host:s3.fr-par.scw.cloud\nx-note:two  words\n" ∧
    spec_entry ⟨bytes "x-Note", bytes "  two  words \t"⟩ <:+:
      (built (canonicalize sample_env (sample_args [⟨bytes "x-Note", bytes "  two  words \t"⟩])
        sample_date_stamp sample_datetime)).canonical_headers :=
  ⟨by decide, by decide,
    (canonical_headers_block sample_env (sample_args [⟨bytes "x-Note", bytes "  two  words \t"⟩])
      sample_date_stamp sample_datetime _ (by decide) (by decide)).2.2
      ⟨bytes "x-Note", bytes "  two  words \t"⟩ (by decide)⟩

/-! ## The signed-header list -/

theorem intercalate_cons_eq (sep : Byte) (a : List Byte) (rest : List (List Byte)) :
    [sep].intercalate (a :: rest) = a ++ (rest.map fun k => sep :: k).flatten := by
  induction rest generalizing a with
  | nil => simp [List.intercalate]
  | cons b t ih =>
    have h2 := ih b
    simp only [List.intercalate] at h2 ⊢
    rw [List.intersperse_cons_cons, List.flatten_cons, List.flatten_cons, h2]
    simp

theorem signed_headers_loop_ok : ∀ (hs : List header_t) (i : Nat) (acc r : List Byte),
    0 < i → signed_headers_loop hs i acc = .ok r →
      r = acc ++ (hs.map fun hd => ch ';' :: hd.key.map tolower).flatten := by
  intro hs
  induction hs with
  | nil =>
    intro i acc r _ h
    simp only [signed_headers_loop] at h
    cases h
    simp
  | cons x rest ih =>
    intro i acc r hi h
    rw [signed_headers_loop] at h
    split at h
    · cases h
    · simp only [hi, if_true] at h
      split at h
      · cases h
      · rw [ih _ _ _ (by omega) h]
        simp [bytes, List.append_assoc]

theorem signed_headers_loop_start (hs : List header_t) (r : List Byte)
    (h : signed_headers_loop hs 0 [] = .ok r) :
    r = [ch ';'].intercalate (hs.map fun hd => spec_lower hd.key) := by
  cases hs with
  | nil =>
    simp only [signed_headers_loop] at h
    cases h
    rfl
  | cons x rest =>
    rw [signed_headers_loop] at h
    rw [if_neg (by simp)] at h
    simp only [Nat.lt_irrefl, if_false, List.nil_append] at h
    split at h
    · cases h
    · rw [signed_headers_loop_ok _ _ _ _ (by omega) h, List.map_cons, intercalate_cons_eq,
        List.map_map]
      simp only [← map_tolower_eq_spec]
      rfl


theorem intercalate_length_succ (keys : List (List Byte)) (hne : keys ≠ []) :
    ([ch ';'].intercalate keys).length + 1 = (keys.map fun k => k.length + 1).sum := by
  cases keys with
  | nil => exact absurd rfl hne
  | cons a rest =>
    rw [intercalate_cons_eq]
    clear hne
    induction rest generalizing a with
    | nil => simp
    | cons b t ih =>
      have := ih b
      simp only [List.map_cons, List.flatten_cons, List.length_append, List.length_cons,
        List.sum_cons] at this ⊢
      omega

/-- C9: for a validated request the signed-header list is the lower-cased keys
of the sorted merged header list, the very list whose entries make up the
canonical header block and in the same order, joined with `;`: one separator
fewer than there are keys, so none leads or trails; with no caller header it
is exactly `host`. -/
theorem signed_headers_list (env : env_t) (args : presign_args_t) (ds dt : List Byte)
    (c : canonical_t) (hv : validated args) (h : canonicalize env args ds dt = .ok c) :
    c.signed_headers_final = [ch ';'].intercalate (c.all_headers.map fun hd => spec_lower hd.key) ∧
    c.canonical_headers = (c.all_headers.map spec_entry).flatten ∧
    c.signed_headers_final.length + 1 = (c.all_headers.map fun hd => hd.key.length + 1).sum ∧
    (args.headers = [] → c.signed_headers_final = bytes "host") := by
  obtain ⟨_, _, _, _, _, hall, _, hsigned, _, _⟩ := canonicalize_ok env args ds dt c h
  have hs := signed_headers_loop_start _ _ hsigned
  refine ⟨hs, canonical_block_eq env args ds dt c hv h, ?_, ?_⟩
  · have hne : (c.all_headers.map fun hd => spec_lower hd.key) ≠ [] := by
      intro hnil
      have hlen := congrArg List.length hnil
      rw [List.length_map, hall] at hlen
      have := (List.perm_insertionSort header_le (merge_headers c.host args.headers)).length_eq
      unfold qsort at hlen
      rw [this] at hlen
      simp [merge_headers] at hlen
    rw [hs, intercalate_length_succ _ hne, List.map_map]
    congr 1
    apply List.map_congr_left
    intro hd _
    simp [spec_lower]
  · intro hnone
    rw [hs, hall, hnone]
    rfl

theorem signed_headers_list_witness :
    validated (sample_args [⟨bytes "x-amz-acl", bytes "private"⟩, ⟨bytes "Content-Type", bytes "text/plain"⟩]) ∧
    (built (canonicalize sample_env
      (sample_args [⟨bytes "x-amz-acl", bytes "private"⟩, ⟨bytes "Content-Type", bytes "text/plain"⟩])
      sample_date_stamp sample_datetime)).signed_headers_final = bytes "content-type;host;x-amz-acl" ∧
    (built (canonicalize sample_env (sample_args []) sample_date_stamp
      sample_datetime)).signed_headers_final = bytes "host" :=
  ⟨by decide, by decide,
    (signed_headers_list sample_env (sample_args []) sample_date_stamp sample_datetime _
      (by decide) (by decide)).2.2.2 rfl⟩


/-! ## Order of the canonical header entries -/

theorem spec_lower_of_no_upper (key : List Byte)
    (h : ∀ b ∈ key, ¬ (ch 'A' ≤ b ∧ b ≤ ch 'Z')) : spec_lower key = key := by
  rw [← map_tolower_eq_spec]
  conv_rhs => rw [← List.map_id key]
  apply List.map_congr_left
  intro b hb
  unfold tolower
  rw [if_neg (h b hb)]
  rfl

/-- C1 (as stated, refuted): with the caller headers `B` and `a` the lower-cased
keys of the block's entries are `b`, `a`, `host`, which is not ascending; and
with a caller header `host` the key `host` occurs twice, which is ascending but
not strictly. -/
theorem canonical_headers_order_counterexample :
    validated (sample_args [⟨bytes "B", bytes "1"⟩, ⟨bytes "a", bytes "2"⟩]) ∧
    (built (canonicalize sample_env (sample_args [⟨bytes "B", bytes "1"⟩, ⟨bytes "a", bytes "2"⟩])
      sample_date_stamp sample_datetime)).canonical_headers =
      bytes "b:1\na:2\nhost:s3.fr-par.scw.cloud\n" ∧
    ¬ ascending [bytes "b", bytes "a", bytes "host"] ∧
    validated (sample_args [⟨bytes "host", bytes "other"⟩]) ∧
    (built (canonicalize sample_env (sample_args [⟨bytes "host", bytes "other"⟩])
      sample_date_stamp sample_datetime)).canonical_headers =
      bytes "host:s3.fr-par.scw.cloud\nhost:other\n" ∧
    ¬ strictly_ascending [bytes "host", bytes "host"] := by
  refine ⟨by decide, by decide, by decide, by decide, by decide, by decide⟩

/-- C1 (amended): for a validated request whose caller header keys contain no
upper-case letter, the entries of the canonical header block are ascending by
lower-cased key under byte-wise comparison, and strictly ascending when the
keys of the merged list, `host` included, are pairwise different. -/
theorem canonical_headers_order (env : env_t) (args : presign_args_t) (ds dt : List Byte)
    (c : canonical_t) (hv : validated args) (h : canonicalize env args ds dt = .ok c)
    (hlow : ∀ hd ∈ args.headers, ∀ b ∈ hd.key, ¬ (ch 'A' ≤ b ∧ b ≤ ch 'Z')) :
    c.canonical_headers = (c.all_headers.map spec_entry).flatten ∧
    ascending (c.all_headers.map fun hd => spec_lower hd.key) ∧
    (((merge_headers c.host args.headers).map fun hd => hd.key).Nodup →
      strictly_ascending (c.all_headers.map fun hd => spec_lower hd.key)) := by
  obtain ⟨_, _, _, _, _, hall, _, _, _, _⟩ := canonicalize_ok env args ds dt c h
  have hcontract := qsort_meets_contract (merge_headers c.host args.headers)
  rw [← hall] at hcontract
  obtain ⟨hperm, hsorted⟩ := hcontract
  have hkey : ∀ hd ∈ c.all_headers, spec_lower hd.key = hd.key := by
    intro hd hmem
    have hmem2 := hperm.mem_iff.mp hmem
    unfold merge_headers at hmem2
    rcases List.mem_cons.mp hmem2 with h1 | h1
    · subst h1
      show spec_lower (bytes "host") = bytes "host"
      decide
    · exact spec_lower_of_no_upper _ (hlow hd h1)
  have hasc : ascending (c.all_headers.map fun hd => spec_lower hd.key) := by
    unfold ascending
    rw [List.pairwise_map]
    refine hsorted.imp_of_mem ?_
    intro a b ha hb hab
    rw [hkey a ha, hkey b hb]
    exact hab
  refine ⟨canonical_block_eq env args ds dt c hv h, hasc, ?_⟩
  intro hnodup
  have hnodup2 : (c.all_headers.map fun hd => hd.key).Nodup :=
    (hperm.map _).nodup_iff.mpr hnodup
  unfold strictly_ascending
  rw [List.pairwise_map]
  have hne : c.all_headers.Pairwise fun a b => a.key ≠ b.key := by
    have := hnodup2
    unfold List.Nodup at this
    rwa [List.pairwise_map] at this
  refine (hsorted.and hne).imp_of_mem ?_
  intro a b ha hb hab
  rw [hkey a ha, hkey b hb]
  exact strcmp_lt_of_le_of_ne _ _ hab.1 hab.2

theorem canonical_headers_order_witness :
    validated (sample_args [⟨bytes "x-amz-acl", bytes "private"⟩, ⟨bytes "content-type", bytes "text/plain"⟩]) ∧
    strictly_ascending ((built (canonicalize sample_env
      (sample_args [⟨bytes "x-amz-acl", bytes "private"⟩, ⟨bytes "content-type", bytes "text/plain"⟩])
      sample_date_stamp sample_datetime)).all_headers.map fun hd => spec_lower hd.key) :=
  ⟨by decide,
    (canonical_headers_order sample_env
      (sample_args [⟨bytes "x-amz-acl", bytes "private"⟩, ⟨bytes "content-type", bytes "text/plain"⟩])
      sample_date_stamp sample_datetime _ (by decide) (by decide) (by decide)).2.2 (by decide)⟩


/-! ## The canonical query string -/

theorem unreserved_query_safe : ∀ (c : Byte) (k : Bool),
    (is_unreserved c k = true → c ≠ ch '&' ∧ c ≠ ch '=') ∧
    (hex.getD ((c.val / 16) % 16) 0 ≠ ch '&' ∧ hex.getD ((c.val / 16) % 16) 0 ≠ ch '=') ∧
    (hex.getD (c.val % 16) 0 ≠ ch '&' ∧ hex.getD (c.val % 16) 0 ≠ ch '=') := by
  decide

/-- Every byte `url_encode_component` writes is neither `&` nor `=`. -/
theorem url_encode_loop_query_safe (k : Bool) : ∀ (src : List Byte) (remaining : Nat)
    (d out : List Byte), url_encode_loop k src remaining d = some out →
    (∀ b ∈ d, b ≠ ch '&' ∧ b ≠ ch '=') → ∀ b ∈ out, b ≠ ch '&' ∧ b ≠ ch '=' := by
  intro src
  induction src with
  | nil =>
    intro remaining d out h hd
    rw [url_encode_loop] at h
    split at h
    · cases h
    · cases h; exact hd
  | cons c src ih =>
    intro remaining d out h hd
    rw [url_encode_loop] at h
    by_cases hc : c = 0
    · rw [if_pos hc] at h
      split at h
      · cases h
      · cases h; exact hd
    · rw [if_neg hc] at h
      by_cases hu : is_unreserved c k = true
      · simp only [hu, if_true] at h
        by_cases hr : 1 ≥ remaining
        · rw [if_pos hr] at h; cases h
        · rw [if_neg hr] at h
          refine ih _ _ _ h ?_
          intro b hb
          rcases List.mem_append.mp hb with hb | hb
          · exact hd b hb
          · simp only [List.mem_singleton] at hb
            subst hb
            exact (unreserved_query_safe b k).1 hu
      · have hu2 : is_unreserved c k = false := by simpa using hu
        simp only [hu2, Bool.false_eq_true, if_false] at h
        by_cases hr : 3 ≥ remaining
        · rw [if_pos hr] at h; cases h
        · rw [if_neg hr, if_neg (by decide)] at h
          refine ih _ _ _ h ?_
          intro b hb
          rcases List.mem_append.mp hb with hb | hb
          · exact hd b hb
          · simp only [List.mem_cons, List.mem_singleton, List.not_mem_nil, or_false] at hb
            rcases hb with hb | hb | hb
            · subst hb; decide
            · subst hb; exact (unreserved_query_safe c k).2.1
            · subst hb; exact (unreserved_query_safe c k).2.2

theorem url_encode_component_query_safe (k : Bool) (src out : List Byte) (n : Nat)
    (h : url_encode_component src n k = some out) : ∀ b ∈ out, b ≠ ch '&' ∧ b ≠ ch '=' := by
  unfold url_encode_component at h
  split at h
  · cases h
  · exact url_encode_loop_query_safe k src n [] out h (by simp)

theorem digit_query_safe : ∀ m : Fin 10,
    (Fin.ofNat (48 + m.val) : Byte) ≠ ch '&' ∧ (Fin.ofNat (48 + m.val) : Byte) ≠ ch '=' := by
  decide

theorem dec_digits_query_safe : ∀ (fuel n : Nat) (acc : List Byte),
    (∀ b ∈ acc, b ≠ ch '&' ∧ b ≠ ch '=') →
    ∀ b ∈ dec_digits fuel n acc, b ≠ ch '&' ∧ b ≠ ch '=' := by
  intro fuel
  induction fuel with
  | zero => intro n acc hacc; simpa [dec_digits] using hacc
  | succ fuel ih =>
    intro n acc hacc
    rw [dec_digits]
    split
    · exact hacc
    · apply ih
      intro b hb
      rcases List.mem_cons.mp hb with hb | hb
      · subst hb
        exact digit_query_safe ⟨n % 10, Nat.mod_lt _ (by decide)⟩
      · exact hacc b hb

theorem fmt_d_query_safe (i : Int) : ∀ b ∈ fmt_d i, b ≠ ch '&' ∧ b ≠ ch '=' := by
  unfold fmt_d
  split
  · intro b hb
    simp only [List.mem_singleton] at hb
    subst hb; decide
  · split
    · intro b hb
      rcases List.mem_cons.mp hb with hb | hb
      · subst hb; decide
      · exact dec_digits_query_safe _ _ [] (by simp) b hb
    · exact dec_digits_query_safe _ _ [] (by simp)

theorem takeWhile_name (name value : List Byte) (h : ch '=' ∉ name) :
    (name ++ [ch '='] ++ value).takeWhile (· ≠ ch '=') = name := by
  induction name with
  | nil => simp
  | cons c s ih =>
    have hc : c ≠ ch '=' := fun hh => h (by simp [hh])
    have hs : ch '=' ∉ s := fun hh => h (by simp [hh])
    simp only [List.cons_append, List.takeWhile_cons]
    simp only [ne_eq, hc, not_false_eq_true, decide_True, if_true]
    simpa using ih hs

/-- The names of a query made of `name=value` pairs are the names of the pairs. -/
theorem query_names_join_pairs (pairs : List (List Byte × List Byte)) (hne : pairs ≠ [])
    (hname : ∀ p ∈ pairs, ch '=' ∉ p.1 ∧ ch '&' ∉ p.1) (hvalue : ∀ p ∈ pairs, ch '&' ∉ p.2) :
    query_names (join_pairs pairs) = pairs.map fun p => p.1 := by
  unfold query_names join_pairs
  rw [List.splitOn_intercalate _ _ _ (by simpa using hne), List.map_map]
  · apply List.map_congr_left
    intro p hp
    exact takeWhile_name p.1 p.2 (hname p hp).1
  · intro l hl
    obtain ⟨p, hp, rfl⟩ := List.mem_map.mp hl
    intro hmem
    simp only [List.mem_append, List.mem_singleton] at hmem
    rcases hmem with (hmem | hmem) | hmem
    · exact (hname p hp).2 hmem
    · exact absurd hmem (by decide)
    · exact hvalue p hp hmem


/-- The pairs of the five-parameter query. -/
theorem query_format_eq_join (ce de se : List Byte) (x : Int) :
    query_format ce de x se =
      join_pairs [(bytes "X-Amz-Algorithm", bytes "AWS4-HMAC-SHA256"),
        (bytes "X-Amz-Credential", ce), (bytes "X-Amz-Date", de),
        (bytes "X-Amz-Expires", fmt_d x), (bytes "X-Amz-SignedHeaders", se)] := by
  have e1 : bytes "X-Amz-Algorithm=AWS4-HMAC-SHA256&" =
      bytes "X-Amz-Algorithm" ++ [ch '='] ++ bytes "AWS4-HMAC-SHA256" ++ [ch '&'] := by decide
  have e2 : bytes "X-Amz-Credential=" = bytes "X-Amz-Credential" ++ [ch '='] := by decide
  have e3 : bytes "X-Amz-Date=" = bytes "X-Amz-Date" ++ [ch '='] := by decide
  have e4 : bytes "X-Amz-Expires=" = bytes "X-Amz-Expires" ++ [ch '='] := by decide
  have e5 : bytes "X-Amz-SignedHeaders=" = bytes "X-Amz-SignedHeaders" ++ [ch '='] := by decide
  have e6 : bytes "&" = [ch '&'] := by decide
  unfold query_format join_pairs
  rw [e1, e2, e3, e4, e5, e6]
  simp only [List.map, List.intercalate, List.intersperse, List.flatten, List.append_assoc,
    List.append_nil]

theorem token_suffix_eq (q et : List Byte) (pairs : List (List Byte × List Byte))
    (hne : pairs ≠ []) (hq : q = join_pairs pairs) :
    q ++ bytes "&X-Amz-Security-Token=" ++ et =
      join_pairs (pairs ++ [(bytes "X-Amz-Security-Token", et)]) := by
  have e : bytes "&X-Amz-Security-Token=" = [ch '&'] ++ bytes "X-Amz-Security-Token" ++ [ch '='] := by
    decide
  subst hq
  rw [e]
  unfold join_pairs
  induction pairs with
  | nil => exact absurd rfl hne
  | cons p rest ih =>
    cases rest with
    | nil => simp [List.intercalate, List.intersperse]
    | cons p2 rest2 =>
      have := ih (by simp)
      simp only [List.intercalate, List.map_cons, List.cons_append, List.intersperse_cons_cons,
        List.flatten_cons, List.append_assoc] at this ⊢
      rw [this]

theorem five_pairs_names (ce de se : List Byte) (x : Int)
    (hce : ∀ b ∈ ce, b ≠ ch '&' ∧ b ≠ ch '=') (hde : ∀ b ∈ de, b ≠ ch '&' ∧ b ≠ ch '=')
    (hse : ∀ b ∈ se, b ≠ ch '&' ∧ b ≠ ch '=') :
    ∀ p ∈ [(bytes "X-Amz-Algorithm", bytes "AWS4-HMAC-SHA256"),
        (bytes "X-Amz-Credential", ce), (bytes "X-Amz-Date", de),
        (bytes "X-Amz-Expires", fmt_d x), (bytes "X-Amz-SignedHeaders", se)],
      (ch '=' ∉ p.1 ∧ ch '&' ∉ p.1) ∧ ∀ b ∈ p.2, b ≠ ch '&' ∧ b ≠ ch '=' := by
  intro p hp
  simp only [List.mem_cons, List.mem_singleton, List.not_mem_nil, or_false] at hp
  rcases hp with rfl | rfl | rfl | rfl | rfl
  · exact ⟨by decide, by decide⟩
  · exact ⟨(by decide : ch '=' ∉ bytes "X-Amz-Credential" ∧ ch '&' ∉ bytes "X-Amz-Credential"), hce⟩
  · exact ⟨(by decide : ch '=' ∉ bytes "X-Amz-Date" ∧ ch '&' ∉ bytes "X-Amz-Date"), hde⟩
  · exact ⟨(by decide : ch '=' ∉ bytes "X-Amz-Expires" ∧ ch '&' ∉ bytes "X-Amz-Expires"), fmt_d_query_safe x⟩
  · exact ⟨(by decide : ch '=' ∉ bytes "X-Amz-SignedHeaders" ∧ ch '&' ∉ bytes "X-Amz-SignedHeaders"), hse⟩

/-- C3 (as stated, refuted): with a session token the parameter names of the
signed query are the five fixed names followed by `X-Amz-Security-Token`, and
that name sorts before `X-Amz-SignedHeaders`, so the names are not in ascending
order. -/
theorem query_parameter_order_counterexample :
    (built (canonicalize { sample_env with AWS_SESSION_TOKEN := some (bytes "tok/en") }
      (sample_args []) sample_date_stamp sample_datetime)).query_params =
      bytes ("X-Amz-Algorithm=AWS4-HMAC-SHA256&X-Amz-Credential=AKIDEXAMPLE%2F20250101%2Ffr-par" ++
        "%2Fs3%2Faws4_request&X-Amz-Date=20250101T000000Z&X-Amz-Expires=900" ++
        "&X-Amz-SignedHeaders=host&X-Amz-Security-Token=tok%2Fen") ∧
    query_names (built (canonicalize { sample_env with AWS_SESSION_TOKEN := some (bytes "tok/en") }
      (sample_args []) sample_date_stamp sample_datetime)).query_params =
      five_names ++ [bytes "X-Amz-Security-Token"] ∧
    strcmp (bytes "X-Amz-Security-Token") (bytes "X-Amz-SignedHeaders") < 0 ∧
    ¬ ascending (five_names ++ [bytes "X-Amz-Security-Token"]) := by
  refine ⟨by decide, by decide, by decide, by decide⟩

/-- The pairs and names of the query built without a session token. -/
theorem names_without_token (ce de se cred dt signed : List Byte) (n1 n2 n3 : Nat) (x : Int)
    (hce : url_encode_component cred n1 false = some ce)
    (hde : url_encode_component dt n2 false = some de)
    (hse : url_encode_component signed n3 false = some se) :
    ∃ pairs : List (List Byte × List Byte),
      query_format ce de x se = join_pairs pairs ∧
      (∀ p ∈ pairs, ∀ b ∈ p.2, b ≠ ch '&' ∧ b ≠ ch '=') ∧
      pairs.map (fun p => p.1) = five_names ∧
      query_names (query_format ce de x se) = five_names := by
  have h5 := five_pairs_names ce de se x (url_encode_component_query_safe _ _ _ _ hce)
    (url_encode_component_query_safe _ _ _ _ hde) (url_encode_component_query_safe _ _ _ _ hse)
  have hnames := query_names_join_pairs _ (by simp) (fun p hp => (h5 p hp).1)
    (fun p hp hmem => ((h5 p hp).2 _ hmem).1 rfl)
  rw [← query_format_eq_join] at hnames
  exact ⟨_, query_format_eq_join ce de se x, fun p hp => (h5 p hp).2, rfl, hnames⟩

/-- The pairs and names of the query built with a session token. -/
theorem names_with_token (ce de se et cred dt signed t : List Byte) (n1 n2 n3 n4 : Nat) (x : Int)
    (hce : url_encode_component cred n1 false = some ce)
    (hde : url_encode_component dt n2 false = some de)
    (hse : url_encode_component signed n3 false = some se)
    (het : url_encode_component t n4 false = some et) :
    ∃ pairs : List (List Byte × List Byte),
      query_format ce de x se ++ bytes "&X-Amz-Security-Token=" ++ et = join_pairs pairs ∧
      (∀ p ∈ pairs, ∀ b ∈ p.2, b ≠ ch '&' ∧ b ≠ ch '=') ∧
      pairs.map (fun p => p.1) = five_names ++ [bytes "X-Amz-Security-Token"] ∧
      query_names (query_format ce de x se ++ bytes "&X-Amz-Security-Token=" ++ et) =
        five_names ++ [bytes "X-Amz-Security-Token"] := by
  have h5 := five_pairs_names ce de se x (url_encode_component_query_safe _ _ _ _ hce)
    (url_encode_component_query_safe _ _ _ _ hde) (url_encode_component_query_safe _ _ _ _ hse)
  have hq2 := token_suffix_eq _ et _ (by simp) (query_format_eq_join ce de se x)
  have h6 : ∀ p ∈ [(bytes "X-Amz-Algorithm", bytes "AWS4-HMAC-SHA256"),
      (bytes "X-Amz-Credential", ce), (bytes "X-Amz-Date", de),
      (bytes "X-Amz-Expires", fmt_d x), (bytes "X-Amz-SignedHeaders", se)] ++
      [(bytes "X-Amz-Security-Token", et)],
      (ch '=' ∉ p.1 ∧ ch '&' ∉ p.1) ∧ ∀ b ∈ p.2, b ≠ ch '&' ∧ b ≠ ch '=' := by
    intro p hp
    rcases List.mem_append.mp hp with hp | hp
    · exact h5 p hp
    · simp only [List.mem_singleton] at hp
      subst hp
      exact ⟨(by decide : ch '=' ∉ bytes "X-Amz-Security-Token" ∧
        ch '&' ∉ bytes "X-Amz-Security-Token"), url_encode_component_query_safe _ _ _ _ het⟩
  have hnames := query_names_join_pairs _ (by simp) (fun p hp => (h6 p hp).1)
    (fun p hp hmem => ((h6 p hp).2 _ hmem).1 rfl)
  rw [← hq2] at hnames
  exact ⟨_, hq2, fun p hp => (h6 p hp).2, rfl, hnames⟩

/-- C3 (amended): the canonical query string consists of `name=value` pairs
joined by `&`, no value containing `&` or `=`.  Its parameter names are the
five fixed names in the order of the format string, which is strictly
ascending byte-wise, followed, when a session token is present, by
`X-Amz-Security-Token` as the last name; without a session token the names
are therefore strictly ascending. -/
theorem query_parameter_order (cred dt signed : List Byte) (e : Int)
    (token : Option (List Byte)) (q : List Byte)
    (h : build_query cred dt signed e token = .ok q) :
    ∃ pairs : List (List Byte × List Byte),
      q = join_pairs pairs ∧
      (∀ p ∈ pairs, ∀ b ∈ p.2, b ≠ ch '&' ∧ b ≠ ch '=') ∧
      query_names q = pairs.map (fun p => p.1) ∧
      query_names q = five_names ++
        (if token.isSome then [bytes "X-Amz-Security-Token"] else []) ∧
      strictly_ascending five_names ∧
      (token = none → strictly_ascending (query_names q)) := by
  obtain ⟨ce, de, se, hce, hde, hse, _, hq⟩ := build_query_ok cred dt signed e token q h
  have hfive : strictly_ascending five_names := by decide
  rcases hq with ⟨hnone, hq⟩ | ⟨t, et, hsome, _, het, hq⟩
  · subst hnone
    obtain ⟨pairs, hj, hsafe, hmap, hnames⟩ :=
      names_without_token ce de se cred dt signed _ _ _ (e * 60) hce hde hse
    rw [← hq] at hj hnames
    refine ⟨pairs, hj, hsafe, by rw [hnames, hmap], ?_, hfive, ?_⟩
    · rw [hnames]; simp
    · intro _
      rw [hnames]; exact hfive
  · subst hsome
    obtain ⟨pairs, hj, hsafe, hmap, hnames⟩ :=
      names_with_token ce de se et cred dt signed t _ _ _ _ (e * 60) hce hde hse het
    rw [← hq] at hj hnames
    refine ⟨pairs, hj, hsafe, by rw [hnames, hmap], ?_, hfive, ?_⟩
    · rw [hnames]; simp
    · intro hh; cases hh

theorem query_parameter_order_witness :
    query_names (bytes ("X-Amz-Algorithm=AWS4-HMAC-SHA256&X-Amz-Credential=AKIDEXAMPLE&" ++
      "X-Amz-Date=20250101T000000Z&X-Amz-Expires=900&X-Amz-SignedHeaders=host")) = five_names ∧
    strictly_ascending five_names := by
  obtain ⟨_, _, _, _, hn, hf, _⟩ := query_parameter_order (bytes "AKIDEXAMPLE") sample_datetime
    (bytes "host") 15 none
    (bytes ("X-Amz-Algorithm=AWS4-HMAC-SHA256&X-Amz-Credential=AKIDEXAMPLE&" ++
      "X-Amz-Date=20250101T000000Z&X-Amz-Expires=900&X-Amz-SignedHeaders=host")) (by decide)
  exact ⟨hn, hf⟩

theorem build_query_none (cred dt signed ce de se : List Byte) (e : Int)
    (hce : url_encode_component cred (512 * 3) false = some ce)
    (hde : url_encode_component dt (32 * 3) false = some de)
    (hse : url_encode_component signed (MAX_HEADER_LEN * 3) false = some se)
    (hlen : (query_format ce de (e * 60) se).length < MAX_URL_LEN) :
    build_query cred dt signed e none = .ok (query_format ce de (e * 60) se) := by
  unfold build_query
  rw [hce, hde, hse]
  simp only
  rw [if_neg (by omega), snprintf_of_lt _ _ hlen]

/-- C4: with a session token the canonical query string is the five-parameter
query, the one the same run builds without a token, followed by
`&X-Amz-Security-Token=` and the percent-encoding (slash not preserved) of the
token, so `X-Amz-Security-Token` is its last parameter; without a session
token no parameter of the query has that name. -/
theorem session_token_placement (cred dt signed : List Byte) (e : Int) :
    (∀ t q : List Byte, (0 : Byte) ∉ t → build_query cred dt signed e (some t) = .ok q →
      ∃ q5, build_query cred dt signed e none = .ok q5 ∧
        q = q5 ++ bytes "&X-Amz-Security-Token=" ++ spec_encode false t ∧
        query_names q5 = five_names ∧
        query_names q = five_names ++ [bytes "X-Amz-Security-Token"] ∧
        (query_names q).getLast? = some (bytes "X-Amz-Security-Token")) ∧
    (∀ q : List Byte, build_query cred dt signed e none = .ok q →
      bytes "X-Amz-Security-Token" ∉ query_names q) := by
  constructor
  · intro t q h0 h
    obtain ⟨ce, de, se, hce, hde, hse, hlen, hq⟩ := build_query_ok cred dt signed e _ q h
    rcases hq with ⟨hnone, _⟩ | ⟨t2, et, hsome, _, het, hq⟩
    · cases hnone
    · cases hsome
      have hnone := build_query_none cred dt signed ce de se e hce hde hse hlen
      have het2 : et = spec_encode false t := by
        rw [url_encode_component_eq false t _ h0] at het
        split at het
        · cases het; rfl
        · cases het
      obtain ⟨_, _, _, _, hn5⟩ :=
        names_without_token ce de se cred dt signed _ _ _ (e * 60) hce hde hse
      obtain ⟨_, _, _, _, hn6⟩ :=
        names_with_token ce de se et cred dt signed t _ _ _ _ (e * 60) hce hde hse het
      rw [← hq] at hn6
      refine ⟨_, hnone, by rw [hq, het2], hn5, hn6, ?_⟩
      rw [hn6]
      decide
  · intro q h
    obtain ⟨ce, de, se, hce, hde, hse, _, hq⟩ := build_query_ok cred dt signed e _ q h
    rcases hq with ⟨_, hq⟩ | ⟨_, _, hsome, _⟩
    · obtain ⟨_, _, _, _, hn5⟩ :=
        names_without_token ce de se cred dt signed _ _ _ (e * 60) hce hde hse
      rw [hq, hn5]
      decide
    · cases hsome

theorem session_token_placement_witness :
    (0 : Byte) ∉ bytes "tok/en" ∧
    (query_names (bytes ("X-Amz-Algorithm=AWS4-HMAC-SHA256&X-Amz-Credential=AKIDEXAMPLE&" ++
      "X-Amz-Date=20250101T000000Z&X-Amz-Expires=900&X-Amz-SignedHeaders=host" ++
      "&X-Amz-Security-Token=tok%2Fen"))).getLast? = some (bytes "X-Amz-Security-Token") := by
  obtain ⟨_, _, _, _, _, hl⟩ := (session_token_placement (bytes "AKIDEXAMPLE") sample_datetime
    (bytes "host") 15).1 (bytes "tok/en")
    (bytes ("X-Amz-Algorithm=AWS4-HMAC-SHA256&X-Amz-Credential=AKIDEXAMPLE&" ++
      "X-Amz-Date=20250101T000000Z&X-Amz-Expires=900&X-Amz-SignedHeaders=host" ++
      "&X-Amz-Security-Token=tok%2Fen")) (by decide) (by decide)
  exact ⟨by decide, hl⟩

/-! ## The canonical request -/

/-- Nothing after line 425 can fail: a run that reaches the hash prints a URL. -/
theorem generate_ok_of_canonicalize (crypto : crypto_t) (env : env_t) (args : presign_args_t)
    (ds dt : List Byte) (c : canonical_t) (h : canonicalize env args ds dt = .ok c) :
    ∃ r, generate_presigned_url crypto env args ds dt = .ok r ∧ r.canonical = c := by
  unfold generate_presigned_url
  rw [h]
  exact ⟨_, rfl, rfl⟩

/-- The steps of `canonicalize`, put together. -/
theorem canonicalize_of_steps (env : env_t) (args : presign_args_t) (ds dt : List Byte)
    (access_key secret_key host uri headers signed query : List Byte)
    (h1 : check_credentials env = .ok (access_key, secret_key))
    (h2 : extract_host args.bucket_url = .ok host)
    (h3 : canonical_uri args.path = .ok uri)
    (h4 : canonical_headers_loop (qsort (merge_headers host args.headers)) [] = .ok headers)
    (h5 : signed_headers_loop (qsort (merge_headers host args.headers)) 0 [] = .ok signed)
    (h6 : build_query (credential access_key (credential_scope ds args.region args.service)) dt
      signed args.expire_min env.AWS_SESSION_TOKEN = .ok query) :
    ∃ c, canonicalize env args ds dt = .ok c ∧ c.canonical_uri = uri ∧
      c.canonical_headers = headers ∧ c.signed_headers_final = signed ∧ c.query_params = query ∧
      c.canonical_request = canonical_request args.method uri query headers signed := by
  unfold canonicalize
  rw [h1]
  simp only [bind, Except.bind, h2, h3, h4, h5, h6, pure, Except.pure]
  exact ⟨_, rfl, rfl, rfl, rfl, rfl, rfl⟩

/-- The loop of lines 288-335 succeeds whenever the whole block is at most
`sizeof(canonical_headers)` bytes long. -/
theorem canonical_headers_loop_fits : ∀ (hs : List header_t) (acc : List Byte),
    acc.length + ((hs.map header_entry).flatten).length ≤ MAX_HEADER_LEN * MAX_HEADERS →
    canonical_headers_loop hs acc = .ok (acc ++ (hs.map header_entry).flatten) := by
  intro hs
  induction hs with
  | nil => intro acc _; simp [canonical_headers_loop]
  | cons x rest ih =>
    intro acc hfit
    simp only [List.map_cons, List.flatten_cons, List.length_append, header_entry,
      List.length_map, MAX_HEADER_LEN, MAX_HEADERS] at hfit
    have hb1 : (bytes ":").length = 1 := rfl
    have hb2 : (bytes "\n").length = 1 := rfl
    rw [hb1, hb2] at hfit
    rw [canonical_headers_loop]
    simp only [List.length_map, SIZE_MAX, MAX_HEADER_LEN, MAX_HEADERS]
    rw [if_neg (by omega), if_neg (by omega), ih]
    · simp [header_entry, List.append_assoc]
    · simp only [List.length_append, List.length_map, hb1, hb2, MAX_HEADER_LEN, MAX_HEADERS]
      omega

theorem long_headers_valid : validated (sample_args long_headers) := by
  refine ⟨by decide, by decide, by decide, by decide, by decide, by decide, by decide, by decide,
    ?_, by decide⟩
  intro hd hmem
  simp only [sample_args, long_headers, List.mem_map] at hmem
  obtain ⟨key, hkey, rfl⟩ := hmem
  have hk : ∀ k ∈ [bytes "x0", bytes "x1", bytes "x2", bytes "x3", bytes "x4", bytes "x5",
      bytes "x6", bytes "x7"], c_string MAX_HEADER_LEN k ∧ ch ':' ∉ k := by decide
  refine ⟨(hk key hkey).1, (hk key hkey).2, ⟨?_, ?_⟩, ?_⟩
  · simp [long_value, MAX_HEADER_LEN]
  · intro h0
    exact absurd (List.eq_of_mem_replicate h0) (by decide)
  · intro c hc
    rw [List.eq_of_mem_replicate hc]
    decide

theorem trim_long_value : trim_value long_value = long_value := by
  rw [trim_value_eq_spec _ (by simp [long_value, MAX_HEADER_LEN])]
  have h1 : long_value.dropWhile spec_white = long_value := by
    unfold long_value
    rw [List.replicate_succ, List.dropWhile_cons_of_neg (by decide)]
  have h2 : long_value.reverse = long_value := by
    unfold long_value; exact List.reverse_replicate _ _
  unfold spec_trim
  rw [h1, h2, h1, h2]

theorem long_headers_sorted :
    qsort (merge_headers (bytes "s3.fr-par.scw.cloud") long_headers) =
      merge_headers (bytes "s3.fr-par.scw.cloud") long_headers := by
  apply List.Sorted.insertionSort_eq
  unfold merge_headers long_headers
  simp only [List.map]
  decide

theorem long_headers_block_length :
    (((merge_headers (bytes "s3.fr-par.scw.cloud") long_headers).map header_entry).flatten).length
      = 8241 := by
  simp only [merge_headers, long_headers, List.map, header_entry, trim_long_value,
    List.flatten, List.length_append, List.length_map, List.length_nil]
  simp only [long_value, List.length_replicate]
  rfl

theorem long_headers_block_bytes :
    ch 'D' ∉ ((merge_headers (bytes "s3.fr-par.scw.cloud") long_headers).map header_entry).flatten := by
  simp only [merge_headers, long_headers, List.map, header_entry, trim_long_value,
    List.flatten, List.mem_append, List.append_nil, not_or]
  simp only [long_value, List.mem_replicate]
  refine ⟨?_, ?_, ?_, ?_, ?_, ?_, ?_, ?_, ?_⟩ <;> decide

/-- A query string that was built fits `char query_params[MAX_URL_LEN]`. -/
theorem build_query_length (cred dt signed : List Byte) (e : Int) (token : Option (List Byte))
    (q : List Byte) (h : build_query cred dt signed e token = .ok q) :
    q.length < MAX_URL_LEN := by
  unfold build_query at h
  split at h
  · cases h
  · split at h
    · cases h
    · split at h
      · cases h
      · simp only at h
        split at h
        · cases h
        · rename_i hlen
          rw [snprintf_of_lt _ _ (by omega)] at h
          split at h
          · cases h; omega
          · split at h
            · cases h
            · split at h
              · cases h
              · split at h
                · cases h
                · cases h
                  simp only [List.length_append]
                  omega

/-- C2 (code bug): the request with the eight headers `x0` .. `x7` of 1023 bytes
each passes validation and the run prints a URL, but the formatted canonical
request is longer than 8191 bytes and only its first 8191 bytes are kept and
hashed: the hashed text breaks off inside the header block and does not end
with `UNSIGNED-PAYLOAD`. -/
theorem canonical_request_cut (crypto : crypto_t) :
    validated (sample_args long_headers) ∧
    ∃ r, generate_presigned_url crypto sample_env (sample_args long_headers) sample_date_stamp
        sample_datetime = .ok r ∧
      r.canonical.canonical_request.length = 8191 ∧
      8191 < (canonical_request_format (sample_args long_headers).method
        r.canonical.canonical_uri r.canonical.query_params r.canonical.canonical_headers
        r.canonical.signed_headers_final).length ∧
      r.canonical.canonical_request ≠
        canonical_request_format (sample_args long_headers).method r.canonical.canonical_uri
          r.canonical.query_params r.canonical.canonical_headers
          r.canonical.signed_headers_final ∧
      ¬ (bytes "UNSIGNED-PAYLOAD" <:+ r.canonical.canonical_request) := by
  refine ⟨long_headers_valid, ?_⟩
  have h1 : check_credentials sample_env = .ok (bytes "AKIDEXAMPLE", bytes "secret") := by decide
  have h2 : extract_host (sample_args long_headers).bucket_url =
      .ok (bytes "s3.fr-par.scw.cloud") := by decide
  have h3 : canonical_uri (sample_args long_headers).path = .ok (bytes "/mybucket/key.txt") := by
    decide
  have h4 : canonical_headers_loop
      (qsort (merge_headers (bytes "s3.fr-par.scw.cloud") (sample_args long_headers).headers)) [] =
      .ok (((merge_headers (bytes "s3.fr-par.scw.cloud") long_headers).map header_entry).flatten)
      := by
    show canonical_headers_loop (qsort (merge_headers (bytes "s3.fr-par.scw.cloud") long_headers))
      [] = _
    rw [long_headers_sorted]
    have := canonical_headers_loop_fits
      (merge_headers (bytes "s3.fr-par.scw.cloud") long_headers) []
      (by rw [long_headers_block_length]; decide)
    simpa using this
  have h5 : signed_headers_loop
      (qsort (merge_headers (bytes "s3.fr-par.scw.cloud") (sample_args long_headers).headers)) 0 []
      = .ok (bytes "host;x0;x1;x2;x3;x4;x5;x6;x7") := by
    show signed_headers_loop (qsort (merge_headers (bytes "s3.fr-par.scw.cloud") long_headers))
      0 [] = _
    rw [long_headers_sorted]
    decide
  cases h6 : build_query (credential (bytes "AKIDEXAMPLE") (credential_scope sample_date_stamp
      (sample_args long_headers).region (sample_args long_headers).service)) sample_datetime
      (bytes "host;x0;x1;x2;x3;x4;x5;x6;x7") (sample_args long_headers).expire_min
      sample_env.AWS_SESSION_TOKEN with
  | error m =>
    have hsome : (build_query (credential (bytes "AKIDEXAMPLE") (credential_scope
        sample_date_stamp (sample_args long_headers).region (sample_args long_headers).service))
        sample_datetime (bytes "host;x0;x1;x2;x3;x4;x5;x6;x7")
        (sample_args long_headers).expire_min sample_env.AWS_SESSION_TOKEN).toOption.isSome
        = true := by decide
    rw [h6] at hsome
    cases hsome
  | ok q =>
    have hqlen := build_query_length _ _ _ _ _ _ h6
    obtain ⟨hfmt, hblock⟩ := And.intro long_headers_block_length long_headers_block_bytes
    generalize ((merge_headers (bytes "s3.fr-par.scw.cloud") long_headers).map
      header_entry).flatten = block at h4 hfmt hblock
    obtain ⟨c, hc, huri, hheaders, hsigned, hquery, hreq⟩ := canonicalize_of_steps sample_env
      (sample_args long_headers) sample_date_stamp sample_datetime _ _ _ _ _ _ _ h1 h2 h3 h4 h5 h6
    obtain ⟨r, hr, hrc⟩ := generate_ok_of_canonicalize crypto _ _ _ _ c hc
    refine ⟨r, hr, ?_⟩
    rw [hrc, hreq, huri, hheaders, hsigned, hquery]
    have hsplit : canonical_request_format (sample_args long_headers).method
        (bytes "/mybucket/key.txt") q block (bytes "host;x0;x1;x2;x3;x4;x5;x6;x7") =
        ((sample_args long_headers).method ++ bytes "\n" ++ bytes "/mybucket/key.txt" ++
          bytes "\n" ++ q ++ bytes "\n") ++
        (block ++ (bytes "\n" ++ bytes "host;x0;x1;x2;x3;x4;x5;x6;x7" ++
          bytes "\nUNSIGNED-PAYLOAD")) := by
      simp [canonical_request_format, List.append_assoc]
    have hpre : ((sample_args long_headers).method ++ bytes "\n" ++ bytes "/mybucket/key.txt" ++
        bytes "\n" ++ q ++ bytes "\n").length = q.length + 23 := by
      simp only [List.length_append]
      have e1 : (sample_args long_headers).method.length = 3 := rfl
      have e2 : (bytes "\n").length = 1 := rfl
      have e3 : (bytes "/mybucket/key.txt").length = 17 := rfl
      omega
    unfold MAX_URL_LEN at hqlen
    unfold canonical_request snprintf
    rw [hsplit]
    generalize ((sample_args long_headers).method ++ bytes "\n" ++ bytes "/mybucket/key.txt" ++
        bytes "\n" ++ q ++ bytes "\n") = pre at hpre
    generalize (bytes "\n" ++ bytes "host;x0;x1;x2;x3;x4;x5;x6;x7" ++
          bytes "\nUNSIGNED-PAYLOAD") = post
    have htake : (pre ++ (block ++ post)).take (MAX_URL_LEN * 2 - 1) =
        pre ++ block.take (8191 - pre.length) := by
      show (pre ++ (block ++ post)).take 8191 = _
      rw [List.take_append_eq_append_take, List.take_append_eq_append_take,
        List.take_of_length_le (by omega),
        show 8191 - pre.length - block.length = 0 by omega]
      simp
    rw [htake]
    refine ⟨?_, ?_, ?_, ?_⟩
    · rw [List.length_append, List.length_take]; omega
    · simp only [List.length_append]; omega
    · intro heq
      have := congrArg List.length heq
      simp only [List.length_append, List.length_take] at this
      omega
    · intro hs
      have hs2 : bytes "UNSIGNED-PAYLOAD" <:+ block.take (8191 - pre.length) :=
        List.suffix_of_suffix_length_le hs (List.suffix_append _ _)
          (by rw [List.length_take]; have : (bytes "UNSIGNED-PAYLOAD").length = 16 := rfl; omega)
      exact hblock (List.mem_of_mem_take (hs2.subset (by decide)))

/-! ## The signing key -/

theorem aws_secret_cut (last : Byte) :
    snprintf MAX_ENV_VAR_LEN (bytes "AWS4" ++ long_secret last) =
      bytes "AWS4" ++ List.replicate 507 (ch 'a') := by
  unfold snprintf long_secret MAX_ENV_VAR_LEN
  rw [← List.append_assoc]
  exact List.take_left' (by simp [bytes])

/-- For a secret of at most 507 bytes and a library with 32-byte MACs,
`derive_signing_key` is the specification's chain. -/
theorem derive_signing_key_eq_spec (crypto : crypto_t) (secret date region service : List Byte)
    (hlen : secret.length ≤ 507) (hc : digest_sized crypto) :
    derive_signing_key crypto secret date region service =
      spec_signing_key crypto secret date region service := by
  unfold derive_signing_key spec_signing_key
  have h4 : (bytes "AWS4").length = 4 := rfl
  rw [snprintf_of_lt _ _ (by rw [List.length_append, h4]; unfold MAX_ENV_VAR_LEN; omega)]
  simp only [List.take_of_length_le (Nat.le_of_eq (hc.2 _ _))]

theorem sample_crypto_sized : digest_sized sample_crypto :=
  ⟨fun _ => List.length_replicate _ _, fun _ _ => List.length_replicate _ _⟩

/-- C11 (code bug): the secrets of 507 bytes `a` followed by `b`, respectively by
`c`, pass the credential checks, yet `derive_signing_key` gives both the same
key with every library, because `aws_secret` holds only `"AWS4"` and the
first 507 bytes; with a library whose MAC shows the last byte of its key the
result differs from the specification's chain over `"AWS4"` and all 508
bytes. -/
theorem derive_signing_key_cut :
    check_credentials { sample_env with AWS_SECRET_ACCESS_KEY := some (long_secret (ch 'b')) } =
      .ok (bytes "AKIDEXAMPLE", long_secret (ch 'b')) ∧
    (long_secret (ch 'b')).length = 508 ∧
    long_secret (ch 'b') ≠ long_secret (ch 'c') ∧
    (∀ (crypto : crypto_t) (date region service : List Byte),
      derive_signing_key crypto (long_secret (ch 'b')) date region service =
        derive_signing_key crypto (long_secret (ch 'c')) date region service) ∧
    digest_sized sample_crypto ∧
    ∀ date region service : List Byte,
      derive_signing_key sample_crypto (long_secret (ch 'b')) date region service ≠
        spec_signing_key sample_crypto (long_secret (ch 'b')) date region service := by
  refine ⟨by decide, by simp [long_secret], ?_, ?_, sample_crypto_sized, ?_⟩
  · intro h
    unfold long_secret at h
    have := List.append_cancel_left h
    exact absurd this (by decide)
  · intro crypto date region service
    unfold derive_signing_key
    rw [aws_secret_cut, aws_secret_cut]
  · intro date region service
    unfold derive_signing_key spec_signing_key
    rw [aws_secret_cut]
    simp only [sample_crypto, long_secret]
    decide

/-! ## The string to sign -/

/-- The steps behind a successful `generate_presigned_url`. -/
theorem generate_ok (crypto : crypto_t) (env : env_t) (args : presign_args_t) (ds dt : List Byte)
    (r : result_t) (h : generate_presigned_url crypto env args ds dt = .ok r) :
    canonicalize env args ds dt = .ok r.canonical ∧
    r.canonical_hash_hex = to_hex (crypto.sha256_hash r.canonical.canonical_request) 32 ∧
    r.string_to_sign = snprintf 1024 (bytes "AWS4-HMAC-SHA256\n" ++ dt ++ bytes "\n" ++
      r.canonical.credential_scope ++ bytes "\n" ++ r.canonical_hash_hex) ∧
    r.signature_hex = to_hex (crypto.hmac_sha256
      ((derive_signing_key crypto r.canonical.secret_key ds args.region args.service).take 32)
      r.string_to_sign) 32 ∧
    r.url = args.bucket_url ++ r.canonical.canonical_uri ++ bytes "?" ++
      r.canonical.query_params ++ bytes "&X-Amz-Signature=" ++ r.signature_hex := by
  unfold generate_presigned_url at h
  cases hc : canonicalize env args ds dt with
  | error m => rw [hc] at h; cases h
  | ok c =>
    rw [hc] at h
    simp only [bind, Except.bind, pure, Except.pure] at h
    cases h
    exact ⟨rfl, rfl, rfl, rfl, rfl⟩

theorem hex_chars_eq_spec : ∀ n : Fin 16,
    hex_chars.getD n.val 0 = spec_hex_lower_digit n.val ∧ hex_chars.getD n.val 0 ∈ hex_chars := by
  decide

theorem to_hex_succ (data : List Byte) (len : Nat) :
    to_hex data (len + 1) = to_hex data len ++
      [hex_chars.getD (((data.getD len 0).val / 16) % 16) 0,
        hex_chars.getD ((data.getD len 0).val % 16) 0] := by
  unfold to_hex
  rw [List.range_succ, List.flatMap_append]
  simp

theorem to_hex_length (data : List Byte) (len : Nat) : (to_hex data len).length = 2 * len := by
  induction len with
  | zero => simp [to_hex]
  | succ n ih => rw [to_hex_succ, List.length_append, ih]; simp; omega

theorem to_hex_mem (data : List Byte) (len : Nat) : ∀ b ∈ to_hex data len, b ∈ hex_chars := by
  induction len with
  | zero => simp [to_hex]
  | succ n ih =>
    intro b hb
    rw [to_hex_succ] at hb
    rcases List.mem_append.mp hb with hb | hb
    · exact ih b hb
    · simp only [List.mem_cons, List.mem_singleton, List.not_mem_nil, or_false] at hb
      rcases hb with hb | hb
      · rw [hb]
        exact (hex_chars_eq_spec ⟨_, Nat.mod_lt _ (by decide)⟩).2
      · rw [hb]
        exact (hex_chars_eq_spec ⟨_, Nat.mod_lt _ (by decide)⟩).2

theorem to_hex_append (init : List Byte) (x : Byte) :
    ∀ len, len ≤ init.length → to_hex (init ++ [x]) len = to_hex init len := by
  intro len
  induction len with
  | zero => intro _; simp [to_hex]
  | succ n ih =>
    intro hn
    rw [to_hex_succ, to_hex_succ, ih (by omega)]
    have : (init ++ [x]).getD n 0 = init.getD n 0 := by
      simp only [List.getD_eq_getElem?_getD]
      rw [List.getElem?_append_left (by omega)]
    rw [this]

/-- On a digest of exactly `len` bytes `to_hex` is the specification's `hex`. -/
theorem to_hex_eq_spec (data : List Byte) : to_hex data data.length = spec_hex_lower data := by
  induction data using List.reverseRecOn with
  | nil => simp [to_hex, spec_hex_lower]
  | append_singleton init x ih =>
    rw [List.length_append, List.length_singleton, to_hex_succ, to_hex_append _ _ _ (Nat.le_refl _),
      ih]
    unfold spec_hex_lower
    rw [List.flatMap_append]
    have hx : (init ++ [x]).getD init.length 0 = x := by
      simp [List.getD_eq_getElem?_getD]
    have h1 : x.val / 16 % 16 = x.val / 16 := Nat.mod_eq_of_lt (by omega)
    rw [hx, h1, (hex_chars_eq_spec ⟨x.val / 16, by omega⟩).1,
      (hex_chars_eq_spec ⟨x.val % 16, Nat.mod_lt _ (by decide)⟩).1]
    simp

theorem spec_encode_of_unreserved (k : Bool) (s : List Byte)
    (h : ∀ b ∈ s, is_unreserved b k = true) : spec_encode k s = s := by
  induction s with
  | nil => rfl
  | cons c s ih =>
    rw [spec_encode_cons, spec_encode_byte_eq_code, if_pos (h c (by simp)),
      ih (fun b hb => h b (by simp [hb]))]
    rfl

/-- The pairs of a query string that was built. -/
theorem build_query_pairs_raw (cred dt signed : List Byte) (e : Int)
    (token : Option (List Byte)) (q : List Byte)
    (h : build_query cred dt signed e token = .ok q) :
    ∃ (ce de se : List Byte) (extra : List (List Byte × List Byte)),
      url_encode_component dt (32 * 3) false = some de ∧
      q = join_pairs ([(bytes "X-Amz-Algorithm", bytes "AWS4-HMAC-SHA256"),
        (bytes "X-Amz-Credential", ce), (bytes "X-Amz-Date", de),
        (bytes "X-Amz-Expires", fmt_d (e * 60)), (bytes "X-Amz-SignedHeaders", se)] ++ extra) := by
  obtain ⟨ce, de, se, _, hde, _, _, hq⟩ := build_query_ok cred dt signed e token q h
  rcases hq with ⟨_, hq⟩ | ⟨_, et, _, _, _, hq⟩
  · exact ⟨ce, de, se, [], hde, by rw [hq, query_format_eq_join, List.append_nil]⟩
  · exact ⟨ce, de, se, [(bytes "X-Amz-Security-Token", et)], hde, by
      rw [hq]
      exact token_suffix_eq _ et _ (by simp) (query_format_eq_join ce _ se (e * 60))⟩

/-- The pairs of a query string that was built, for a date without NUL. -/
theorem build_query_pairs (cred dt signed : List Byte) (e : Int) (token : Option (List Byte))
    (q : List Byte) (h0 : (0 : Byte) ∉ dt)
    (h : build_query cred dt signed e token = .ok q) :
    ∃ (ce se : List Byte) (extra : List (List Byte × List Byte)),
      q = join_pairs ([(bytes "X-Amz-Algorithm", bytes "AWS4-HMAC-SHA256"),
        (bytes "X-Amz-Credential", ce), (bytes "X-Amz-Date", spec_encode false dt),
        (bytes "X-Amz-Expires", fmt_d (e * 60)), (bytes "X-Amz-SignedHeaders", se)] ++ extra) := by
  obtain ⟨ce, de, se, extra, hde, hq⟩ := build_query_pairs_raw cred dt signed e token q h
  have hde2 : de = spec_encode false dt := by
    rw [url_encode_component_eq false dt _ h0] at hde
    split at hde
    · cases hde; rfl
    · cases hde
  subst hde2
  exact ⟨ce, se, extra, hq⟩

/-- C12: for a validated request, with `date_stamp` and `datetime` as they fit
their buffers of 16 and 32 bytes and a library with 32-byte digests, the
credential scope is `dateStamp/region/service/aws4_request` and the string to
sign is `AWS4-HMAC-SHA256`, the date, the scope and the 64 lower-case hex
digits of the hash of the canonical request, one per line, neither of them
cut; the value of `X-Amz-Date` in the query is the encoding of that same
date, which decodes to it and is the date itself when it has digits and
letters only. -/
theorem string_to_sign_exact (crypto : crypto_t) (env : env_t) (args : presign_args_t)
    (ds dt : List Byte) (r : result_t) (hv : validated args) (hds : ds.length < 16)
    (hdt : c_string 32 dt) (hc : digest_sized crypto)
    (h : generate_presigned_url crypto env args ds dt = .ok r) :
    r.canonical.credential_scope =
      ds ++ bytes "/" ++ args.region ++ bytes "/" ++ args.service ++ bytes "/aws4_request" ∧
    r.string_to_sign = bytes "AWS4-HMAC-SHA256\n" ++ dt ++ bytes "\n" ++
      r.canonical.credential_scope ++ bytes "\n" ++
      spec_hex_lower (crypto.sha256_hash r.canonical.canonical_request) ∧
    (spec_hex_lower (crypto.sha256_hash r.canonical.canonical_request)).length = 64 ∧
    (∀ b ∈ spec_hex_lower (crypto.sha256_hash r.canonical.canonical_request),
      b ∈ bytes "0123456789abcdef") ∧
    ∃ pairs, r.canonical.query_params = join_pairs pairs ∧
      (bytes "X-Amz-Date", spec_encode false dt) ∈ pairs ∧
      percent_decode (spec_encode false dt) = dt ∧
      ((∀ b ∈ dt, is_unreserved b false = true) → spec_encode false dt = dt) := by
  obtain ⟨hcan, hhash, hsts, _, _⟩ := generate_ok crypto env args ds dt r h
  obtain ⟨_, _, _, hscope, _, _, _, _, hquery, _⟩ := canonicalize_ok env args ds dt _ hcan
  obtain ⟨hservice, _, hregion, _⟩ := hv
  have hhex : r.canonical_hash_hex =
      spec_hex_lower (crypto.sha256_hash r.canonical.canonical_request) := by
    have := to_hex_eq_spec (crypto.sha256_hash r.canonical.canonical_request)
    rw [hc.1] at this
    rw [hhash, this]
  have hlen64 : r.canonical_hash_hex.length = 64 := by rw [hhash, to_hex_length]
  have e1 : (bytes "/").length = 1 := rfl
  have e2 : (bytes "/aws4_request").length = 13 := rfl
  have e3 : (bytes "s3").length = 2 := rfl
  have e4 : (bytes "AWS4-HMAC-SHA256\n").length = 17 := rfl
  have e5 : (bytes "\n").length = 1 := rfl
  have hscope2 : r.canonical.credential_scope =
      ds ++ bytes "/" ++ args.region ++ bytes "/" ++ args.service ++ bytes "/aws4_request" := by
    rw [hscope]
    unfold credential_scope
    apply snprintf_of_lt
    simp only [List.length_append, hservice, e1, e2, e3]
    have := hregion.1
    omega
  have hscopelen : r.canonical.credential_scope.length < 256 := by
    rw [hscope]; exact snprintf_length_lt 256 _ (by decide)
  refine ⟨hscope2, ?_, by rw [← hhex]; exact hlen64, ?_, ?_⟩
  · rw [hsts, ← hhex]
    apply snprintf_of_lt
    simp only [List.length_append, e4, e5, hlen64]
    have := hdt.1
    omega
  · intro b hb
    rw [← hhex, hhash] at hb
    exact to_hex_mem _ _ b hb
  · obtain ⟨ce, se, extra, hq⟩ := build_query_pairs _ dt _ _ _ _ hdt.2 hquery
    exact ⟨_, hq, by simp, percent_decode_spec_encode false dt,
      spec_encode_of_unreserved false dt⟩

theorem string_to_sign_exact_witness :
    validated (sample_args []) ∧ c_string 32 sample_datetime ∧ digest_sized sample_crypto ∧
    ∃ r, generate_presigned_url sample_crypto sample_env (sample_args []) sample_date_stamp
        sample_datetime = .ok r ∧
      r.canonical.credential_scope = bytes "20250101/fr-par/s3/aws4_request" ∧
      r.string_to_sign = bytes "AWS4-HMAC-SHA256\n20250101T000000Z\n" ++
        r.canonical.credential_scope ++ bytes "\n" ++
        spec_hex_lower (sample_crypto.sha256_hash r.canonical.canonical_request) := by
  obtain ⟨r, hr, _⟩ := generate_ok_of_canonicalize sample_crypto sample_env (sample_args [])
    sample_date_stamp sample_datetime
    (built (canonicalize sample_env (sample_args []) sample_date_stamp sample_datetime))
    (by decide)
  have hthm := string_to_sign_exact sample_crypto sample_env (sample_args []) sample_date_stamp
    sample_datetime r (by decide) (by decide) (by decide) sample_crypto_sized hr
  exact ⟨by decide, by decide, sample_crypto_sized, r, hr, hthm.1, hthm.2.1⟩

/-! ## The printed URL -/

theorem unreserved_no_newline : ∀ (c : Byte) (k : Bool),
    (is_unreserved c k = true → c ≠ ch '\n') ∧
    hex.getD ((c.val / 16) % 16) 0 ≠ ch '\n' ∧ hex.getD (c.val % 16) 0 ≠ ch '\n' := by
  decide

/-- No byte `url_encode_component` writes is a line feed. -/
theorem url_encode_loop_no_newline (k : Bool) : ∀ (src : List Byte) (remaining : Nat)
    (d out : List Byte), url_encode_loop k src remaining d = some out →
    (∀ b ∈ d, b ≠ ch '\n') → ∀ b ∈ out, b ≠ ch '\n' := by
  intro src
  induction src with
  | nil =>
    intro remaining d out h hd
    rw [url_encode_loop] at h
    split at h
    · cases h
    · cases h; exact hd
  | cons c src ih =>
    intro remaining d out h hd
    rw [url_encode_loop] at h
    by_cases hc : c = 0
    · rw [if_pos hc] at h
      split at h
      · cases h
      · cases h; exact hd
    · rw [if_neg hc] at h
      by_cases hu : is_unreserved c k = true
      · simp only [hu, if_true] at h
        by_cases hr : 1 ≥ remaining
        · rw [if_pos hr] at h; cases h
        · rw [if_neg hr] at h
          refine ih _ _ _ h ?_
          intro b hb
          rcases List.mem_append.mp hb with hb | hb
          · exact hd b hb
          · simp only [List.mem_singleton] at hb
            subst hb
            exact (unreserved_no_newline b k).1 hu
      · have hu2 : is_unreserved c k = false := by simpa using hu
        simp only [hu2, Bool.false_eq_true, if_false] at h
        by_cases hr : 3 ≥ remaining
        · rw [if_pos hr] at h; cases h
        · rw [if_neg hr, if_neg (by decide)] at h
          refine ih _ _ _ h ?_
          intro b hb
          rcases List.mem_append.mp hb with hb | hb
          · exact hd b hb
          · simp only [List.mem_cons, List.mem_singleton, List.not_mem_nil, or_false] at hb
            rcases hb with hb | hb | hb
            · subst hb; decide
            · subst hb; exact (unreserved_no_newline c k).2.1
            · subst hb; exact (unreserved_no_newline c k).2.2

theorem url_encode_component_no_newline (k : Bool) (src out : List Byte) (n : Nat)
    (h : url_encode_component src n k = some out) : ∀ b ∈ out, b ≠ ch '\n' := by
  unfold url_encode_component at h
  split at h
  · cases h
  · exact url_encode_loop_no_newline k src n [] out h (by simp)

theorem url_encode_loop_length (k : Bool) : ∀ (src : List Byte) (remaining : Nat)
    (d out : List Byte), url_encode_loop k src remaining d = some out →
    out.length < d.length + remaining := by
  intro src
  induction src with
  | nil =>
    intro remaining d out h
    rw [url_encode_loop] at h
    split at h
    · cases h
    · cases h; omega
  | cons c src ih =>
    intro remaining d out h
    rw [url_encode_loop] at h
    by_cases hc : c = 0
    · rw [if_pos hc] at h
      split at h
      · cases h
      · cases h; omega
    · rw [if_neg hc] at h
      by_cases hu : is_unreserved c k = true
      · simp only [hu, if_true] at h
        by_cases hr : 1 ≥ remaining
        · rw [if_pos hr] at h; cases h
        · rw [if_neg hr] at h
          have := ih _ _ _ h
          simp only [List.length_append, List.length_singleton] at this
          omega
      · have hu2 : is_unreserved c k = false := by simpa using hu
        simp only [hu2, Bool.false_eq_true, if_false] at h
        by_cases hr : 3 ≥ remaining
        · rw [if_pos hr] at h; cases h
        · rw [if_neg hr, if_neg (by decide)] at h
          have := ih _ _ _ h
          simp only [List.length_append, List.length_cons, List.length_nil] at this
          omega

/-- A string `url_encode_component` has written fits its buffer. -/
theorem url_encode_component_length (k : Bool) (src out : List Byte) (n : Nat)
    (h : url_encode_component src n k = some out) : out.length < n := by
  unfold url_encode_component at h
  split at h
  · cases h
  · have := url_encode_loop_length k src n [] out h
    simpa using this

/-- The canonical URI fits `char canonical_uri[MAX_PATH_LEN]` and has no line
feed. -/
theorem canonical_uri_bytes (path uri : List Byte) (h : canonical_uri path = .ok uri) :
    uri.length < MAX_PATH_LEN ∧ ∀ b ∈ uri, b ≠ ch '\n' := by
  unfold canonical_uri at h
  split at h
  · split at h
    · cases h
    · rename_i encoded henc
      cases h
      have hl := url_encode_component_length _ _ _ _ henc
      have hn := url_encode_component_no_newline _ _ _ _ henc
      refine ⟨by simp only [List.length_cons]; unfold MAX_PATH_LEN at *; omega, ?_⟩
      intro b hb
      rcases List.mem_cons.mp hb with hb | hb
      · subst hb; decide
      · exact hn b hb
  · split at h
    · cases h
    · rename_i encoded henc
      cases h
      exact ⟨url_encode_component_length _ _ _ _ henc,
        url_encode_component_no_newline _ _ _ _ henc⟩

theorem digit_no_newline : ∀ m : Fin 10, (Fin.ofNat (48 + m.val) : Byte) ≠ ch '\n' := by
  decide

theorem dec_digits_no_newline : ∀ (fuel n : Nat) (acc : List Byte),
    (∀ b ∈ acc, b ≠ ch '\n') → ∀ b ∈ dec_digits fuel n acc, b ≠ ch '\n' := by
  intro fuel
  induction fuel with
  | zero => intro n acc hacc; simpa [dec_digits] using hacc
  | succ fuel ih =>
    intro n acc hacc
    rw [dec_digits]
    split
    · exact hacc
    · apply ih
      intro b hb
      rcases List.mem_cons.mp hb with hb | hb
      · subst hb
        exact digit_no_newline ⟨n % 10, Nat.mod_lt _ (by decide)⟩
      · exact hacc b hb

theorem fmt_d_no_newline (i : Int) : ∀ b ∈ fmt_d i, b ≠ ch '\n' := by
  unfold fmt_d
  split
  · intro b hb
    simp only [List.mem_singleton] at hb
    subst hb; decide
  · split
    · intro b hb
      rcases List.mem_cons.mp hb with hb | hb
      · subst hb; decide
      · exact dec_digits_no_newline _ _ [] (by simp) b hb
    · exact dec_digits_no_newline _ _ [] (by simp)

theorem forall_ne_of_not_mem (c : Byte) (l : List Byte) (h : c ∉ l) : ∀ b ∈ l, b ≠ c :=
  fun _ hb hbc => h (hbc ▸ hb)

/-- A query string that was built has no line feed. -/
theorem build_query_no_newline (cred dt signed : List Byte) (e : Int)
    (token : Option (List Byte)) (q : List Byte)
    (h : build_query cred dt signed e token = .ok q) : ∀ b ∈ q, b ≠ ch '\n' := by
  obtain ⟨ce, de, se, hce, hde, hse, _, hq⟩ := build_query_ok cred dt signed e token q h
  have nce := url_encode_component_no_newline _ _ _ _ hce
  have nde := url_encode_component_no_newline _ _ _ _ hde
  have nse := url_encode_component_no_newline _ _ _ _ hse
  have l1 := forall_ne_of_not_mem (ch '\n') (bytes "X-Amz-Algorithm=AWS4-HMAC-SHA256&") (by decide)
  have l2 := forall_ne_of_not_mem (ch '\n') (bytes "X-Amz-Credential=") (by decide)
  have l3 := forall_ne_of_not_mem (ch '\n') (bytes "&") (by decide)
  have l4 := forall_ne_of_not_mem (ch '\n') (bytes "X-Amz-Date=") (by decide)
  have l5 := forall_ne_of_not_mem (ch '\n') (bytes "X-Amz-Expires=") (by decide)
  have l6 := forall_ne_of_not_mem (ch '\n') (bytes "X-Amz-SignedHeaders=") (by decide)
  have l7 := forall_ne_of_not_mem (ch '\n') (bytes "&X-Amz-Security-Token=") (by decide)
  have hfmt : ∀ b ∈ query_format ce de (e * 60) se, b ≠ ch '\n' := by
    have nfmt := fmt_d_no_newline (e * 60)
    unfold query_format
    simp only [List.forall_mem_append]
    exact ⟨⟨⟨⟨⟨⟨⟨⟨⟨⟨⟨l1, l2⟩, nce⟩, l3⟩, l4⟩, nde⟩, l3⟩, l5⟩, nfmt⟩, l3⟩, l6⟩, nse⟩
  rcases hq with ⟨_, hq⟩ | ⟨_, et, _, _, het, hq⟩
  · rw [hq]; exact hfmt
  · rw [hq]
    simp only [List.forall_mem_append]
    exact ⟨⟨hfmt, l7⟩, url_encode_component_no_newline _ _ _ _ het⟩

theorem splitOn_line (xs tail : List Byte) (h : ch '\n' ∉ xs) :
    (xs ++ bytes "\n" ++ tail).splitOn (ch '\n') = xs :: tail.splitOn (ch '\n') := by
  have e : bytes "\n" = [ch '\n'] := rfl
  rw [e, List.append_assoc, List.singleton_append]
  exact List.splitOnP_first (· == ch '\n') xs (fun x hx hp => h (by
    have : x = ch '\n' := by simpa using hp
    rw [← this]; exact hx)) (ch '\n') (by simp) tail

/-- The first three lines of a text that starts with three lines. -/
theorem first_three_lines (method uri query tail : List Byte) (hm : ch '\n' ∉ method)
    (hu : ch '\n' ∉ uri) (hq : ch '\n' ∉ query) :
    ((method ++ bytes "\n" ++ uri ++ bytes "\n" ++ query ++ bytes "\n" ++ tail).splitOn
      (ch '\n')).take 3 = [method, uri, query] := by
  have e : method ++ bytes "\n" ++ uri ++ bytes "\n" ++ query ++ bytes "\n" ++ tail =
      method ++ bytes "\n" ++ (uri ++ bytes "\n" ++ (query ++ bytes "\n" ++ tail)) := by
    simp only [List.append_assoc]
  rw [e, splitOn_line _ _ hm, splitOn_line _ _ hu, splitOn_line _ _ hq]
  rfl

/-- The stored canonical request keeps its first three lines whole. -/
theorem canonical_request_head (method uri query headers signed : List Byte)
    (hlen : method.length + uri.length + query.length + 3 ≤ 8191) :
    ∃ tail, canonical_request method uri query headers signed =
      method ++ bytes "\n" ++ uri ++ bytes "\n" ++ query ++ bytes "\n" ++ tail := by
  have e1 : (bytes "\n").length = 1 := rfl
  refine ⟨(headers ++ bytes "\n" ++ signed ++ bytes "\nUNSIGNED-PAYLOAD").take
    (8191 - (method ++ bytes "\n" ++ uri ++ bytes "\n" ++ query ++ bytes "\n").length), ?_⟩
  unfold canonical_request snprintf canonical_request_format
  have e : method ++ bytes "\n" ++ uri ++ bytes "\n" ++ query ++ bytes "\n" ++ headers ++
      bytes "\n" ++ signed ++ bytes "\nUNSIGNED-PAYLOAD" =
      (method ++ bytes "\n" ++ uri ++ bytes "\n" ++ query ++ bytes "\n") ++
      (headers ++ bytes "\n" ++ signed ++ bytes "\nUNSIGNED-PAYLOAD") := by
    simp only [List.append_assoc]
  rw [e]
  show List.take 8191 _ = _
  rw [List.take_append_eq_append_take, List.take_of_length_le]
  simp only [List.length_append, e1]
  omega

theorem join_pairs_snoc (pairs : List (List Byte × List Byte)) (name value : List Byte)
    (hne : pairs ≠ []) :
    join_pairs (pairs ++ [(name, value)]) =
      join_pairs pairs ++ [ch '&'] ++ name ++ [ch '='] ++ value := by
  unfold join_pairs
  induction pairs with
  | nil => exact absurd rfl hne
  | cons p rest ih =>
    cases rest with
    | nil => simp [List.intercalate, List.intersperse]
    | cons p2 rest2 =>
      have := ih (by simp)
      simp only [List.intercalate, List.map_cons, List.cons_append, List.intersperse_cons_cons,
        List.flatten_cons, List.append_assoc] at this ⊢
      rw [this]

theorem name_safe (name : List Byte)
    (h : name ∈ five_names ++ [bytes "X-Amz-Security-Token", bytes "X-Amz-Signature"]) :
    ch '=' ∉ name ∧ ch '&' ∉ name := by
  simp only [five_names, List.cons_append, List.nil_append, List.mem_cons, List.mem_singleton,
    List.not_mem_nil, or_false] at h
  rcases h with h | h | h | h | h | h | h <;> rw [h] <;> exact ⟨by decide, by decide⟩

/-- The pairs and names of a query string that was built. -/
theorem build_query_names (cred dt signed : List Byte) (e : Int) (token : Option (List Byte))
    (q : List Byte) (h : build_query cred dt signed e token = .ok q) :
    ∃ pairs : List (List Byte × List Byte), q = join_pairs pairs ∧ pairs ≠ [] ∧
      (∀ p ∈ pairs, ∀ b ∈ p.2, b ≠ ch '&' ∧ b ≠ ch '=') ∧
      query_names q = pairs.map (fun p => p.1) ∧
      (pairs.map (fun p => p.1) = five_names ∨
        pairs.map (fun p => p.1) = five_names ++ [bytes "X-Amz-Security-Token"]) := by
  obtain ⟨ce, de, se, hce, hde, hse, _, hq⟩ := build_query_ok cred dt signed e token q h
  rcases hq with ⟨_, hq⟩ | ⟨t, et, _, _, het, hq⟩
  · obtain ⟨pairs, hj, hsafe, hmap, hnames⟩ :=
      names_without_token ce de se cred dt signed _ _ _ (e * 60) hce hde hse
    rw [← hq] at hj hnames
    refine ⟨pairs, hj, ?_, hsafe, by rw [hnames, hmap], Or.inl hmap⟩
    intro hnil; rw [hnil] at hmap; cases hmap
  · obtain ⟨pairs, hj, hsafe, hmap, hnames⟩ :=
      names_with_token ce de se et cred dt signed t _ _ _ _ (e * 60) hce hde hse het
    rw [← hq] at hj hnames
    refine ⟨pairs, hj, ?_, hsafe, by rw [hnames, hmap], Or.inr hmap⟩
    intro hnil; rw [hnil] at hmap; cases hmap

/-- C13: on success the printed URL is the endpoint, the canonical URI, `?`, the
canonical query, `&X-Amz-Signature=` and the signature; the URI and the query
are lines 2 and 3 of the canonical request that is hashed; the signature is
64 lower-case hex digits; `X-Amz-Signature` is the last parameter name of the
URL's query and is not a parameter name of the signed query. -/
theorem printed_url (crypto : crypto_t) (env : env_t) (args : presign_args_t)
    (ds dt : List Byte) (r : result_t) (hv : validated args)
    (h : generate_presigned_url crypto env args ds dt = .ok r) :
    r.url = args.bucket_url ++ r.canonical.canonical_uri ++ bytes "?" ++
      r.canonical.query_params ++ bytes "&X-Amz-Signature=" ++ r.signature_hex ∧
    r.canonical_hash_hex = to_hex (crypto.sha256_hash r.canonical.canonical_request) 32 ∧
    (r.canonical.canonical_request.splitOn (ch '\n')).take 3 =
      [args.method, r.canonical.canonical_uri, r.canonical.query_params] ∧
    r.signature_hex.length = 64 ∧
    (∀ b ∈ r.signature_hex, b ∈ bytes "0123456789abcdef") ∧
    query_names (r.canonical.query_params ++ bytes "&X-Amz-Signature=" ++ r.signature_hex) =
      query_names r.canonical.query_params ++ [bytes "X-Amz-Signature"] ∧
    bytes "X-Amz-Signature" ∉ query_names r.canonical.query_params := by
  obtain ⟨hcan, hhash, _, hsig, hurl⟩ := generate_ok crypto env args ds dt r h
  obtain ⟨_, _, huri, _, _, _, _, _, hquery, hreq⟩ := canonicalize_ok env args ds dt _ hcan
  obtain ⟨hulen, hunl⟩ := canonical_uri_bytes _ _ huri
  have hqlen := build_query_length _ _ _ _ _ _ hquery
  have hqnl := build_query_no_newline _ _ _ _ _ _ hquery
  have hmethod : args.method.length ≤ 6 ∧ ch '\n' ∉ args.method := by
    rcases hv.2.1 with hm | hm | hm <;> rw [hm] <;> exact ⟨by decide, by decide⟩
  have hsiglen : r.signature_hex.length = 64 := by rw [hsig, to_hex_length]
  have hsigmem : ∀ b ∈ r.signature_hex, b ∈ hex_chars := by
    rw [hsig]; exact to_hex_mem _ _
  refine ⟨hurl, hhash, ?_, hsiglen, hsigmem, ?_, ?_⟩
  · obtain ⟨tail, htail⟩ := canonical_request_head args.method r.canonical.canonical_uri
      r.canonical.query_params r.canonical.canonical_headers r.canonical.signed_headers_final
      (by unfold MAX_PATH_LEN at hulen; unfold MAX_URL_LEN at hqlen; omega)
    rw [hreq, htail]
    exact first_three_lines _ _ _ _ hmethod.2 (fun hm => hunl _ hm rfl) (fun hm => hqnl _ hm rfl)
  · obtain ⟨pairs, hj, hne, hsafe, hnames, hfive⟩ := build_query_names _ _ _ _ _ _ hquery
    have e : bytes "&X-Amz-Signature=" = [ch '&'] ++ bytes "X-Amz-Signature" ++ [ch '='] := by
      decide
    have hjoin : r.canonical.query_params ++ bytes "&X-Amz-Signature=" ++ r.signature_hex =
        join_pairs (pairs ++ [(bytes "X-Amz-Signature", r.signature_hex)]) := by
      rw [join_pairs_snoc _ _ _ hne, ← hj, e]
      simp only [List.append_assoc]
    have hmem : ∀ p ∈ pairs ++ [(bytes "X-Amz-Signature", r.signature_hex)],
        p.1 ∈ five_names ++ [bytes "X-Amz-Security-Token", bytes "X-Amz-Signature"] := by
      intro p hp
      rcases List.mem_append.mp hp with hp | hp
      · have hp1 : p.1 ∈ pairs.map (fun p => p.1) := List.mem_map.mpr ⟨p, hp, rfl⟩
        rcases hfive with hf | hf <;> rw [hf] at hp1
        · exact List.mem_append_left _ hp1
        · rcases List.mem_append.mp hp1 with hp1 | hp1
          · exact List.mem_append_left _ hp1
          · exact List.mem_append_right _ (by
              simp only [List.mem_singleton] at hp1; rw [hp1]; simp)
      · simp only [List.mem_singleton] at hp
        rw [hp]
        exact List.mem_append_right _ (by simp)
    rw [hjoin, query_names_join_pairs _ (by simp) (fun p hp => name_safe _ (hmem p hp)), hnames]
    · simp
    · intro p hp hamp
      rcases List.mem_append.mp hp with hp | hp
      · exact (hsafe p hp _ hamp).1 rfl
      · simp only [List.mem_singleton] at hp
        rw [hp] at hamp
        exact absurd (hsigmem _ hamp) (by decide)
  · obtain ⟨pairs, _, _, _, hnames, hfive⟩ := build_query_names _ _ _ _ _ _ hquery
    rw [hnames]
    rcases hfive with hf | hf <;> rw [hf] <;> decide

theorem printed_url_witness :
    validated (sample_args []) ∧
    ∃ r, generate_presigned_url sample_crypto sample_env (sample_args []) sample_date_stamp
        sample_datetime = .ok r ∧
      r.url = (sample_args []).bucket_url ++ r.canonical.canonical_uri ++ bytes "?" ++
        r.canonical.query_params ++ bytes "&X-Amz-Signature=" ++ r.signature_hex ∧
      r.signature_hex.length = 64 := by
  obtain ⟨r, hr, _⟩ := generate_ok_of_canonicalize sample_crypto sample_env (sample_args [])
    sample_date_stamp sample_datetime
    (built (canonicalize sample_env (sample_args []) sample_date_stamp sample_datetime))
    (by decide)
  have hthm := printed_url sample_crypto sample_env (sample_args []) sample_date_stamp
    sample_datetime r (by decide) hr
  exact ⟨by decide, r, hr, hthm.1, hthm.2.2.2.1⟩

/-! ## The expiry in the query -/

theorem spec_decimal_step (n : Nat) (h : 0 < n) :
    spec_decimal n = spec_decimal (n / 10) ++ [Fin.ofNat (48 + n % 10)] := by
  unfold spec_decimal
  rw [Nat.digits_def' (by decide) h, List.reverse_cons, List.map_append]
  rfl

theorem dec_digits_eq_spec : ∀ (fuel n : Nat) (acc : List Byte), n ≤ fuel →
    dec_digits fuel n acc = spec_decimal n ++ acc := by
  intro fuel
  induction fuel with
  | zero =>
    intro n acc hn
    have : n = 0 := by omega
    subst this
    simp [dec_digits, spec_decimal]
  | succ fuel ih =>
    intro n acc hn
    rw [dec_digits]
    by_cases h0 : n = 0
    · subst h0
      simp [spec_decimal]
    · rw [if_neg h0, ih _ _ (by omega), spec_decimal_step n (by omega)]
      simp

/-- `%d` of a positive number is its decimal rendering. -/
theorem fmt_d_eq_spec (i : Int) (h : 0 < i) : fmt_d i = spec_decimal i.toNat := by
  unfold fmt_d
  rw [if_neg (by omega), if_neg (by omega)]
  have : i.natAbs = i.toNat := by omega
  rw [this, dec_digits_eq_spec _ _ _ (Nat.le_refl _), List.append_nil]

/-- C15: for a validated request the query has exactly one parameter named
`X-Amz-Expires`, and its value is the decimal rendering of `expire_min * 60`;
that product lies in `[60, 604800]`, inside the range of `int`. -/
theorem expires_value (env : env_t) (args : presign_args_t) (ds dt : List Byte) (c : canonical_t)
    (hv : validated args) (h : canonicalize env args ds dt = .ok c) :
    (∃ pairs, c.query_params = join_pairs pairs ∧
      (bytes "X-Amz-Expires", spec_decimal (args.expire_min * 60).toNat) ∈ pairs) ∧
    (query_names c.query_params).count (bytes "X-Amz-Expires") = 1 ∧
    ((args.expire_min * 60).toNat : Int) = args.expire_min * 60 ∧
    60 ≤ args.expire_min * 60 ∧ args.expire_min * 60 ≤ 604800 ∧
    -(INT_MAX + 1) ≤ args.expire_min * 60 ∧ args.expire_min * 60 ≤ INT_MAX := by
  obtain ⟨_, _, _, _, _, _, _, _, hquery, _⟩ := canonicalize_ok env args ds dt c h
  obtain ⟨hlo, hhi⟩ := hv.2.2.2.2.2.2.1
  refine ⟨?_, ?_, by omega, by omega, by omega, by unfold INT_MAX; omega, by unfold INT_MAX; omega⟩
  · obtain ⟨ce, de, se, extra, _, hq⟩ := build_query_pairs_raw _ _ _ _ _ _ hquery
    refine ⟨_, hq, ?_⟩
    rw [← fmt_d_eq_spec _ (by omega)]
    simp
  · obtain ⟨pairs, _, _, _, hnames, hfive⟩ := build_query_names _ _ _ _ _ _ hquery
    rw [hnames]
    rcases hfive with hf | hf <;> rw [hf] <;> decide

theorem expires_value_witness :
    validated (sample_args []) ∧
    (∃ pairs, (built (canonicalize sample_env (sample_args []) sample_date_stamp
        sample_datetime)).query_params = join_pairs pairs ∧
      (bytes "X-Amz-Expires", spec_decimal 900) ∈ pairs) :=
  ⟨by decide,
    (expires_value sample_env (sample_args []) sample_date_stamp sample_datetime _ (by decide)
      (by decide)).1⟩

/-! ## Canonicalizing a canonical header block again -/

theorem spec_trim_eq_rdropWhile (value : List Byte) :
    spec_trim value = (value.dropWhile spec_white).rdropWhile spec_white := rfl

theorem spec_trim_length_le (value : List Byte) : (spec_trim value).length ≤ value.length := by
  rw [spec_trim_eq_rdropWhile]
  exact Nat.le_trans (List.rdropWhile_prefix spec_white _).length_le
    (List.dropWhile_suffix spec_white).length_le

/-- Trimming a trimmed value changes nothing. -/
theorem spec_trim_idempotent (value : List Byte) : spec_trim (spec_trim value) = spec_trim value := by
  have hhead : (spec_trim value).dropWhile spec_white = spec_trim value := by
    rw [List.dropWhile_eq_self_iff]
    intro hl
    have hpre : spec_trim value <+: value.dropWhile spec_white := by
      rw [spec_trim_eq_rdropWhile]
      exact List.rdropWhile_prefix spec_white _
    have hd := (List.dropWhile_eq_self_iff (p := spec_white) (l := value.dropWhile spec_white)).mp
      (List.dropWhile_idempotent _ _)
    obtain ⟨t, ht⟩ := hpre
    have hl2 : 0 < (value.dropWhile spec_white).length := by
      rw [← ht, List.length_append]; omega
    have heq : (spec_trim value).get ⟨0, hl⟩ = (value.dropWhile spec_white).get ⟨0, hl2⟩ := by
      simp only [List.get_eq_getElem]
      simp only [← ht]
      rw [List.getElem_append_left]
    rw [heq]
    exact hd hl2
  conv_lhs => rw [spec_trim_eq_rdropWhile, hhead]
  rw [spec_trim_eq_rdropWhile]
  exact List.rdropWhile_idempotent _ _

theorem trim_value_idempotent (value : List Byte) (hlen : value.length < MAX_HEADER_LEN) :
    trim_value (trim_value value) = trim_value value := by
  rw [trim_value_eq_spec value hlen,
    trim_value_eq_spec _ (Nat.lt_of_le_of_lt (spec_trim_length_le value) hlen),
    spec_trim_idempotent]

/-- The header loop reads only the lower-cased key and the trimmed value of
each entry. -/
theorem canonical_headers_loop_congr (g : header_t → header_t) :
    ∀ (hs : List header_t) (acc : List Byte),
      (∀ h ∈ hs, (g h).key.map tolower = h.key.map tolower ∧
        trim_value (g h).value = trim_value h.value) →
      canonical_headers_loop (hs.map g) acc = canonical_headers_loop hs acc := by
  intro hs
  induction hs with
  | nil => intro acc _; rfl
  | cons x rest ih =>
    intro acc hg
    obtain ⟨hk, ht⟩ := hg x (List.mem_cons_self _ _)
    simp only [List.map_cons, canonical_headers_loop, hk, ht]
    rw [ih _ fun h hm => hg h (List.mem_cons_of_mem _ hm)]

/-- When no caller key has an upper-case letter, canonicalizing the entries of
the block again gives the same block. -/
theorem recanonicalize_lower_case (env : env_t) (args : presign_args_t) (ds dt : List Byte)
    (c : canonical_t) (hv : validated args)
    (hlow : ∀ h ∈ args.headers, ∀ b ∈ h.key, ¬ (ch 'A' ≤ b ∧ b ≤ ch 'Z'))
    (h : canonicalize env args ds dt = .ok c) :
    canonicalize_headers (block_entries c.all_headers) = .ok c.canonical_headers := by
  obtain ⟨_, hhost, _, _, _, hall, hloop, _⟩ := canonicalize_ok env args ds dt c h
  have hlen := mem_all_headers_value_length args c.host hv (extract_host_length _ _ hhost)
  rw [← hall] at hlen
  have hkey : ∀ hd ∈ c.all_headers, hd.key.map tolower = hd.key := by
    intro hd hmem
    rw [hall] at hmem
    have hmem2 : hd ∈ merge_headers c.host args.headers :=
      (List.perm_insertionSort header_le _).mem_iff.mp hmem
    rw [map_tolower_eq_spec]
    apply spec_lower_of_no_upper
    unfold merge_headers at hmem2
    rcases List.mem_cons.mp hmem2 with h1 | h1
    · subst h1
      show ∀ b ∈ bytes "host", ¬ (ch 'A' ≤ b ∧ b ≤ ch 'Z')
      decide
    · exact hlow hd h1
  have hsorted : (block_entries c.all_headers).Sorted header_le := by
    unfold block_entries List.Sorted
    rw [List.pairwise_map]
    have hp : c.all_headers.Pairwise header_le := by
      rw [hall]; exact (qsort_meets_contract _).2
    refine hp.imp_of_mem ?_
    intro a b ha hb hab
    show strcmp (a.key.map tolower) (b.key.map tolower) ≤ 0
    rw [hkey a ha, hkey b hb]
    exact hab
  unfold canonicalize_headers qsort
  rw [hsorted.insertionSort_eq]
  unfold block_entries
  rw [canonical_headers_loop_congr _ _ _ ?_, hloop]
  intro hd hmem
  exact ⟨by simp only [hkey hd hmem], trim_value_idempotent _ (hlen hd hmem)⟩

/-- C16 (code bug): for the accepted headers `B:1` and `a:2` the block is
`b:1`, `a:2`, `host:...` (the sort compared the keys `B` and `a` as stored);
its entries canonicalized again give `a:2`, `b:1`, `host:...`, a different
block. -/
theorem recanonicalize_differs :
    validated (sample_args [{ key := bytes "B", value := bytes "1" },
      { key := bytes "a", value := bytes "2" }]) ∧
    ∃ c, canonicalize sample_env (sample_args [{ key := bytes "B", value := bytes "1" },
        { key := bytes "a", value := bytes "2" }]) sample_date_stamp sample_datetime = .ok c ∧
      c.canonical_headers = bytes "b:1\na:2\nhost:s3.fr-par.scw.cloud\n" ∧
      block_entries c.all_headers = [{ key := bytes "b", value := bytes "1" },
        { key := bytes "a", value := bytes "2" },
        { key := bytes "host", value := bytes "s3.fr-par.scw.cloud" }] ∧
      canonicalize_headers (block_entries c.all_headers) =
        .ok (bytes "a:2\nb:1\nhost:s3.fr-par.scw.cloud\n") ∧
      canonicalize_headers (block_entries c.all_headers) ≠ .ok c.canonical_headers :=
  ⟨by decide,
    built (canonicalize sample_env (sample_args [{ key := bytes "B", value := bytes "1" },
      { key := bytes "a", value := bytes "2" }]) sample_date_stamp sample_datetime),
    by decide, by decide, by decide, by decide, by decide⟩

/-! ## The merged header list -/

/-- What `strstr` finds: the tail of `s` at the first occurrence of `pat`. -/
theorem strstr_some : ∀ (s pat t : List Byte), strstr s pat = some t →
    ∃ pre, s = pre ++ t ∧ t.take pat.length = pat ∧
      ∀ pre2 rest2, s = pre2 ++ pat ++ rest2 → pre.length ≤ pre2.length
  | [], pat, t => by
    rw [strstr]
    split
    · rename_i hp
      intro h
      cases h
      exact ⟨[], rfl, by simp [hp], fun _ _ _ => Nat.zero_le _⟩
    · intro h; cases h
  | c :: s, pat, t => by
    rw [strstr]
    split
    · rename_i hp
      intro h
      cases h
      exact ⟨[], rfl, hp, fun _ _ _ => Nat.zero_le _⟩
    · rename_i hp
      intro h
      obtain ⟨pre, hs, ht, hmin⟩ := strstr_some s pat t h
      refine ⟨c :: pre, by rw [hs]; rfl, ht, ?_⟩
      intro pre2 rest2 h2
      cases pre2 with
      | nil =>
        exfalso
        apply hp
        rw [h2, List.nil_append]
        exact List.take_left' rfl
      | cons x p2 =>
        simp only [List.cons_append, List.cons.injEq] at h2
        have := hmin p2 rest2 (by rw [h2.2])
        simp only [List.length_cons]
        omega

/-- What `strchr` finds, and what is left when it finds nothing. -/
theorem strchr_takeWhile : ∀ (s : List Byte) (c : Byte),
    (∀ n, strchr s c = some n → s.take n = s.takeWhile (· ≠ c)) ∧
    (strchr s c = none → s.takeWhile (· ≠ c) = s)
  | [], c => by simp [strchr]
  | x :: s, c => by
    obtain ⟨ih1, ih2⟩ := strchr_takeWhile s c
    rw [strchr]
    by_cases hx : x = c
    · rw [if_pos hx]
      constructor
      · intro n h
        cases h
        simp [List.takeWhile, hx]
      · intro h; cases h
    · rw [if_neg hx]
      constructor
      · intro n h
        cases hs : strchr s c with
        | none => rw [hs] at h; cases h
        | some m =>
          rw [hs] at h
          simp only [Option.map_some', Option.some.injEq] at h
          subst h
          rw [List.take_succ_cons, ih1 m hs, List.takeWhile_cons_of_pos (by simpa using hx)]
      · intro h
        cases hs : strchr s c with
        | none => rw [List.takeWhile_cons_of_pos (by simpa using hx), ih2 hs]
        | some m => rw [hs] at h; cases h

/-- The host is the authority of the bucket URL: the text after the first
`://` up to the next `/`. -/
theorem extract_host_authority (url host : List Byte) (h : extract_host url = .ok host) :
    ∃ pre rest, url = pre ++ bytes "://" ++ rest ∧
      (∀ pre2 rest2, url = pre2 ++ bytes "://" ++ rest2 → pre.length ≤ pre2.length) ∧
      host = rest.takeWhile (· ≠ ch '/') := by
  unfold extract_host at h
  split at h
  · cases h
  · rename_i found hfound
    obtain ⟨pre, hs, ht, hmin⟩ := strstr_some _ _ _ hfound
    have hfd : found = bytes "://" ++ found.drop 3 := by
      conv_lhs => rw [← List.take_append_drop 3 found]
      rw [show (3 : Nat) = (bytes "://").length from rfl, ht]
    refine ⟨pre, found.drop 3, ?_, hmin, ?_⟩
    · rw [List.append_assoc, ← hfd]; exact hs
    · simp only at h
      split at h
      · rename_i n hn
        split at h
        · cases h
        · cases h
          exact (strchr_takeWhile _ _).1 n hn
      · rename_i hn
        split at h
        · cases h
        · cases h
          rw [(strchr_takeWhile _ _).2 hn]
          exact List.take_of_length_le (by omega)

/-- C17: after the merge the header list holds exactly the caller's headers
and one header with key `host`, whose value is the authority of the bucket URL
(the text after the first `://` up to the next `/`); its length is `n + 1`. -/
theorem merged_header_list (env : env_t) (args : presign_args_t) (ds dt : List Byte)
    (c : canonical_t) (hv : validated args) (h : canonicalize env args ds dt = .ok c) :
    c.all_headers.Perm ({ key := bytes "host", value := c.host } :: args.headers) ∧
    c.all_headers.length = args.headers.length + 1 ∧
    args.headers.length ≤ 32 ∧
    ∃ pre rest, args.bucket_url = pre ++ bytes "://" ++ rest ∧
      (∀ pre2 rest2, args.bucket_url = pre2 ++ bytes "://" ++ rest2 → pre.length ≤ pre2.length) ∧
      c.host = rest.takeWhile (· ≠ ch '/') := by
  obtain ⟨_, hhost, _, _, _, hall, _⟩ := canonicalize_ok env args ds dt c h
  have hperm : c.all_headers.Perm ({ key := bytes "host", value := c.host } :: args.headers) := by
    rw [hall]
    exact List.perm_insertionSort header_le _
  refine ⟨hperm, ?_, hv.2.2.2.2.2.2.2.1, extract_host_authority _ _ hhost⟩
  rw [hperm.length_eq, List.length_cons]

theorem merged_header_list_witness :
    validated (sample_args [{ key := bytes "x-amz-acl", value := bytes "private" }]) ∧
    (built (canonicalize sample_env
      (sample_args [{ key := bytes "x-amz-acl", value := bytes "private" }])
      sample_date_stamp sample_datetime)).all_headers.length = 1 + 1 :=
  ⟨by decide,
    (merged_header_list sample_env
      (sample_args [{ key := bytes "x-amz-acl", value := bytes "private" }])
      sample_date_stamp sample_datetime _ (by decide) (by decide)).2.1⟩

/-! ## Whole runs of the program -/

/-- With an override the clock is not read. -/
theorem resolve_time_override (now_override : List Byte) (clock : Int)
    (h : now_override.length > 0) :
    resolve_time now_override clock = resolve_time now_override 0 := by
  unfold resolve_time
  rw [if_pos h, if_pos h]

/-- A run prints a URL when the arguments are accepted, the time is resolved
and the canonical request is built. -/
theorem main_printed (crypto : crypto_t) (argv : List (List Byte))
    (S3_REGION S3_ENDPOINT : Option (List Byte)) (env : env_t) (clock : Int)
    (args : presign_args_t) (ds dt : List Byte) (c : canonical_t)
    (hver : (argv.drop 1).any (fun a => a = bytes "--version" ∨ a = bytes "-v") = false)
    (hargs : parse_args argv S3_REGION S3_ENDPOINT = .ok args)
    (htime : resolve_time args.now_override clock = .ok (ds, dt))
    (hcan : canonicalize env args ds dt = .ok c) :
    ∃ r, main crypto argv S3_REGION S3_ENDPOINT env clock = .printed r ∧ r.canonical = c ∧
      generate_presigned_url crypto env args ds dt = .ok r := by
  obtain ⟨r, hr, hrc⟩ := generate_ok_of_canonicalize crypto env args ds dt c hcan
  obtain ⟨hcred, _⟩ := canonicalize_ok env args ds dt c hcan
  refine ⟨r, ?_, hrc, hr⟩
  unfold main
  rw [hver, hargs]
  simp only [Bool.false_eq_true, if_false]
  unfold presign
  rw [hcred, htime]
  simp only [bind, Except.bind]
  rw [hr]

/-- C14 (code bug): the argument `-4294967295` is a decimal integer with a
negative value, and argument validation accepts it.  `strtol` returns
-4294967295, which is not above `INT_MAX`, and the conversion to `int` makes
1 of it; the run prints a URL that expires after 60 seconds.  The argument
`-1` is rejected, as the claim has it. -/
theorem expire_min_wraps (crypto : crypto_t) (clock : Int) :
    strtol (bytes "-4294967295") = (-4294967295, []) ∧
    ¬ (-4294967295 : Int) > INT_MAX ∧
    int_of_long (-4294967295) = 1 ∧
    parse_expire (bytes "-4294967295") = .ok 1 ∧
    check_expire 1 = .ok 1 ∧
    parse_args (sample_argv (bytes "-1") [bytes "--now", bytes "2025-01-01T00:00:00Z"])
      none none = .error "Error: EXPIRE_MIN must be between 1 and 10080 (7 days)" ∧
    parse_args (sample_argv (bytes "-4294967295") [bytes "--now", bytes "2025-01-01T00:00:00Z"])
      none none = .ok { sample_args [] with expire_min := 1 } ∧
    ∃ r, main crypto
        (sample_argv (bytes "-4294967295") [bytes "--now", bytes "2025-01-01T00:00:00Z"])
        none none sample_env clock = .printed r ∧
      r.canonical.query_params = bytes ("X-Amz-Algorithm=AWS4-HMAC-SHA256&X-Amz-Credential=" ++
        "AKIDEXAMPLE%2F20250101%2Ffr-par%2Fs3%2Faws4_request&X-Amz-Date=20250101T000000Z&" ++
        "X-Amz-Expires=60&X-Amz-SignedHeaders=host") := by
  refine ⟨by decide, by decide, by decide, by decide, by decide, by decide, by decide, ?_⟩
  obtain ⟨r, hmain, hc, _⟩ := main_printed crypto
    (sample_argv (bytes "-4294967295") [bytes "--now", bytes "2025-01-01T00:00:00Z"])
    none none sample_env clock { sample_args [] with expire_min := 1 }
    sample_date_stamp sample_datetime
    (built (canonicalize sample_env { sample_args [] with expire_min := 1 }
      sample_date_stamp sample_datetime))
    (by decide) (by decide)
    (by rw [resolve_time_override _ _ (by decide)]; decide) (by decide)
  refine ⟨r, hmain, ?_⟩
  rw [hc]
  decide

/-- C18 (code bug): the argument `:v` of `--header` has an empty key part and
is accepted; the header with the empty key reaches the canonicalizer, which
emits the line `:v` and an empty first name in the signed headers.  An argument
with no `:` is rejected. -/
theorem empty_header_key (crypto : crypto_t) (clock : Int) :
    strchr (bytes ":v") (ch ':') = some 0 ∧
    parse_header (bytes ":v") = .ok { key := [], value := bytes "v" } ∧
    parse_header (bytes "novalue") = .error "Error: Invalid header format. Use 'Key: Value'" ∧
    parse_args (sample_argv (bytes "15")
      [bytes "--now", bytes "2025-01-01T00:00:00Z", bytes "--header", bytes ":v"]) none none =
        .ok (sample_args [{ key := [], value := bytes "v" }]) ∧
    ∃ r, main crypto (sample_argv (bytes "15")
        [bytes "--now", bytes "2025-01-01T00:00:00Z", bytes "--header", bytes ":v"])
        none none sample_env clock = .printed r ∧
      { key := [], value := bytes "v" } ∈ r.canonical.all_headers ∧
      r.canonical.canonical_headers = bytes ":v\nhost:s3.fr-par.scw.cloud\n" ∧
      r.canonical.signed_headers_final = bytes ";host" := by
  refine ⟨by decide, by decide, by decide, by decide, ?_⟩
  obtain ⟨r, hmain, hc, _⟩ := main_printed crypto
    (sample_argv (bytes "15")
      [bytes "--now", bytes "2025-01-01T00:00:00Z", bytes "--header", bytes ":v"])
    none none sample_env clock (sample_args [{ key := [], value := bytes "v" }])
    sample_date_stamp sample_datetime
    (built (canonicalize sample_env (sample_args [{ key := [], value := bytes "v" }])
      sample_date_stamp sample_datetime))
    (by decide) (by decide)
    (by rw [resolve_time_override _ _ (by decide)]; decide) (by decide)
  refine ⟨r, hmain, ?_⟩
  rw [hc]
  decide

/-- C19 (code bug): the override `2025-01-01T00:00:00Zjunk` has extra
characters after the `Z`, and `2025-1-1T0:0:0Z` has one-digit fields; neither
is of the form `YYYY-MM-DDTHH:MM:SSZ`.  `strptime` does not return `NULL` for
them (for the first it returns the unparsed rest `junk`, which line 198 does
not look at), and each run prints a URL, with the same canonical request as the
run with the override `2025-01-01T00:00:00Z`. -/
theorem now_override_not_strict (crypto : crypto_t) (clock : Int) :
    (strptime (bytes "2025-01-01T00:00:00Zjunk")).map Prod.snd = some (bytes "junk") ∧
    (strptime (bytes "2025-1-1T0:0:0Z")).map Prod.snd = some [] ∧
    strptime (bytes "2025-13-01T00:00:00Z") = none ∧
    resolve_time (bytes "2025-01-01T00:00:00Z") clock = .ok (sample_date_stamp, sample_datetime) ∧
    (∃ r, main crypto
        (sample_argv (bytes "15") [bytes "--now", bytes "2025-01-01T00:00:00Zjunk"])
        none none sample_env clock = .printed r ∧
      r.canonical = built (canonicalize sample_env (sample_args [])
        sample_date_stamp sample_datetime)) ∧
    ∃ r, main crypto (sample_argv (bytes "15") [bytes "--now", bytes "2025-1-1T0:0:0Z"])
        none none sample_env clock = .printed r ∧
      r.canonical = built (canonicalize sample_env (sample_args [])
        sample_date_stamp sample_datetime) := by
  refine ⟨by decide, by decide, by decide,
    by rw [resolve_time_override _ _ (by decide)]; decide, ?_, ?_⟩
  · obtain ⟨r, hmain, hc, _⟩ := main_printed crypto
      (sample_argv (bytes "15") [bytes "--now", bytes "2025-01-01T00:00:00Zjunk"])
      none none sample_env clock
      { sample_args [] with now_override := bytes "2025-01-01T00:00:00Zjunk" }
      sample_date_stamp sample_datetime
      (built (canonicalize sample_env (sample_args []) sample_date_stamp sample_datetime))
      (by decide) (by decide)
      (by rw [resolve_time_override _ _ (by decide)]; decide) (by decide)
    exact ⟨r, hmain, hc⟩
  · obtain ⟨r, hmain, hc, _⟩ := main_printed crypto
      (sample_argv (bytes "15") [bytes "--now", bytes "2025-1-1T0:0:0Z"])
      none none sample_env clock
      { sample_args [] with now_override := bytes "2025-1-1T0:0:0Z" }
      sample_date_stamp sample_datetime
      (built (canonicalize sample_env (sample_args []) sample_date_stamp sample_datetime))
      (by decide) (by decide)
      (by rw [resolve_time_override _ _ (by decide)]; decide) (by decide)
    exact ⟨r, hmain, hc⟩

/-- C20: the run of the end-to-end scenario prints a URL, whatever the digest
library computes and whatever the clock says.  Its canonical request is the
text of the scenario, its string to sign is the three lines of the scenario
followed by the 64 digits of the hash of the canonical request, and the URL is
the endpoint, `/mybucket/key.txt?`, the query string, `&X-Amz-Signature=` and
the signature. -/
theorem end_to_end (crypto : crypto_t) (clock : Int) :
    ∃ r, main crypto (sample_argv (bytes "15") [bytes "--now", bytes "2025-01-01T00:00:00Z"])
        none none sample_env clock = .printed r ∧
      r.canonical.canonical_request = bytes ("GET\n/mybucket/key.txt\n" ++
        "X-Amz-Algorithm=AWS4-HMAC-SHA256&X-Amz-Credential=" ++
        "AKIDEXAMPLE%2F20250101%2Ffr-par%2Fs3%2Faws4_request&X-Amz-Date=20250101T000000Z&" ++
        "X-Amz-Expires=900&X-Amz-SignedHeaders=host\nhost:s3.fr-par.scw.cloud\n\nhost\n" ++
        "UNSIGNED-PAYLOAD") ∧
      r.string_to_sign =
        bytes "AWS4-HMAC-SHA256\n20250101T000000Z\n20250101/fr-par/s3/aws4_request\n" ++
          to_hex (crypto.sha256_hash r.canonical.canonical_request) 32 ∧
      bytes "AWS4-HMAC-SHA256\n20250101T000000Z\n20250101/fr-par/s3/aws4_request\n" <+:
        r.string_to_sign ∧
      r.signature_hex = to_hex (crypto.hmac_sha256
        ((derive_signing_key crypto (bytes "secret") (bytes "20250101") (bytes "fr-par")
          (bytes "s3")).take 32) r.string_to_sign) 32 ∧
      r.url = bytes "https://s3.fr-par.scw.cloud/mybucket/key.txt?" ++
        bytes ("X-Amz-Algorithm=AWS4-HMAC-SHA256&X-Amz-Credential=" ++
          "AKIDEXAMPLE%2F20250101%2Ffr-par%2Fs3%2Faws4_request&X-Amz-Date=20250101T000000Z&" ++
          "X-Amz-Expires=900&X-Amz-SignedHeaders=host") ++
        bytes "&X-Amz-Signature=" ++ r.signature_hex := by
  obtain ⟨r, hmain, hc, hgen⟩ := main_printed crypto
    (sample_argv (bytes "15") [bytes "--now", bytes "2025-01-01T00:00:00Z"])
    none none sample_env clock (sample_args []) sample_date_stamp sample_datetime
    (built (canonicalize sample_env (sample_args []) sample_date_stamp sample_datetime))
    (by decide) (by decide)
    (by rw [resolve_time_override _ _ (by decide)]; decide) (by decide)
  obtain ⟨_, hhash, hsts, hsig, hurl⟩ := generate_ok crypto _ _ _ _ r hgen
  have hsts2 : r.string_to_sign =
      bytes "AWS4-HMAC-SHA256\n20250101T000000Z\n20250101/fr-par/s3/aws4_request\n" ++
        to_hex (crypto.sha256_hash r.canonical.canonical_request) 32 := by
    have hp : bytes "AWS4-HMAC-SHA256\n" ++ sample_datetime ++ bytes "\n" ++
        (built (canonicalize sample_env (sample_args []) sample_date_stamp
          sample_datetime)).credential_scope ++ bytes "\n" =
        bytes "AWS4-HMAC-SHA256\n20250101T000000Z\n20250101/fr-par/s3/aws4_request\n" := by
      decide
    rw [hsts, hhash, hc, hp, snprintf_of_lt]
    rw [List.length_append, to_hex_length]
    decide
  refine ⟨r, hmain, by rw [hc]; decide, hsts2, ⟨_, hsts2.symm⟩, ?_, ?_⟩
  · rw [hsig, hc]
    rfl
  · have hq : (sample_args []).bucket_url ++
        (built (canonicalize sample_env (sample_args []) sample_date_stamp
          sample_datetime)).canonical_uri ++ bytes "?" ++
        (built (canonicalize sample_env (sample_args []) sample_date_stamp
          sample_datetime)).query_params ++ bytes "&X-Amz-Signature=" =
        bytes "https://s3.fr-par.scw.cloud/mybucket/key.txt?" ++
          bytes ("X-Amz-Algorithm=AWS4-HMAC-SHA256&X-Amz-Credential=" ++
            "AKIDEXAMPLE%2F20250101%2Ffr-par%2Fs3%2Faws4_request&X-Amz-Date=20250101T000000Z&" ++
            "X-Amz-Expires=900&X-Amz-SignedHeaders=host") ++
          bytes "&X-Amz-Signature=" := by
      decide
    rw [hurl, hc, hq]

/-! ## The expiry argument -/

/-- For an argument that `strtol` reads as a whole and whose value is not
below the range of `int`, the two checks of `main` accept it exactly when the
value lies in `[1, 10080]`. -/
theorem expire_accepted_iff (expire_arg : List Byte) (hne : expire_arg ≠ [])
    (hend : (strtol expire_arg).2 = []) (hint : -(2 ^ 31) ≤ (strtol expire_arg).1) :
    (∃ e, parse_expire expire_arg = .ok e ∧ check_expire e = .ok e) ↔
      1 ≤ (strtol expire_arg).1 ∧ (strtol expire_arg).1 ≤ 10080 := by
  unfold parse_expire check_expire
  simp only [hend, ne_eq, not_true_eq_false, or_false, if_neg hne]
  unfold INT_MAX int_of_long
  constructor
  · rintro ⟨e, h1, h2⟩
    split at h2
    · cases h2
    · split at h1
      · cases h1
      · simp only [Except.ok.injEq] at h1
        omega
  · intro hr
    refine ⟨(strtol expire_arg).1, ?_, ?_⟩
    · rw [if_neg (by omega)]
      congr 1
      omega
    · rw [if_neg (by omega)]

/-! ## What `main` passes on -/

/-- The header stored for a `--header` argument that is accepted. -/
theorem parse_header_ok (arg : List Byte) (hd : header_t) (h0 : (0 : Byte) ∉ arg)
    (h : parse_header arg = .ok hd) :
    c_string MAX_HEADER_LEN hd.key ∧ ch ':' ∉ hd.key ∧ c_string MAX_HEADER_LEN hd.value ∧
      ∀ c ∈ hd.value, ¬ (c.val < 32 ∧ c ≠ ch '\t') := by
  unfold parse_header at h
  split at h
  · cases h
  · rename_i key_len hk
    split at h
    · cases h
    · rename_i hklen
      split at h
      · cases h
      · rename_i hvlen
        simp only at h
        generalize hval : (if ((arg.drop (key_len + 1)).take (MAX_HEADER_LEN - 1)).getD 0 0 = ch ' '
          then ((arg.drop (key_len + 1)).take (MAX_HEADER_LEN - 1)).drop 1
          else (arg.drop (key_len + 1)).take (MAX_HEADER_LEN - 1)) = value at h
        split at h
        · cases h
        · rename_i hctl
          cases h
          simp only
          have hkey : arg.take key_len = arg.takeWhile (· ≠ ch ':') :=
            (strchr_takeWhile arg (ch ':')).1 key_len hk
          have hsub : ∀ b ∈ value, b ∈ arg := by
            intro b hb
            rw [← hval] at hb
            split at hb
            · exact List.mem_of_mem_drop (List.mem_of_mem_take (List.mem_of_mem_drop hb))
            · exact List.mem_of_mem_drop (List.mem_of_mem_take hb)
          refine ⟨⟨?_, fun hm => h0 (List.mem_of_mem_take hm)⟩, ?_, ⟨?_, fun hm => h0 (hsub _ hm)⟩, ?_⟩
          · rw [List.length_take]; omega
          · rw [hkey]
            intro hm
            have := List.mem_takeWhile_imp hm
            simp at this
          · rw [← hval]
            split
            · rw [List.length_drop, List.length_take]; omega
            · rw [List.length_take]; omega
          · intro c hc hbad
            apply hctl
            rw [List.any_eq_true]
            exact ⟨c, hc, by simp [hbad.1, hbad.2]⟩

/-- What the option loop keeps of the request and what it adds to it. -/
theorem parse_options_ok : ∀ (n : Nat) (options : List (List Byte)) (args0 args : presign_args_t),
    options.length ≤ n → (∀ a ∈ options, (0 : Byte) ∉ a) →
    parse_options options args0 = .ok args →
    args.service = args0.service ∧ args.method = args0.method ∧ args.region = args0.region ∧
    args.bucket_url = args0.bucket_url ∧ args.path = args0.path ∧
    args.expire_min = args0.expire_min ∧
    ((args0.headers.length ≤ MAX_HEADERS ∧
      (∀ h ∈ args0.headers, c_string MAX_HEADER_LEN h.key ∧ ch ':' ∉ h.key ∧
        c_string MAX_HEADER_LEN h.value ∧ ∀ c ∈ h.value, ¬ (c.val < 32 ∧ c ≠ ch '\t')) ∧
      c_string 32 args0.now_override) →
     (args.headers.length ≤ MAX_HEADERS ∧
      (∀ h ∈ args.headers, c_string MAX_HEADER_LEN h.key ∧ ch ':' ∉ h.key ∧
        c_string MAX_HEADER_LEN h.value ∧ ∀ c ∈ h.value, ¬ (c.val < 32 ∧ c ≠ ch '\t')) ∧
      c_string 32 args.now_override)) := by
  intro n
  induction n with
  | zero =>
    intro options args0 args hn _ h
    have : options = [] := List.length_eq_zero.mp (by omega)
    subst this
    rw [parse_options] at h
    cases h
    exact ⟨rfl, rfl, rfl, rfl, rfl, rfl, id⟩
  | succ n ih =>
    intro options args0 args hn h0 h
    rcases options with _ | ⟨o, _ | ⟨v, rest⟩⟩
    · rw [parse_options] at h
      cases h
      exact ⟨rfl, rfl, rfl, rfl, rfl, rfl, id⟩
    · rw [parse_options] at h
      cases h
    · have hrest : ∀ a ∈ rest, (0 : Byte) ∉ a := fun a ha =>
        h0 a (List.mem_cons_of_mem _ (List.mem_cons_of_mem _ ha))
      have hv0 : (0 : Byte) ∉ v := h0 v (List.mem_cons_of_mem _ (List.mem_cons_self _ _))
      have hlen : rest.length ≤ n := by
        simp only [List.length_cons] at hn
        omega
      rw [parse_options] at h
      split at h
      · split at h
        · cases h
        · rename_i hcount
          split at h
          · cases h
          · rename_i header hheader
            obtain ⟨e1, e2, e3, e4, e5, e6, hinv⟩ := ih rest _ args hlen hrest h
            refine ⟨e1, e2, e3, e4, e5, e6, ?_⟩
            intro ⟨_, hhs, hnow⟩
            apply hinv
            refine ⟨?_, ?_, hnow⟩
            · simp only [List.length_append, List.length_singleton]
              omega
            · intro hd hmem
              rcases List.mem_append.mp hmem with h1 | h1
              · exact hhs hd h1
              · rw [List.mem_singleton] at h1
                subst h1
                exact parse_header_ok v hd hv0 hheader
      · split at h
        · split at h
          · cases h
          · rename_i hnowlen
            obtain ⟨e1, e2, e3, e4, e5, e6, hinv⟩ := ih rest _ args hlen hrest h
            refine ⟨e1, e2, e3, e4, e5, e6, ?_⟩
            intro ⟨hcount, hhs, _⟩
            apply hinv
            refine ⟨hcount, hhs, ?_, fun hm => hv0 (List.mem_of_mem_take hm)⟩
            simp only [List.length_take]
            omega
        · cases h

/-- The request `main` passes to `generate_presigned_url` is a validated one,
for arguments and environment strings as C has them (without a NUL byte
inside). -/
theorem parse_args_validated (argv : List (List Byte)) (S3_REGION S3_ENDPOINT : Option (List Byte))
    (args : presign_args_t) (hargv : ∀ a ∈ argv, (0 : Byte) ∉ a)
    (hregion : ∀ s, S3_REGION = some s → (0 : Byte) ∉ s)
    (hendpoint : ∀ s, S3_ENDPOINT = some s → (0 : Byte) ∉ s)
    (h : parse_args argv S3_REGION S3_ENDPOINT = .ok args) : validated args := by
  have hget : ∀ i, (0 : Byte) ∉ argv.getD i [] := by
    intro i
    rw [List.getD_eq_getElem?_getD]
    cases hi : argv[i]? with
    | none => simp
    | some a => exact hargv a (List.getElem?_mem hi)
  unfold parse_args at h
  simp only at h
  split at h
  · cases h
  split at h
  · cases h
  split at h
  · cases h
  split at h
  · cases h
  split at h
  · cases h
  rename_i hpath
  split at h
  · cases h
  rename_i region_value hrv
  split at h
  · cases h
  rename_i hreglen
  split at h
  · cases h
  rename_i endpoint_value hev
  split at h
  · cases h
  rename_i hendlen
  split at h
  · cases h
  rename_i expire_min hexp
  split at h
  · cases h
  rename_i hs3
  split at h
  · cases h
  rename_i hmeth
  split at h
  · cases h
  rename_i hcheck
  obtain ⟨e1, e2, e3, e4, e5, e6, hinv⟩ := parse_options_ok _ _ _ args (Nat.le_refl _)
    (fun a ha => hargv a (List.mem_of_mem_drop ha)) h
  obtain ⟨hcnt, hhs, hnow⟩ := hinv ⟨by simp, by simp, (by decide : c_string 32 [])⟩
  simp only at e1 e2 e3 e4 e5 e6
  have hrv0 : (0 : Byte) ∉ region_value := by
    split at hrv
    · simp only [Option.orElse, Option.some.injEq] at hrv
      rw [← hrv]
      exact hget 3
    · simp only [Option.orElse] at hrv
      exact hregion _ hrv
  have hev0 : (0 : Byte) ∉ endpoint_value := by
    split at hev
    · simp only [Option.orElse, Option.some.injEq] at hev
      rw [← hev]
      exact hget 4
    · simp only [Option.orElse] at hev
      exact hendpoint _ hev
  have hpre := List.rdropWhile_prefix (fun x => decide (x = ch '/')) endpoint_value
  have hexp2 : 0 < expire_min ∧ expire_min ≤ 10080 := by
    unfold check_expire at hcheck
    split at hcheck
    · cases hcheck
    · omega
  refine ⟨by rw [e1]; exact not_not.mp hs3, ?_, ⟨by rw [e3]; omega, by rw [e3]; exact hrv0⟩,
    ⟨?_, ?_⟩, ?_, ⟨by rw [e5]; omega, by rw [e5]; exact hget _⟩, by rw [e6]; exact hexp2,
    hcnt, hhs, hnow⟩
  · rw [e2]
    by_contra hne
    exact hmeth ⟨fun hg => hne (Or.inl hg), fun hp => hne (Or.inr (Or.inl hp)),
      fun hd => hne (Or.inr (Or.inr hd))⟩
  · rw [e4]
    have := hpre.length_le
    omega
  · rw [e4]
    exact fun hm => hev0 (hpre.subset hm)
  · rw [e4]
    intro hl
    have hne : List.rdropWhile (fun x => decide (x = ch '/')) endpoint_value ≠ [] := by
      intro hnil
      rw [hnil] at hl
      cases hl
    have hlast := List.rdropWhile_last_not (fun x => decide (x = ch '/')) endpoint_value hne
    rw [List.getLast?_eq_getLast _ hne, Option.some.injEq] at hl
    rw [hl] at hlast
    simp at hlast

theorem parse_args_validated_sample :
    validated (sample_args []) :=
  parse_args_validated (sample_argv (bytes "15") [bytes "--now", bytes "2025-01-01T00:00:00Z"])
    none none (sample_args []) (by decide) (by simp) (by simp) (by decide)

/-! ## The capacity guard of `url_encode_component` -/

/-- The two models of the loop agree on the result. -/
theorem url_encode_loop_return_result (k : Bool) : ∀ (src : List Byte) (remaining : Nat)
    (d : List Byte),
    (url_encode_loop_return k src remaining d).result = url_encode_loop k src remaining d := by
  intro src
  induction src with
  | nil =>
    intro remaining d
    rw [url_encode_loop_return, url_encode_loop]
    split <;> rfl
  | cons c src ih =>
    intro remaining d
    rw [url_encode_loop_return, url_encode_loop]
    by_cases hc : c = 0
    · rw [if_pos hc, if_pos hc]
      split <;> rfl
    · rw [if_neg hc, if_neg hc]
      by_cases hu : is_unreserved c k = true
      · simp only [hu, if_true]
        by_cases hr : 1 ≥ remaining
        · rw [if_pos hr, if_pos hr]; rfl
        · rw [if_neg hr, if_neg hr]
          exact ih _ _
      · simp only [hu, Bool.false_eq_true, if_false]
        by_cases hr : 3 ≥ remaining
        · rw [if_pos hr, if_pos hr]; rfl
        · rw [if_neg hr, if_neg hr, if_neg (by decide), if_neg (by decide)]
          exact ih _ _

theorem url_encode_return_result (src : List Byte) (dest_size : Nat) (k : Bool) :
    (url_encode_return src dest_size k).result = url_encode_component src dest_size k := by
  unfold url_encode_return url_encode_component
  split
  · rfl
  · exact url_encode_loop_return_result k src dest_size []

/-- Inside the loop `remaining` stays positive, so the final test
`remaining == 0` never holds. -/
theorem url_encode_loop_return_ne (k : Bool) : ∀ (src : List Byte) (remaining : Nat)
    (d : List Byte), 0 < remaining →
    url_encode_loop_return k src remaining d ≠ .remaining_zero := by
  intro src
  induction src with
  | nil =>
    intro remaining d hr
    rw [url_encode_loop_return, if_neg (by omega)]
    intro h; cases h
  | cons c src ih =>
    intro remaining d hr
    rw [url_encode_loop_return]
    by_cases hc : c = 0
    · rw [if_pos hc, if_neg (by omega)]
      intro h; cases h
    · rw [if_neg hc]
      by_cases hu : is_unreserved c k = true
      · simp only [hu, if_true]
        by_cases hroom : 1 ≥ remaining
        · rw [if_pos hroom]
          intro h; cases h
        · rw [if_neg hroom]
          exact ih _ _ (by omega)
      · simp only [hu, Bool.false_eq_true, if_false]
        by_cases hroom : 3 ≥ remaining
        · rw [if_pos hroom]
          intro h; cases h
        · rw [if_neg hroom, if_neg (by decide)]
          exact ih _ _ (by omega)

theorem url_encode_return_ne (src : List Byte) (dest_size : Nat) (k : Bool) :
    url_encode_return src dest_size k ≠ .remaining_zero := by
  unfold url_encode_return
  split
  · intro h; cases h
  · exact url_encode_loop_return_ne k src dest_size [] (by omega)

/-- The length of the specified encoding is the specification's `L`. -/
theorem spec_encode_length (k : Bool) (s : List Byte) :
    (spec_encode k s).length = encoded_length k s := by
  unfold encoded_length
  induction s with
  | nil => simp [spec_encode_nil]
  | cons c s ih =>
    rw [spec_encode_cons, List.length_append, ih, List.countP_cons, List.countP_cons]
    unfold spec_encode_byte
    by_cases hp : spec_pass_through c k = true
    · simp only [hp, if_true, List.length_singleton, Bool.not_true, Bool.false_eq_true, if_false]
      omega
    · simp only [hp, if_false, Bool.not_eq_true] at hp ⊢
      simp only [hp, Bool.false_eq_true, if_false, Bool.not_false, if_true, List.length_cons,
        List.length_nil]
      omega

/-- C22: for a NUL-free input `s`, either slash mode and any capacity
`dest_size`, `url_encode_component` returns success exactly when `L <
dest_size`, where `L` is the number of pass-through bytes of `s` plus three
times the number of its other bytes; on success the string written has exactly
`L` bytes, so that with its terminating NUL it does not exceed `dest_size`; and
the call never returns through the final test `remaining == 0`. -/
theorem url_encode_guard (s : List Byte) (keep_slash : Bool) (dest_size : Nat)
    (h0 : (0 : Byte) ∉ s) :
    ((∃ out, url_encode_component s dest_size keep_slash = some out) ↔
      encoded_length keep_slash s < dest_size) ∧
    (∀ out, url_encode_component s dest_size keep_slash = some out →
      out.length = encoded_length keep_slash s ∧ out.length + 1 ≤ dest_size) ∧
    (url_encode_return s dest_size keep_slash).result =
      url_encode_component s dest_size keep_slash ∧
    url_encode_return s dest_size keep_slash ≠ .remaining_zero := by
  have heq := url_encode_component_eq keep_slash s dest_size h0
  rw [spec_encode_length] at heq
  refine ⟨?_, ?_, url_encode_return_result s dest_size keep_slash,
    url_encode_return_ne s dest_size keep_slash⟩
  · rw [heq]
    constructor
    · rintro ⟨out, h⟩
      split at h
      · assumption
      · cases h
    · intro h
      exact ⟨_, if_pos h⟩
  · intro out h
    rw [heq] at h
    split at h
    · rename_i hl
      cases h
      rw [spec_encode_length]
      exact ⟨rfl, hl⟩
    · cases h

theorem url_encode_guard_witness :
    (0 : Byte) ∉ bytes "a b/c" ∧ encoded_length false (bytes "a b/c") = 9 ∧
    ((∃ out, url_encode_component (bytes "a b/c") 10 false = some out) ↔
      encoded_length false (bytes "a b/c") < 10) :=
  ⟨by decide, by decide, (url_encode_guard (bytes "a b/c") false 10 (by decide)).1⟩

/-! ## The guard of the header loop -/

/-- What the guard of lines 325-326 guarantees: a block that was built is at
most `sizeof(canonical_headers)` bytes long. -/
theorem canonical_headers_loop_bound : ∀ (hs : List header_t) (acc block : List Byte),
    acc.length ≤ MAX_HEADER_LEN * MAX_HEADERS → canonical_headers_loop hs acc = .ok block →
    block.length ≤ MAX_HEADER_LEN * MAX_HEADERS := by
  intro hs
  induction hs with
  | nil =>
    intro acc block hacc h
    rw [canonical_headers_loop] at h
    cases h
    exact hacc
  | cons x rest ih =>
    intro acc block _ h
    rw [canonical_headers_loop] at h
    simp only at h
    split at h
    · cases h
    · split at h
      · cases h
      · rename_i hguard
        refine ih _ block ?_ h
        have hb1 : (bytes ":").length = 1 := rfl
        have hb2 : (bytes "\n").length = 1 := rfl
        simp only [List.length_append, hb1, hb2]
        omega

theorem trim_replicate (n : Nat) (hn : n < MAX_HEADER_LEN) :
    trim_value (List.replicate n (ch 'a')) = List.replicate n (ch 'a') := by
  rw [trim_value_eq_spec _ (by simpa using hn)]
  have h1 : ∀ m, (List.replicate m (ch 'a')).dropWhile spec_white = List.replicate m (ch 'a') := by
    intro m
    cases m with
    | zero => rfl
    | succ m => rw [List.replicate_succ, List.dropWhile_cons_of_neg (by decide)]
  unfold spec_trim
  rw [h1, List.reverse_replicate, h1, List.reverse_replicate]

theorem full_headers_valid : validated (sample_args full_headers) := by
  refine ⟨by decide, by decide, by decide, by decide, by decide, by decide, by decide, by decide,
    ?_, by decide⟩
  intro hd hmem
  have hval : ∀ n, n < MAX_HEADER_LEN → c_string MAX_HEADER_LEN (List.replicate n (ch 'a')) ∧
      ∀ c ∈ List.replicate n (ch 'a'), ¬ (c.val < 32 ∧ c ≠ ch '\t') := by
    intro n hn
    refine ⟨⟨by simpa using hn, fun h0 => absurd (List.eq_of_mem_replicate h0) (by decide)⟩, ?_⟩
    intro c hc
    rw [List.eq_of_mem_replicate hc]
    decide
  have hkey : c_string MAX_HEADER_LEN (bytes "x") ∧ ch ':' ∉ bytes "x" := by decide
  simp only [sample_args, full_headers, List.mem_append, List.mem_replicate,
    List.mem_singleton] at hmem
  rcases hmem with ⟨_, rfl⟩ | rfl
  · exact ⟨hkey.1, hkey.2, (hval 1023 (by decide)).1, (hval 1023 (by decide)).2⟩
  · exact ⟨hkey.1, hkey.2, (hval 934 (by decide)).1, (hval 934 (by decide)).2⟩

theorem full_headers_sorted :
    qsort (merge_headers (bytes "s3.fr-par.scw.cloud") full_headers) =
      merge_headers (bytes "s3.fr-par.scw.cloud") full_headers := by
  apply List.Sorted.insertionSort_eq
  unfold merge_headers full_headers
  decide

theorem full_headers_block_length :
    (((merge_headers (bytes "s3.fr-par.scw.cloud") full_headers).map header_entry).flatten).length
      = 32768 := by
  have e1 : header_entry { key := bytes "x", value := long_value } =
      bytes "x:" ++ List.replicate 1023 (ch 'a') ++ bytes "\n" := by
    unfold header_entry long_value
    rw [trim_replicate 1023 (by decide)]
    rfl
  have e2 : header_entry { key := bytes "x", value := List.replicate 934 (ch 'a') } =
      bytes "x:" ++ List.replicate 934 (ch 'a') ++ bytes "\n" := by
    unfold header_entry
    rw [trim_replicate 934 (by decide)]
    rfl
  have e3 : (header_entry { key := bytes "host", value := bytes "s3.fr-par.scw.cloud" }).length
      = 25 := by decide
  simp only [merge_headers, full_headers, List.map_cons, List.map_append, List.map_replicate,
    List.map_nil, List.flatten_cons, List.flatten_append, List.flatten_nil, List.length_append,
    List.length_flatten, List.sum_replicate, List.length_replicate, e1, e2, e3, List.sum_cons,
    List.sum_nil, List.length_nil]
  rfl

/-- C21 (code bug): the request with the 32 headers of `full_headers` passes
validation and every entry passes the guard of the header loop, but the block
that is built has 32768 bytes, the whole of `canonical_headers`: with its
terminating NUL it needs one byte more than the buffer has, where the claim has
a block of at most 32767 bytes.  The run goes on and prints a URL. -/
theorem canonical_headers_guard (crypto : crypto_t) :
    validated (sample_args full_headers) ∧
    (sample_args full_headers).headers.length = 32 ∧
    ∃ r, generate_presigned_url crypto sample_env (sample_args full_headers) sample_date_stamp
        sample_datetime = .ok r ∧
      canonical_headers_loop r.canonical.all_headers [] = .ok r.canonical.canonical_headers ∧
      r.canonical.canonical_headers.length = MAX_HEADER_LEN * MAX_HEADERS ∧
      ¬ r.canonical.canonical_headers.length ≤ 32767 := by
  refine ⟨full_headers_valid, by decide, ?_⟩
  have h1 : check_credentials sample_env = .ok (bytes "AKIDEXAMPLE", bytes "secret") := by decide
  have h2 : extract_host (sample_args full_headers).bucket_url =
      .ok (bytes "s3.fr-par.scw.cloud") := by decide
  have h3 : canonical_uri (sample_args full_headers).path = .ok (bytes "/mybucket/key.txt") := by
    decide
  have h4 : canonical_headers_loop
      (qsort (merge_headers (bytes "s3.fr-par.scw.cloud") (sample_args full_headers).headers)) [] =
      .ok (((merge_headers (bytes "s3.fr-par.scw.cloud") full_headers).map header_entry).flatten)
      := by
    show canonical_headers_loop (qsort (merge_headers (bytes "s3.fr-par.scw.cloud") full_headers))
      [] = _
    rw [full_headers_sorted]
    have := canonical_headers_loop_fits
      (merge_headers (bytes "s3.fr-par.scw.cloud") full_headers) []
      (by rw [full_headers_block_length, List.length_nil]; unfold MAX_HEADER_LEN MAX_HEADERS; omega)
    rw [List.nil_append] at this
    exact this
  have h5 : signed_headers_loop
      (qsort (merge_headers (bytes "s3.fr-par.scw.cloud") (sample_args full_headers).headers)) 0 []
      = .ok (bytes "host" ++ (List.replicate 32 (bytes ";x")).flatten) := by
    show signed_headers_loop (qsort (merge_headers (bytes "s3.fr-par.scw.cloud") full_headers))
      0 [] = _
    rw [full_headers_sorted]
    decide
  have h6 : build_query (credential (bytes "AKIDEXAMPLE") (credential_scope sample_date_stamp
      (sample_args full_headers).region (sample_args full_headers).service)) sample_datetime
      (bytes "host" ++ (List.replicate 32 (bytes ";x")).flatten)
      (sample_args full_headers).expire_min sample_env.AWS_SESSION_TOKEN =
      .ok (bytes ("X-Amz-Algorithm=AWS4-HMAC-SHA256&X-Amz-Credential=" ++
        "AKIDEXAMPLE%2F20250101%2Ffr-par%2Fs3%2Faws4_request&X-Amz-Date=20250101T000000Z&" ++
        "X-Amz-Expires=900&X-Amz-SignedHeaders=host") ++
        (List.replicate 32 (bytes "%3Bx")).flatten) := by
    decide
  obtain ⟨c, hc, _, hheaders, _, _, _⟩ := canonicalize_of_steps sample_env
    (sample_args full_headers) sample_date_stamp sample_datetime _ _ _ _ _ _ _ h1 h2 h3 h4 h5 h6
  obtain ⟨r, hr, hrc⟩ := generate_ok_of_canonicalize crypto _ _ _ _ c hc
  have hloop := (canonicalize_ok _ _ _ _ c hc).2.2.2.2.2.2.1
  refine ⟨r, hr, by rw [hrc]; exact hloop, ?_, ?_⟩
  · rw [hrc, hheaders, full_headers_block_length]
    unfold MAX_HEADER_LEN MAX_HEADERS
    omega
  · rw [hrc, hheaders, full_headers_block_length]
    omega

/-! ## The credential -/

/-- The credential is complete when it fits `char credential[512]`. -/
theorem credential_complete (access_key scope : List Byte)
    (h : access_key.length + scope.length + 1 < 512) :
    credential access_key scope = access_key ++ bytes "/" ++ scope := by
  unfold credential
  apply snprintf_of_lt
  have e1 : (bytes "/").length = 1 := rfl
  simp only [List.length_append, e1]
  omega

/-- C23 (code bug): an access key id of 480 bytes `A` passes the credential
checks, and the run of the end-to-end scenario with it prints a URL.  The
complete credential has 512 bytes, `credential` keeps the first 511 of them:
the value signed and sent as `X-Amz-Credential` ends in `aws4_reques`. -/
theorem credential_cut (crypto : crypto_t) (clock : Int) :
    check_credentials { sample_env with AWS_ACCESS_KEY_ID := some long_access_key } =
      .ok (long_access_key, bytes "secret") ∧
    long_access_key.length = 480 ∧
    ∃ r, main crypto (sample_argv (bytes "15") [bytes "--now", bytes "2025-01-01T00:00:00Z"])
        none none { sample_env with AWS_ACCESS_KEY_ID := some long_access_key } clock =
          .printed r ∧
      r.canonical.credential_scope = bytes "20250101/fr-par/s3/aws4_request" ∧
      r.canonical.credential = long_access_key ++ bytes "/20250101/fr-par/s3/aws4_reques" ∧
      r.canonical.credential ≠ long_access_key ++ bytes "/" ++ r.canonical.credential_scope ∧
      r.canonical.query_params =
        bytes "X-Amz-Algorithm=AWS4-HMAC-SHA256&X-Amz-Credential=" ++ long_access_key ++
          bytes ("%2F20250101%2Ffr-par%2Fs3%2Faws4_reques&X-Amz-Date=20250101T000000Z&" ++
            "X-Amz-Expires=900&X-Amz-SignedHeaders=host") := by
  refine ⟨by decide, by decide, ?_⟩
  obtain ⟨r, hmain, hc, _⟩ := main_printed crypto
    (sample_argv (bytes "15") [bytes "--now", bytes "2025-01-01T00:00:00Z"])
    none none { sample_env with AWS_ACCESS_KEY_ID := some long_access_key } clock
    (sample_args []) sample_date_stamp sample_datetime
    (built (canonicalize { sample_env with AWS_ACCESS_KEY_ID := some long_access_key }
      (sample_args []) sample_date_stamp sample_datetime))
    (by decide) (by decide)
    (by rw [resolve_time_override _ _ (by decide)]; decide) (by decide)
  refine ⟨r, hmain, ?_⟩
  rw [hc]
  decide

/-- The value of `X-Amz-Credential` in a query string that was built: the
encoding of the credential. -/
theorem build_query_credential (cred dt signed : List Byte) (e : Int)
    (token : Option (List Byte)) (q : List Byte) (h0 : (0 : Byte) ∉ cred)
    (h : build_query cred dt signed e token = .ok q) :
    ∃ pairs, q = join_pairs pairs ∧ (bytes "X-Amz-Credential", spec_encode false cred) ∈ pairs := by
  obtain ⟨ce, de, se, hce, _, _, _, hq⟩ := build_query_ok cred dt signed e token q h
  have hce2 : ce = spec_encode false cred := by
    rw [url_encode_component_eq false cred _ h0] at hce
    split at hce
    · cases hce; rfl
    · cases hce
  subst hce2
  rcases hq with ⟨_, hq⟩ | ⟨_, et, _, _, _, hq⟩
  · exact ⟨_, by rw [hq, query_format_eq_join], by simp⟩
  · refine ⟨[(bytes "X-Amz-Algorithm", bytes "AWS4-HMAC-SHA256"),
      (bytes "X-Amz-Credential", spec_encode false cred), (bytes "X-Amz-Date", de),
      (bytes "X-Amz-Expires", fmt_d (e * 60)), (bytes "X-Amz-SignedHeaders", se)] ++
      [(bytes "X-Amz-Security-Token", et)], ?_, by simp⟩
    rw [hq]
    exact token_suffix_eq _ et _ (by simp) (query_format_eq_join _ _ se (e * 60))

/-- For a validated request whose complete credential fits `char
credential[512]`, the value of `X-Amz-Credential` is the encoding of the
complete credential. -/
theorem credential_value_complete (env : env_t) (args : presign_args_t) (ds dt : List Byte)
    (c : canonical_t) (hv : validated args) (hkey : (0 : Byte) ∉ c.access_key)
    (hds : c_string 16 ds)
    (hfit : c.access_key.length + ds.length + args.region.length + 18 < 512)
    (h : canonicalize env args ds dt = .ok c) :
    ∃ pairs, c.query_params = join_pairs pairs ∧
      (bytes "X-Amz-Credential", spec_encode false (c.access_key ++ bytes "/" ++ ds ++ bytes "/" ++
        args.region ++ bytes "/" ++ args.service ++ bytes "/aws4_request")) ∈ pairs := by
  obtain ⟨_, _, _, hscope, hcred, _, _, _, hquery, _⟩ := canonicalize_ok env args ds dt c h
  obtain ⟨hservice, _, hregion, _⟩ := hv
  have e1 : (bytes "/").length = 1 := rfl
  have e2 : (bytes "/aws4_request").length = 13 := rfl
  have e3 : (bytes "s3").length = 2 := rfl
  have hscope2 : c.credential_scope =
      ds ++ bytes "/" ++ args.region ++ bytes "/" ++ args.service ++ bytes "/aws4_request" := by
    rw [hscope]
    unfold credential_scope
    apply snprintf_of_lt
    simp only [List.length_append, hservice, e1, e2, e3]
    have := hds.1
    have := hregion.1
    omega
  have hcred2 : c.credential = c.access_key ++ bytes "/" ++ ds ++ bytes "/" ++
      args.region ++ bytes "/" ++ args.service ++ bytes "/aws4_request" := by
    rw [hcred, credential_complete, hscope2]
    · simp only [List.append_assoc]
    · rw [hscope2]
      simp only [List.length_append, hservice, e1, e2, e3]
      omega
  rw [← hcred2]
  apply build_query_credential _ _ _ _ _ _ ?_ hquery
  rw [hcred2, hservice]
  simp only [List.mem_append, not_or]
  have s1 : (0 : Byte) ∉ bytes "/" := by decide
  have s2 : (0 : Byte) ∉ bytes "s3" := by decide
  have s3 : (0 : Byte) ∉ bytes "/aws4_request" := by decide
  exact ⟨⟨⟨⟨⟨⟨⟨hkey, s1⟩, hds.2⟩, s1⟩, hregion.2⟩, s1⟩, s2⟩, s3⟩

end Presign
